import Mathlib

/-!
Verification of the serde-json-wasm specification against a shallow embedding
of the crate.

The repository ships only the crate root (module wiring, documentation and the
round-trip test `can_serde`); the bodies of the `de` and `ser` modules are not
part of the visible sources.  Following the specification (sections 3, 4.1-4.4
and 6), both engines are therefore modelled here from the spec text:

- values are JSON-encodable Rust values (`Value`), guided by a static shape
  (`Schema`) standing for the target Rust type that drives serde;
- the serializer is a compact push-writer producing a byte list, plus a
  capacity-checked variant that fails with `BufferFull`;
- the deserializer is a byte-level recursive-descent parser over a borrowed
  byte list, schema-directed, with per-target-width integer accumulation and
  raw (non-decoding) string slicing.

Bytes are modelled as natural numbers; input buffers and sinks are `List Nat`.
-/

namespace SerdeJsonWasm

/-- Modelled from the spec: the error taxonomy of section 4.1, a closed C-like
enumeration of failure kinds shared by both engines. -/
inductive Error where
  | UnexpectedEnd
  | InvalidType
  | InvalidNumber
  | IntegerOverflow
  | InvalidUnicodeCodePoint
  | ExpectedSomeValue
  | ExpectedNull
  | UnknownVariant
  | MissingField
  | TrailingCharacters
  | BufferFull
deriving DecidableEq

/-- Modelled from the spec: the static shape of a decode/encode target type
(section 3, scalar and composite value space).  It stands for the compile-time
type information that the structural protocol (section 4.2) feeds to the
engines: integer width and signedness, optionality, fixed-arity tuples and
fixed arrays (`sTup`), variable-length sequences (`sList`), records with named
fields, and externally tagged enums whose variants carry an optional payload.
A float target (`sFloat`) is a binary floating-point type of `prec` mantissa
bits and minimum exponent `emin` (single precision is `sFloat 24 (-149)`,
double precision `sFloat 53 (-1074)`); the model places no upper bound on the
exponent, so every modelled float value is finite, matching the claim's
"finite floats" class. -/
inductive Schema where
  | sBool
  | sInt (signed : Bool) (bits : Nat)
  | sFloat (prec : Nat) (emin : Int)
  | sStr
  | sOpt (s : Schema)
  | sList (s : Schema)
  | sTup (ss : List Schema)
  | sRec (fields : List (List Nat × Schema))
  | sEnum (variants : List (List Nat × Option Schema))

/-- Modelled from the spec: an in-memory value of the supported value space
(section 3).  Strings are byte lists (the zero-copy borrowed slices of the
input).  `vNone`/`vSome` are the empty and present optional states; `vSeq`
covers tuples, fixed arrays and lists; `vRec` is a record with named fields in
declaration order; enum variants are either unit or carry one payload.  A
finite binary floating-point value is `vFloat m e`, standing for m·2^e (the
two IEEE zeros are identified, canonically `vFloat 0 0`). -/
inductive Value where
  | vBool (b : Bool)
  | vInt (n : Int)
  | vFloat (m : Int) (e : Int)
  | vStr (s : List Nat)
  | vNone
  | vSome (v : Value)
  | vSeq (l : List Value)
  | vRec (fs : List (List Nat × Value))
  | vEnumUnit (t : List Nat)
  | vEnumPayload (t : List Nat) (p : Value)

/-! ### Serializer (spec section 4.4): compact push-writer -/

/-- Lower-case hexadecimal digit, for numeric control escapes. -/
def hexDigit (n : Nat) : Nat := if n < 10 then 48 + n else 87 + n

/-- Modelled from the spec: minimal string escaping on output (section 4.4):
backslash and double quote get a backslash escape, control bytes below 0x20
use the shortest valid JSON escape (named where defined, else numeric), and
every other byte passes through unmodified. -/
def escByte (b : Nat) : List Nat :=
  if b = 34 then [92, 34]
  else if b = 92 then [92, 92]
  else if b = 8 then [92, 98]
  else if b = 9 then [92, 116]
  else if b = 10 then [92, 110]
  else if b = 12 then [92, 102]
  else if b = 13 then [92, 114]
  else if b < 32 then [92, 117, 48, 48, hexDigit (b / 16), hexDigit (b % 16)]
  else [b]

/-- Escape every byte of a string body. -/
def escBytes : List Nat → List Nat
  | [] => []
  | b :: bs => escByte b ++ escBytes bs

/-- A serialized JSON string: quote, escaped body, quote. -/
def encodeStr (s : List Nat) : List Nat := 34 :: (escBytes s ++ [34])

/-- Decimal digits of a natural number (ASCII, most significant first); the
first argument is structural recursion fuel, sufficient whenever n < fuel. -/
def natDecAux : Nat → Nat → List Nat
  | 0, _ => []
  | fuel + 1, n => if n < 10 then [48 + n] else natDecAux fuel (n / 10) ++ [48 + n % 10]

/-- Decimal representation of a natural number. -/
def natDec (n : Nat) : List Nat := natDecAux (n + 1) n

/-- Decimal representation of an integer, with a leading minus when negative. -/
def intDec (n : Int) : List Nat := if n < 0 then 45 :: natDec n.natAbs else natDec n.toNat

/-- Modelled from the spec: the serialized text of the finite binary float
m·2^e (the number-to-text conversion of section 4.4; the spec fixes no
particular algorithm, so the model emits the exact decimal value, which -
like the implementation's shortest-round-tripping output - re-parses to the
same float): a plain integer literal for e ≥ 0, and scientific notation,
mantissa m·5^(-e) followed by the exponent marker and the exponent e (so the
emitted mantissa times 10^e is exactly m·2^e), for e < 0. -/
def floatDec (m : Int) (e : Int) : List Nat :=
  if 0 ≤ e then intDec (m * 2 ^ e.toNat)
  else intDec (m * 5 ^ (-e).toNat) ++ 101 :: intDec e

mutual
/-- Modelled from the spec: the compact serialized form of a value
(section 4.4): single forward pass, no added whitespace, no trailing commas,
keys always double-quoted; `true`/`false`/`null` keyword literals; a present
optional serializes as its payload; a unit enum variant as a bare string and a
payload variant as a single-key object (externally tagged, section 4.2). -/
def encodeValue : Value → List Nat
  | .vBool true => [116, 114, 117, 101]
  | .vBool false => [102, 97, 108, 115, 101]
  | .vInt n => intDec n
  | .vFloat m e => floatDec m e
  | .vStr s => encodeStr s
  | .vNone => [110, 117, 108, 108]
  | .vSome v => encodeValue v
  | .vSeq l => 91 :: (encodeElems l ++ [93])
  | .vRec fs => 123 :: (encodePairs fs ++ [125])
  | .vEnumUnit t => encodeStr t
  | .vEnumPayload t p => 123 :: (encodeStr t ++ 58 :: (encodeValue p ++ [125]))
/-- Comma-separated serialized sequence elements. -/
def encodeElems : List Value → List Nat
  | [] => []
  | [v] => encodeValue v
  | v :: w :: vs => encodeValue v ++ 44 :: encodeElems (w :: vs)
/-- Comma-separated serialized record members, keys in declaration order. -/
def encodePairs : List (List Nat × Value) → List Nat
  | [] => []
  | [(n, v)] => encodeStr n ++ 58 :: encodeValue v
  | (n, v) :: p :: fs => encodeStr n ++ 58 :: (encodeValue v ++ 44 :: encodePairs (p :: fs))
end

/-! ### Capacity-checked sink (spec sections 3 and 5): the serializer writes
incrementally into a caller-supplied bounded sink and fails with `BufferFull`
rather than growing it or truncating. -/

/-- Modelled from the spec: append bytes to a bounded sink one at a time,
failing with `BufferFull` as soon as the capacity would be exceeded. -/
def wBytes (cap : Nat) (out : List Nat) : List Nat → Except Error (List Nat)
  | [] => .ok out
  | b :: bs => if out.length < cap then wBytes cap (out ++ [b]) bs else .error .BufferFull

mutual
/-- Modelled from the spec: the incremental serializer engine (section 4.4):
walks the value in a single forward pass, pushing bytes into the bounded sink
as it goes, propagating `BufferFull`. -/
def serValue (cap : Nat) (out : List Nat) : Value → Except Error (List Nat)
  | .vBool true => wBytes cap out [116, 114, 117, 101]
  | .vBool false => wBytes cap out [102, 97, 108, 115, 101]
  | .vInt n => wBytes cap out (intDec n)
  | .vFloat m e => wBytes cap out (floatDec m e)
  | .vStr s => wBytes cap out (encodeStr s)
  | .vNone => wBytes cap out [110, 117, 108, 108]
  | .vSome v => serValue cap out v
  | .vSeq l =>
    match wBytes cap out [91] with
    | .error e => .error e
    | .ok o1 =>
      match serElems cap o1 l with
      | .error e => .error e
      | .ok o2 => wBytes cap o2 [93]
  | .vRec fs =>
    match wBytes cap out [123] with
    | .error e => .error e
    | .ok o1 =>
      match serPairs cap o1 fs with
      | .error e => .error e
      | .ok o2 => wBytes cap o2 [125]
  | .vEnumUnit t => wBytes cap out (encodeStr t)
  | .vEnumPayload t p =>
    match wBytes cap out (123 :: (encodeStr t ++ [58])) with
    | .error e => .error e
    | .ok o1 =>
      match serValue cap o1 p with
      | .error e => .error e
      | .ok o2 => wBytes cap o2 [125]
/-- Incrementally write the elements of a sequence, comma separated. -/
def serElems (cap : Nat) (out : List Nat) : List Value → Except Error (List Nat)
  | [] => .ok out
  | [v] => serValue cap out v
  | v :: w :: vs =>
    match serValue cap out v with
    | .error e => .error e
    | .ok o1 =>
      match wBytes cap o1 [44] with
      | .error e => .error e
      | .ok o2 => serElems cap o2 (w :: vs)
/-- Incrementally write the members of a record, comma separated. -/
def serPairs (cap : Nat) (out : List Nat) : List (List Nat × Value) → Except Error (List Nat)
  | [] => .ok out
  | [(n, v)] =>
    match wBytes cap out (encodeStr n ++ [58]) with
    | .error e => .error e
    | .ok o1 => serValue cap o1 v
  | (n, v) :: p :: fs =>
    match wBytes cap out (encodeStr n ++ [58]) with
    | .error e => .error e
    | .ok o1 =>
      match serValue cap o1 v with
      | .error e => .error e
      | .ok o2 =>
        match wBytes cap o2 [44] with
        | .error e => .error e
        | .ok o3 => serPairs cap o3 (p :: fs)
end

/-- Modelled from the spec: the encode entry point (section 6) writing into a
caller-supplied sink of capacity `cap`, returning the populated sink or
`BufferFull`. -/
def to_vec (v : Value) (cap : Nat) : Except Error (List Nat) := serValue cap [] v

/-! ### Deserializer (spec section 4.3): recursive-descent pull parser -/

/-- JSON insignificant whitespace. -/
def isWs (b : Nat) : Bool := b = 32 || b = 9 || b = 10 || b = 13

/-- Skip insignificant whitespace between tokens. -/
def skipWs : List Nat → List Nat
  | [] => []
  | b :: bs => if isWs b then skipWs bs else b :: bs

/-- Largest value representable in the target integer type. -/
def intMax (signed : Bool) (bits : Nat) : Int :=
  if signed then 2 ^ (bits - 1) - 1 else 2 ^ bits - 1

/-- Smallest value representable in the target integer type. -/
def intMin (signed : Bool) (bits : Nat) : Int :=
  if signed then -(2 ^ (bits - 1)) else 0

/-- ASCII decimal digit test. -/
def isDigit (b : Nat) : Bool := 48 ≤ b && b ≤ 57

/-- Modelled from the spec: digit accumulation for a non-negative integer
(section 4.3): each digit is combined into the accumulator by a checked
multiply-then-add against the range of the target type itself, failing
immediately with `IntegerOverflow`, so no wide intermediate type is used. -/
def parsePosDigits (maxV : Int) (acc : Int) : List Nat → Except Error (Int × List Nat)
  | [] => .ok (acc, [])
  | b :: bs =>
    if isDigit b then
      if acc * 10 + ((b : Int) - 48) ≤ maxV then
        parsePosDigits maxV (acc * 10 + ((b : Int) - 48)) bs
      else .error .IntegerOverflow
    else .ok (acc, b :: bs)

/-- Checked multiply-then-subtract accumulation for a negative integer,
against the minimum of the target type. -/
def parseNegDigits (minV : Int) (acc : Int) : List Nat → Except Error (Int × List Nat)
  | [] => .ok (acc, [])
  | b :: bs =>
    if isDigit b then
      if minV ≤ acc * 10 - ((b : Int) - 48) then
        parseNegDigits minV (acc * 10 - ((b : Int) - 48)) bs
      else .error .IntegerOverflow
    else .ok (acc, b :: bs)

/-- Digit run of an integer literal after the optional sign: at least one
digit, a leading zero followed by another digit is rejected (section 4.3 edge
cases), and accumulation is range-checked in the target type. -/
def parseIntDigits (signed : Bool) (bits : Nat) (neg : Bool) : List Nat → Except Error (Int × List Nat)
  | [] => if neg then .error .InvalidNumber else .error .UnexpectedEnd
  | b :: bs =>
    if isDigit b then
      if b = 48 then
        match bs with
        | c :: _ =>
          if isDigit c then .error .InvalidNumber
          else .ok (0, bs)
        | [] => .ok (0, [])
      else
        if neg then parseNegDigits (intMin signed bits) 0 (b :: bs)
        else parsePosDigits (intMax signed bits) 0 (b :: bs)
    else .error .InvalidType

/-- Modelled from the spec: integer literal parser (section 4.3); a leading
minus routes to the negative accumulator (for an unsigned target the first
digit then immediately fails the range check of minimum zero). -/
def parseInt (signed : Bool) (bits : Nat) : List Nat → Except Error (Int × List Nat)
  | [] => .error .UnexpectedEnd
  | b :: bs =>
    if b = 45 then parseIntDigits signed bits true bs
    else parseIntDigits signed bits false (b :: bs)

/-- Fuel-driven floor of the base-2 logarithm; any fuel ≥ n suffices. -/
def log2F : Nat → Nat → Nat
  | 0, _ => 0
  | fuel + 1, n => if n ≤ 1 then 0 else log2F fuel (n / 2) + 1

/-- Floor of the base-2 logarithm of a positive natural number. -/
def ilog2N (n : Nat) : Nat := log2F n n

/-- Floor of the base-2 logarithm of N·10^k (for N ≥ 1), computed exactly in
integer arithmetic: for k < 0 the quotient N·2^B / 10^(-k), with B chosen so
that 2^B > 10^(-k), has the base-2 logarithm of N/10^(-k) shifted up by B. -/
def ilog2Q (N : Nat) (k : Int) : Int :=
  if 0 ≤ k then (ilog2N (N * 10 ^ k.toNat) : Int)
  else
    (ilog2N (N * 2 ^ (ilog2N (10 ^ (-k).toNat) + 1) / 10 ^ (-k).toNat) : Int)
      - (ilog2N (10 ^ (-k).toNat) + 1)

/-- Division rounded to the nearest integer, ties to even. -/
def roundDiv (A B : Nat) : Nat :=
  if 2 * (A % B) < B then A / B
  else if B < 2 * (A % B) then A / B + 1
  else if A / B % 2 = 0 then A / B else A / B + 1

/-- Modelled from the spec: conversion of the exact decimal value N·10^k
(N ≥ 1) to the requested precision directly (section 4.3): the mantissa and
exponent of the nearest (ties to even) binary float m·2^e with a p-bit
mantissa and exponent at least emin. -/
def toFloatPos (p : Nat) (emin : Int) (N : Nat) (k : Int) : Nat × Int :=
  let e := max emin (ilog2Q N k - ((p : Int) - 1))
  let m := roundDiv (N * 10 ^ k.toNat * 2 ^ (-e).toNat) (10 ^ (-k).toNat * 2 ^ e.toNat)
  if m < 2 ^ p then (m, e) else (m / 2, e + 1)

/-- The finished float value: sign applied, zero collapsed to the canonical
positive zero (the model does not distinguish a negative zero). -/
def floatOf (p : Nat) (emin : Int) (sign : Bool) (N : Nat) (k : Int) : Value :=
  if N = 0 then .vFloat 0 0
  else
    let me := toFloatPos p emin N k
    .vFloat (if sign then -(me.1 : Int) else (me.1 : Int)) me.2

/-- The value m·2^e is the canonical representation of a finite float of the
given precision: zero is (0, 0), and otherwise the p-bit mantissa has its top
bit set unless the exponent has bottomed out at emin. -/
def floatCanon (p : Nat) (emin : Int) (m : Int) (e : Int) : Bool :=
  if m = 0 then decide (e = 0)
  else decide (m.natAbs < 2 ^ p) && decide (emin ≤ e)
    && (decide (2 ^ (p - 1) ≤ m.natAbs) || decide (e = emin))

/-- Exact accumulated value of the leading run of decimal digits. -/
def digitsVal (acc : Nat) : List Nat → Nat
  | [] => acc
  | b :: bs => if isDigit b then digitsVal (acc * 10 + (b - 48)) bs else acc

/-- What remains after the leading run of decimal digits. -/
def digitsRest : List Nat → List Nat
  | [] => []
  | b :: bs => if isDigit b then digitsRest bs else b :: bs

/-- How many decimal digits lead the input. -/
def digitsCount : List Nat → Nat
  | [] => 0
  | b :: bs => if isDigit b then digitsCount bs + 1 else 0

/-- Optional exponent part of a float literal (an exponent marker, an
optional sign, then at least one digit), closing the accumulated decimal. -/
def parseFloatExp (p : Nat) (emin : Int) (sign : Bool) (N : Nat) (k : Int) :
    List Nat → Except Error (Value × List Nat)
  | [] => .ok (floatOf p emin sign N k, [])
  | b :: bs =>
    if b = 101 || b = 69 then
      match bs with
      | [] => .error .UnexpectedEnd
      | c :: bs2 =>
        if c = 45 then
          match bs2 with
          | [] => .error .InvalidNumber
          | d :: _ =>
            if isDigit d then
              .ok (floatOf p emin sign N (k - (digitsVal 0 bs2 : Int)), digitsRest bs2)
            else .error .InvalidNumber
        else if c = 43 then
          match bs2 with
          | [] => .error .InvalidNumber
          | d :: _ =>
            if isDigit d then
              .ok (floatOf p emin sign N (k + (digitsVal 0 bs2 : Int)), digitsRest bs2)
            else .error .InvalidNumber
        else
          if isDigit c then
            .ok (floatOf p emin sign N (k + (digitsVal 0 (c :: bs2) : Int)),
              digitsRest (c :: bs2))
          else .error .InvalidNumber
    else .ok (floatOf p emin sign N k, b :: bs)

/-- Optional fractional part of a float literal (a decimal point with at
least one digit, scaling the mantissa by 10 per digit), then the exponent
part. -/
def parseFloatTail (p : Nat) (emin : Int) (sign : Bool) (ipart : Nat) :
    List Nat → Except Error (Value × List Nat)
  | [] => parseFloatExp p emin sign ipart 0 []
  | b :: bs =>
    if b = 46 then
      match bs with
      | [] => .error .InvalidNumber
      | c :: _ =>
        if isDigit c then
          parseFloatExp p emin sign (ipart * 10 ^ digitsCount bs + digitsVal 0 bs)
            (-(digitsCount bs : Int)) (digitsRest bs)
        else .error .InvalidNumber
    else parseFloatExp p emin sign ipart 0 (b :: bs)

/-- Modelled from the spec: the float path of number parsing (section 4.3):
mantissa digits (same leading-zero rule as for integers), optional fractional
digits, optional signed exponent, all accumulated exactly and converted to
the requested precision directly. -/
def parseFloatDigits (p : Nat) (emin : Int) (sign : Bool) :
    List Nat → Except Error (Value × List Nat)
  | [] => if sign then .error .InvalidNumber else .error .UnexpectedEnd
  | b :: bs =>
    if isDigit b then
      if b = 48 then
        match bs with
        | c :: _ =>
          if isDigit c then .error .InvalidNumber
          else parseFloatTail p emin sign 0 bs
        | [] => .ok (floatOf p emin sign 0 0, [])
      else
        parseFloatTail p emin sign (digitsVal 0 (b :: bs)) (digitsRest (b :: bs))
    else .error .InvalidType

/-- A float literal: an optional leading minus (floats are always signed),
then the digit path. -/
def parseFloat (p : Nat) (emin : Int) : List Nat → Except Error (Value × List Nat)
  | [] => .error .UnexpectedEnd
  | b :: bs =>
    if b = 45 then parseFloatDigits p emin true bs
    else parseFloatDigits p emin false (b :: bs)

mutual
/-- Modelled from the spec: string scanning (section 4.3): byte by byte from
after the opening quote; a backslash causes the following byte to be skipped
without interpretation; the returned value is the raw subslice up to the
closing quote, escape sequences left unmodified. -/
def scanStr : List Nat → Except Error (List Nat × List Nat)
  | [] => .error .UnexpectedEnd
  | b :: rest =>
    if b = 34 then .ok ([], rest)
    else if b = 92 then
      match scanEsc rest with
      | .ok (s, r) => .ok (92 :: s, r)
      | .error e => .error e
    else
      match scanStr rest with
      | .ok (s, r) => .ok (b :: s, r)
      | .error e => .error e
/-- The byte after a backslash is consumed without interpretation. -/
def scanEsc : List Nat → Except Error (List Nat × List Nat)
  | [] => .error .UnexpectedEnd
  | c :: rest =>
    match scanStr rest with
    | .ok (s, r) => .ok (c :: s, r)
    | .error e => .error e
end

/-- A JSON string token: an opening quote followed by the scanned body. -/
def parseStr : List Nat → Except Error (List Nat × List Nat)
  | 34 :: rest => scanStr rest
  | [] => .error .UnexpectedEnd
  | _ => .error .InvalidType

/-- Bytes that may occur inside a number literal. -/
def isNumByte (b : Nat) : Bool :=
  isDigit b || b = 45 || b = 43 || b = 46 || b = 101 || b = 69

/-- Drop the remaining bytes of a number literal being skipped. -/
def dropNum : List Nat → List Nat
  | [] => []
  | b :: bs => if isNumByte b then dropNum bs else b :: bs

/-- Skip the remaining comma-separated elements of an array whose value is
being structurally discarded (spec section 4.2: unrecognized keys are skipped
structurally).  `sk` skips one value; fuel bounds the number of elements. -/
def skipElems (sk : List Nat → Except Error (List Nat)) : Nat → List Nat → Except Error (List Nat)
  | 0, _ => .error .UnexpectedEnd
  | fuel + 1, bs =>
    match sk bs with
    | .error e => .error e
    | .ok r =>
      match skipWs r with
      | 44 :: r2 => skipElems sk fuel (skipWs r2)
      | 93 :: r2 => .ok r2
      | _ => .error .InvalidType

/-- Skip the remaining members of an object being structurally discarded. -/
def skipPairs (sk : List Nat → Except Error (List Nat)) : Nat → List Nat → Except Error (List Nat)
  | 0, _ => .error .UnexpectedEnd
  | fuel + 1, bs =>
    match parseStr (skipWs bs) with
    | .error e => .error e
    | .ok (_, r) =>
      match skipWs r with
      | 58 :: r2 =>
        match sk (skipWs r2) with
        | .error e => .error e
        | .ok r3 =>
          match skipWs r3 with
          | 44 :: r4 => skipPairs sk fuel (skipWs r4)
          | 125 :: r4 => .ok r4
          | _ => .error .InvalidType
      | _ => .error .InvalidType

/-- Dispatch for skipping the remainder of an array being discarded. -/
def skipListBody (sk : List Nat → Except Error (List Nat)) (fuel : Nat) : List Nat → Except Error (List Nat)
  | [] => .error .UnexpectedEnd
  | c :: r2 => if c = 93 then .ok r2 else skipElems sk fuel (c :: r2)

/-- Dispatch for skipping the remainder of an object being discarded. -/
def skipObjBody (sk : List Nat → Except Error (List Nat)) (fuel : Nat) : List Nat → Except Error (List Nat)
  | [] => .error .UnexpectedEnd
  | c :: r2 => if c = 125 then .ok r2 else skipPairs sk fuel (c :: r2)

/-- Head dispatch of the structural skip, on the whitespace-trimmed input. -/
def skipTok (sk : List Nat → Except Error (List Nat)) (fuel : Nat) : List Nat → Except Error (List Nat)
  | [] => .error .UnexpectedEnd
  | b :: r =>
    if b = 116 then
      (match r with
       | 114 :: 117 :: 101 :: r2 => .ok r2
       | _ => .error .InvalidType)
    else if b = 102 then
      (match r with
       | 97 :: 108 :: 115 :: 101 :: r2 => .ok r2
       | _ => .error .InvalidType)
    else if b = 110 then
      (match r with
       | 117 :: 108 :: 108 :: r2 => .ok r2
       | _ => .error .InvalidType)
    else if b = 34 then
      (match scanStr r with
       | .ok (_, r2) => .ok r2
       | .error e => .error e)
    else if b = 91 then skipListBody sk fuel (skipWs r)
    else if b = 123 then skipObjBody sk fuel (skipWs r)
    else if isNumByte b then .ok (dropNum r)
    else .error .InvalidType

/-- Modelled from the spec: structural skip of one arbitrary JSON value
(section 4.2), consuming it fully without building anything. -/
def skipAny : Nat → List Nat → Except Error (List Nat)
  | 0, _ => .error .UnexpectedEnd
  | fuel + 1, bs => skipTok (skipAny fuel) fuel (skipWs bs)

/-- First-match association lookup with exact byte-for-byte key comparison
(spec section 4.2: exact match, no case folding). -/
def lookupN {α : Type} : List (List Nat × α) → List Nat → Option α
  | [], _ => none
  | (n, a) :: rest, k => if n = k then some a else lookupN rest k

/-- Parse the remaining comma-separated elements of a non-empty variable
length sequence; `pv` parses one element. -/
def elemsLoop (pv : List Nat → Except Error (Value × List Nat)) : Nat → List Nat → Except Error (List Value × List Nat)
  | 0, _ => .error .UnexpectedEnd
  | fuel + 1, bs =>
    match pv bs with
    | .error e => .error e
    | .ok (v, r) =>
      match skipWs r with
      | 44 :: r2 => (elemsLoop pv fuel (skipWs r2)).map (fun p => (v :: p.1, p.2))
      | 93 :: r2 => .ok ([v], r2)
      | _ => .error .InvalidType

/-- Parse the elements of a fixed-arity sequence, one schema per slot; the
closing bracket must follow the final slot (length mismatch is
`InvalidType`, spec section 4.3). -/
def tupLoop (pv : Schema → List Nat → Except Error (Value × List Nat)) : List Schema → List Nat → Except Error (List Value × List Nat)
  | [], bs =>
    (match skipWs bs with
     | 93 :: r => .ok ([], r)
     | _ => .error .InvalidType)
  | [s], bs =>
    match pv s (skipWs bs) with
    | .error e => .error e
    | .ok (v, r) =>
      match skipWs r with
      | 93 :: r2 => .ok ([v], r2)
      | _ => .error .InvalidType
  | s :: s2 :: ss, bs =>
    match pv s (skipWs bs) with
    | .error e => .error e
    | .ok (v, r) =>
      match skipWs r with
      | 44 :: r2 => (tupLoop pv (s2 :: ss) r2).map (fun p => (v :: p.1, p.2))
      | _ => .error .InvalidType

/-- Parse the members of a non-empty record object: each key is matched
exactly against the declared field names; a declared key parses its value with
the field schema and is recorded, an unrecognized key has its value skipped
structurally and discarded (spec sections 4.2 and 4.3). -/
def pairsLoop (pv : Schema → List Nat → Except Error (Value × List Nat))
    (sk : List Nat → Except Error (List Nat))
    (fields : List (List Nat × Schema)) :
    Nat → List Nat → List (List Nat × Value) → Except Error (List (List Nat × Value) × List Nat)
  | 0, _, _ => .error .UnexpectedEnd
  | fuel + 1, bs, seen =>
    match parseStr (skipWs bs) with
    | .error e => .error e
    | .ok (k, r) =>
      match skipWs r with
      | 58 :: r2 =>
        (match lookupN fields k with
         | some sch =>
           match pv sch (skipWs r2) with
           | .error e => .error e
           | .ok (v, r3) =>
             (match skipWs r3 with
              | 44 :: r4 => pairsLoop pv sk fields fuel (skipWs r4) (seen ++ [(k, v)])
              | 125 :: r4 => .ok (seen ++ [(k, v)], r4)
              | _ => .error .InvalidType)
         | none =>
           match sk (skipWs r2) with
           | .error e => .error e
           | .ok r3 =>
             (match skipWs r3 with
              | 44 :: r4 => pairsLoop pv sk fields fuel (skipWs r4) seen
              | 125 :: r4 => .ok (seen, r4)
              | _ => .error .InvalidType))
      | _ => .error .InvalidType

/-- Optionality test on a schema. -/
def isOptS : Schema → Bool
  | .sOpt _ => true
  | _ => false

/-- Modelled from the spec: resolve the declared fields against the key/value
pairs found in the object (section 4.2): a field found among the parsed pairs
takes its parsed value; a field absent from the input is the empty optional
state when its type is optional and `MissingField` otherwise. -/
def assemble (seen : List (List Nat × Value)) : List (List Nat × Schema) → Except Error (List (List Nat × Value))
  | [] => .ok []
  | (n, sch) :: fs =>
    match lookupN seen n with
    | some v => (assemble seen fs).map (fun l => (n, v) :: l)
    | none =>
      if isOptS sch then (assemble seen fs).map (fun l => (n, Value.vNone) :: l)
      else .error .MissingField

/-- Boolean literal parse on the trimmed input. -/
def parseBool : List Nat → Except Error (Value × List Nat)
  | 116 :: 114 :: 117 :: 101 :: r => .ok (.vBool true, r)
  | 102 :: 97 :: 108 :: 115 :: 101 :: r => .ok (.vBool false, r)
  | [] => .error .UnexpectedEnd
  | _ => .error .InvalidType

/-- Optional dispatch on the trimmed input: a `null` literal is the empty
state, anything else parses as the payload of a present optional. -/
def optBody (pv1 : List Nat → Except Error (Value × List Nat)) : List Nat → Except Error (Value × List Nat)
  | [] => .error .UnexpectedEnd
  | b :: r =>
    if b = 110 then
      (match r with
       | 117 :: 108 :: 108 :: r2 => .ok (.vNone, r2)
       | _ => .error .ExpectedNull)
    else (pv1 (b :: r)).map (fun p => (.vSome p.1, p.2))

/-- Array-interior dispatch: an immediate closing bracket is the empty
sequence, anything else starts the element loop. -/
def listBody (pe : Nat → List Nat → Except Error (List Value × List Nat)) (fuel : Nat) : List Nat → Except Error (Value × List Nat)
  | [] => .error .UnexpectedEnd
  | c :: r2 =>
    if c = 93 then .ok (.vSeq [], r2)
    else (pe fuel (c :: r2)).map (fun p => (.vSeq p.1, p.2))

/-- Array head for a variable-length sequence target. -/
def listHead (pe : Nat → List Nat → Except Error (List Value × List Nat)) (fuel : Nat) : List Nat → Except Error (Value × List Nat)
  | 91 :: r => listBody pe fuel (skipWs r)
  | [] => .error .UnexpectedEnd
  | _ => .error .InvalidType

/-- Array head for a fixed-arity tuple target. -/
def tupHead (pt : List Nat → Except Error (List Value × List Nat)) : List Nat → Except Error (Value × List Nat)
  | 91 :: r => (pt r).map (fun p => (.vSeq p.1, p.2))
  | [] => .error .UnexpectedEnd
  | _ => .error .InvalidType

/-- Object-interior dispatch for a record target: an immediate closing brace
resolves the declared fields against no pairs, anything else starts the
member loop. -/
def recBody (pp : Nat → List Nat → List (List Nat × Value) → Except Error (List (List Nat × Value) × List Nat))
    (fields : List (List Nat × Schema)) (fuel : Nat) : List Nat → Except Error (Value × List Nat)
  | [] => .error .UnexpectedEnd
  | c :: r2 =>
    if c = 125 then (assemble [] fields).map (fun l => (.vRec l, r2))
    else
      match pp fuel (c :: r2) [] with
      | .error e => .error e
      | .ok (seen, r3) => (assemble seen fields).map (fun l => (.vRec l, r3))

/-- Object head for a record target. -/
def recHead (pp : Nat → List Nat → List (List Nat × Value) → Except Error (List (List Nat × Value) × List Nat))
    (fields : List (List Nat × Schema)) (fuel : Nat) : List Nat → Except Error (Value × List Nat)
  | 123 :: r => recBody pp fields fuel (skipWs r)
  | [] => .error .UnexpectedEnd
  | _ => .error .InvalidType

/-- Enum dispatch (spec sections 4.2 and 4.3): a bare string selects a unit
variant by exact name, a single-key object selects a payload variant by exact
name; an unmatched tag is `UnknownVariant`. -/
def enumHead (pv : Schema → List Nat → Except Error (Value × List Nat))
    (variants : List (List Nat × Option Schema)) : List Nat → Except Error (Value × List Nat)
  | 34 :: r =>
    (match scanStr r with
     | .error e => .error e
     | .ok (t, r2) =>
       match lookupN variants t with
       | some none => .ok (.vEnumUnit t, r2)
       | some (some _) => .error .InvalidType
       | none => .error .UnknownVariant)
  | 123 :: r =>
    (match parseStr (skipWs r) with
     | .error e => .error e
     | .ok (t, r2) =>
       match skipWs r2 with
       | 58 :: r3 =>
         (match lookupN variants t with
          | some (some s) =>
            (match pv s (skipWs r3) with
             | .error e => .error e
             | .ok (p, r4) =>
               match skipWs r4 with
               | 125 :: r5 => .ok (.vEnumPayload t p, r5)
               | _ => .error .InvalidType)
          | some none => .error .InvalidType
          | none => .error .UnknownVariant)
       | _ => .error .InvalidType)
  | [] => .error .UnexpectedEnd
  | _ => .error .InvalidType

/-- Modelled from the spec: the recursive-descent deserializer engine
(section 4.3), one grammar production per JSON value kind, guided by the
schema of the target type.  Fuel makes the recursion structural; every entry
point supplies provably sufficient fuel. -/
def parseValue : Nat → Schema → List Nat → Except Error (Value × List Nat)
  | 0, _, _ => .error .UnexpectedEnd
  | fuel + 1, sch, bs0 =>
    match sch with
    | .sBool => parseBool (skipWs bs0)
    | .sInt sg bits => (parseInt sg bits (skipWs bs0)).map (fun p => (.vInt p.1, p.2))
    | .sFloat pr em => parseFloat pr em (skipWs bs0)
    | .sStr => (parseStr (skipWs bs0)).map (fun p => (.vStr p.1, p.2))
    | .sOpt s => optBody (parseValue fuel s) (skipWs bs0)
    | .sList s => listHead (elemsLoop (parseValue fuel s)) fuel (skipWs bs0)
    | .sTup ss => tupHead (tupLoop (parseValue fuel) ss) (skipWs bs0)
    | .sRec fields => recHead (fun f r seen => pairsLoop (parseValue fuel) (skipAny fuel) fields f r seen) fields fuel (skipWs bs0)
    | .sEnum variants => enumHead (parseValue fuel) variants (skipWs bs0)

mutual
/-- Structural size of a schema, used to size the parser fuel. -/
def schemaSize : Schema → Nat
  | .sBool => 1
  | .sFloat _ _ => 1
  | .sInt _ _ => 1
  | .sStr => 1
  | .sOpt s => 1 + schemaSize s
  | .sList s => 1 + schemaSize s
  | .sTup ss => 1 + schemaSizes ss
  | .sRec fields => 1 + schemaSizesF fields
  | .sEnum variants => 1 + schemaSizesV variants
/-- Summed size of tuple slot schemas. -/
def schemaSizes : List Schema → Nat
  | [] => 0
  | s :: ss => schemaSize s + schemaSizes ss
/-- Summed size of record field schemas. -/
def schemaSizesF : List (List Nat × Schema) → Nat
  | [] => 0
  | (_, s) :: fs => schemaSize s + schemaSizesF fs
/-- Summed size of enum variant schemas. -/
def schemaSizesV : List (List Nat × Option Schema) → Nat
  | [] => 0
  | (_, none) :: vs => 1 + schemaSizesV vs
  | (_, some s) :: vs => schemaSize s + schemaSizesV vs
end

/-- Modelled from the spec: the decode-from-bytes entry point (section 6):
parse one value off the byte buffer, then fail with `TrailingCharacters` if
anything but whitespace remains. -/
def from_slice (sch : Schema) (bs : List Nat) : Except Error Value :=
  match parseValue ((schemaSize sch + 1) * (bs.length + 1)) sch bs with
  | .error e => .error e
  | .ok (v, r) => if skipWs r = [] then .ok v else .error .TrailingCharacters

/-- UTF-8 bytes of one character. -/
def charUtf8 (c : Char) : List Nat :=
  let n := c.toNat
  if n < 128 then [n]
  else if n < 2048 then [192 + n / 64, 128 + n % 64]
  else if n < 65536 then [224 + n / 4096, 128 + (n / 64) % 64, 128 + n % 64]
  else [240 + n / 262144, 128 + (n / 4096) % 64, 128 + (n / 64) % 64, 128 + n % 64]

/-- UTF-8 byte sequence of a text input. -/
def utf8Bytes (s : String) : List Nat := (s.data.map charUtf8).flatten

/-- Modelled from the spec: the decode-from-text entry point (section 6):
the same parse over the UTF-8 bytes of the validated text input, with the
same trailing-characters check; only the input-validity precondition differs
from decode-from-bytes. -/
def from_str (sch : Schema) (s : String) : Except Error Value :=
  match parseValue ((schemaSize sch + 1) * ((utf8Bytes s).length + 1)) sch (utf8Bytes s) with
  | .error e => .error e
  | .ok (v, r) => if skipWs r = [] then .ok v else .error .TrailingCharacters

/-! ### Side conditions used by the theorems -/

/-- No byte of the string needs escaping: no quote, no backslash, no control
byte below 0x20. -/
def escvList : List Nat → Bool
  | [] => true
  | b :: bs => decide (b ≠ 34 ∧ b ≠ 92 ∧ 32 ≤ b) && escvList bs

mutual
/-- Every string inside the value is escape-free (spec section 8,
round-trip property for escape-free values). -/
def escv : Value → Bool
  | .vBool _ => true
  | .vInt _ => true
  | .vFloat _ _ => true
  | .vStr s => escvList s
  | .vNone => true
  | .vSome v => escv v
  | .vSeq l => escvElems l
  | .vRec fs => escvFields fs
  | .vEnumUnit _ => true
  | .vEnumPayload _ p => escv p
/-- `escv` over sequence elements. -/
def escvElems : List Value → Bool
  | [] => true
  | v :: vs => escv v && escvElems vs
/-- `escv` over record members. -/
def escvFields : List (List Nat × Value) → Bool
  | [] => true
  | (_, v) :: fs => escv v && escvFields fs
end

/-- A value whose serialized form is the `null` literal: an empty optional
under any number of present-optional wrappers. -/
def nullLike : Value → Bool
  | .vNone => true
  | .vSome v => nullLike v
  | _ => false

mutual
/-- No present optional in the value wraps a value that serializes as
`null`: on the wire such a present optional is indistinguishable from the
empty optional. -/
def goodOpt : Value → Bool
  | .vBool _ => true
  | .vInt _ => true
  | .vFloat _ _ => true
  | .vStr _ => true
  | .vNone => true
  | .vSome v => !nullLike v && goodOpt v
  | .vSeq l => goodOptElems l
  | .vRec fs => goodOptFields fs
  | .vEnumUnit _ => true
  | .vEnumPayload _ p => goodOpt p
/-- `goodOpt` over sequence elements. -/
def goodOptElems : List Value → Bool
  | [] => true
  | v :: vs => goodOpt v && goodOptElems vs
/-- `goodOpt` over record members. -/
def goodOptFields : List (List Nat × Value) → Bool
  | [] => true
  | (_, v) :: fs => goodOpt v && goodOptFields fs
end

mutual
/-- The value fits the shape of the target type: booleans to `sBool`,
range-checked integers to `sInt`, strings to `sStr`, optional states to
`sOpt`, sequences pointwise to `sList`/`sTup`, records with exactly the
declared field names in declaration order, and enum variants declared with
the matching payload presence. -/
def conforms : Schema → Value → Bool
  | .sBool, .vBool _ => true
  | .sInt sg bits, .vInt n => decide (intMin sg bits ≤ n ∧ n ≤ intMax sg bits)
  | .sFloat pr em, .vFloat m e => floatCanon pr em m e
  | .sStr, .vStr _ => true
  | .sOpt _, .vNone => true
  | .sOpt s, .vSome v => conforms s v
  | .sList s, .vSeq l => conformsElems s l
  | .sTup ss, .vSeq l => conformsTup ss l
  | .sRec fs, .vRec vfs => conformsFields fs vfs
  | .sEnum vars, .vEnumUnit t =>
    (match lookupN vars t with
     | some none => true
     | _ => false)
  | .sEnum vars, .vEnumPayload t p =>
    (match lookupN vars t with
     | some (some s) => conforms s p
     | _ => false)
  | _, _ => false
/-- Pointwise conformance of list elements to the element schema. -/
def conformsElems (s : Schema) : List Value → Bool
  | [] => true
  | v :: vs => conforms s v && conformsElems s vs
/-- Slotwise conformance of tuple elements. -/
def conformsTup : List Schema → List Value → Bool
  | [], [] => true
  | s :: ss, v :: vs => conforms s v && conformsTup ss vs
  | _, _ => false
/-- Memberwise conformance of record fields: same names in the same order,
conforming values. -/
def conformsFields : List (List Nat × Schema) → List (List Nat × Value) → Bool
  | [], [] => true
  | (n, s) :: fs, (m, v) :: vfs => decide (n = m) && conforms s v && conformsFields fs vfs
  | _, _ => false
end

/-- No duplicates among a list of keys. -/
def nodupKeys : List (List Nat) → Bool
  | [] => true
  | n :: rest => decide (¬ n ∈ rest) && nodupKeys rest

/-- Every key in the list is escape-free. -/
def escvKeys : List (List Nat) → Bool
  | [] => true
  | n :: rest => escvList n && escvKeys rest

mutual
/-- Well-formedness of a schema as guaranteed by the Rust compiler for the
target type: record field names and enum variant names are distinct and
escape-free (they are Rust identifiers), recursively. -/
def schemaWF : Schema → Bool
  | .sBool => true
  | .sInt _ _ => true
  | .sFloat pr em => decide (1 ≤ pr) && decide (em ≤ 0)
  | .sStr => true
  | .sOpt s => schemaWF s
  | .sList s => schemaWF s
  | .sTup ss => schemaWFs ss
  | .sRec fs => nodupKeys (fs.map Prod.fst) && escvKeys (fs.map Prod.fst) && schemaWFsF fs
  | .sEnum vars => nodupKeys (vars.map Prod.fst) && escvKeys (vars.map Prod.fst) && schemaWFsV vars
/-- `schemaWF` over tuple slots. -/
def schemaWFs : List Schema → Bool
  | [] => true
  | s :: ss => schemaWF s && schemaWFs ss
/-- `schemaWF` over record fields. -/
def schemaWFsF : List (List Nat × Schema) → Bool
  | [] => true
  | (_, s) :: fs => schemaWF s && schemaWFsF fs
/-- `schemaWF` over enum variants. -/
def schemaWFsV : List (List Nat × Option Schema) → Bool
  | [] => true
  | (_, none) :: vs => schemaWFsV vs
  | (_, some s) :: vs => schemaWF s && schemaWFsV vs
end

/-- The bytes that may legally follow a serialized value in a larger
serialized context: end of input or a structural separator, never a byte that
could extend a number literal. -/
def sepOk : List Nat → Bool
  | [] => true
  | b :: _ => !isNumByte b

mutual
/-- The body of a string token is self-delimiting: no unescaped quote, and it
does not end in the middle of an escape. -/
def strTokenOk : List Nat → Bool
  | [] => true
  | b :: rest =>
    if b = 34 then false
    else if b = 92 then strTokenAfterEsc rest
    else strTokenOk rest
/-- After a backslash one more byte must follow, then scanning resumes. -/
def strTokenAfterEsc : List Nat → Bool
  | [] => false
  | _ :: rest => strTokenOk rest
end

mutual
/-- Fuel needed by `parseValue` on the serialized form of a value. -/
def vsize : Value → Nat
  | .vBool _ => 1
  | .vInt _ => 1
  | .vFloat _ _ => 1
  | .vStr _ => 1
  | .vNone => 1
  | .vSome v => 1 + vsize v
  | .vSeq l => 1 + vsizes l
  | .vRec fs => 1 + vsizesF fs
  | .vEnumUnit _ => 1
  | .vEnumPayload _ p => 2 + vsize p
/-- Summed parse fuel of sequence elements. -/
def vsizes : List Value → Nat
  | [] => 0
  | v :: vs => 1 + vsize v + vsizes vs
/-- Summed parse fuel of record members. -/
def vsizesF : List (List Nat × Value) → Nat
  | [] => 0
  | (_, v) :: fs => 1 + vsize v + vsizesF fs
end

mutual
/-- Fuel needed by `skipAny` on the serialized form of a value; skipping is
syntax-directed, so a present optional costs nothing beyond its payload. -/
def ssize : Value → Nat
  | .vBool _ => 1
  | .vInt _ => 1
  | .vFloat _ _ => 1
  | .vStr _ => 1
  | .vNone => 1
  | .vSome v => ssize v
  | .vSeq l => 1 + ssizes l
  | .vRec fs => 1 + ssizesF fs
  | .vEnumUnit _ => 1
  | .vEnumPayload _ p => 2 + ssize p
/-- Summed skip fuel of sequence elements. -/
def ssizes : List Value → Nat
  | [] => 0
  | v :: vs => 1 + ssize v + ssizes vs
/-- Summed skip fuel of record members. -/
def ssizesF : List (List Nat × Value) → Nat
  | [] => 0
  | (_, v) :: fs => 1 + ssize v + ssizesF fs
end

/-! ### Basic lemmas: whitespace, serialized heads -/

theorem skipWs_cons {b : Nat} (bs : List Nat) (h : isWs b = false) :
    skipWs (b :: bs) = b :: bs := by
  simp [skipWs, h]

theorem escBytes_append (s t : List Nat) : escBytes (s ++ t) = escBytes s ++ escBytes t := by
  induction s with
  | nil => rfl
  | cons b bs ih => simp [escBytes, ih]

theorem natDecAux_digits : ∀ (fuel n : Nat), n < fuel → ∀ b ∈ natDecAux fuel n, 48 ≤ b ∧ b ≤ 57 := by
  intro fuel
  induction fuel with
  | zero => intro n h; omega
  | succ f ih =>
    intro n h b hb
    by_cases h10 : n < 10
    · simp [natDecAux, h10] at hb
      omega
    · simp [natDecAux, h10] at hb
      rcases hb with hb | hb
      · exact ih (n / 10) (by
          have hd : n / 10 < n := Nat.div_lt_self (by omega) (by omega)
          omega) b hb
      · have : n % 10 < 10 := Nat.mod_lt _ (by omega)
        omega

theorem natDecAux_head : ∀ (fuel n : Nat), n < fuel →
    ∃ b t, natDecAux fuel n = b :: t ∧ 48 ≤ b ∧ b ≤ 57 ∧ (1 ≤ n → b ≠ 48) := by
  intro fuel
  induction fuel with
  | zero => intro n h; omega
  | succ f ih =>
    intro n h
    by_cases h10 : n < 10
    · refine ⟨48 + n, [], by simp [natDecAux, h10], by omega, by omega, by omega⟩
    · have hd : n / 10 < n := Nat.div_lt_self (by omega) (by omega)
      obtain ⟨b, t, hbt, hb1, hb2, hb3⟩ := ih (n / 10) (by omega)
      refine ⟨b, t ++ [48 + n % 10], by simp [natDecAux, h10, hbt], hb1, hb2, ?_⟩
      intro _
      exact hb3 (by
        have : 10 ≤ n := by omega
        have := Nat.one_le_div_iff (by omega : 0 < 10) |>.mpr this
        omega)

/-- Digit folds used to state the accumulated value of a digit run. -/
def foldPos (acc : Int) (ds : List Nat) : Int :=
  ds.foldl (fun a b => a * 10 + ((b : Int) - 48)) acc

/-- Negative-direction digit fold. -/
def foldNeg (acc : Int) (ds : List Nat) : Int :=
  ds.foldl (fun a b => a * 10 - ((b : Int) - 48)) acc

theorem foldPos_cons (acc : Int) (d : Nat) (ds : List Nat) :
    foldPos acc (d :: ds) = foldPos (acc * 10 + ((d : Int) - 48)) ds := rfl

theorem foldNeg_cons (acc : Int) (d : Nat) (ds : List Nat) :
    foldNeg acc (d :: ds) = foldNeg (acc * 10 - ((d : Int) - 48)) ds := rfl

theorem foldPos_append_single (acc : Int) (ds : List Nat) (d : Nat) :
    foldPos acc (ds ++ [d]) = foldPos acc ds * 10 + ((d : Int) - 48) := by
  simp [foldPos, List.foldl_append]

theorem foldNeg_append_single (acc : Int) (ds : List Nat) (d : Nat) :
    foldNeg acc (ds ++ [d]) = foldNeg acc ds * 10 - ((d : Int) - 48) := by
  simp [foldNeg, List.foldl_append]

theorem natDecAux_foldPos : ∀ (fuel n : Nat), n < fuel → ∀ acc : Int,
    foldPos acc (natDecAux fuel n) = acc * 10 ^ (natDecAux fuel n).length + n := by
  intro fuel
  induction fuel with
  | zero => intro n h; omega
  | succ f ih =>
    intro n h acc
    by_cases h10 : n < 10
    · simp [natDecAux, h10, foldPos]
      try push_cast
      try ring
    · have hd : n / 10 < n := Nat.div_lt_self (by omega) (by omega)
      have ihn := ih (n / 10) (by omega)
      simp only [natDecAux, h10, if_false]
      rw [foldPos_append_single, ihn acc, List.length_append, List.length_singleton]
      have hmod : ((48 + n % 10 : Nat) : Int) - 48 = (n % 10 : Nat) := by push_cast; ring
      rw [hmod]
      have : (10 : Int) * (n / 10 : Nat) + (n % 10 : Nat) = (n : Int) := by
        have := Nat.div_add_mod n 10
        push_cast
        omega
      rw [pow_succ]
      push_cast
      ring_nf
      push_cast at this ⊢
      omega

theorem natDecAux_foldNeg : ∀ (fuel n : Nat), n < fuel → ∀ acc : Int,
    foldNeg acc (natDecAux fuel n) = acc * 10 ^ (natDecAux fuel n).length - n := by
  intro fuel
  induction fuel with
  | zero => intro n h; omega
  | succ f ih =>
    intro n h acc
    by_cases h10 : n < 10
    · simp [natDecAux, h10, foldNeg]
      try push_cast
      try ring
    · have hd : n / 10 < n := Nat.div_lt_self (by omega) (by omega)
      have ihn := ih (n / 10) (by omega)
      simp only [natDecAux, h10, if_false]
      rw [foldNeg_append_single, ihn acc, List.length_append, List.length_singleton]
      have hmod : ((48 + n % 10 : Nat) : Int) - 48 = (n % 10 : Nat) := by push_cast; ring
      rw [hmod]
      have hdm : (10 : Int) * (n / 10 : Nat) + (n % 10 : Nat) = (n : Int) := by
        have := Nat.div_add_mod n 10
        push_cast
        omega
      rw [pow_succ]
      push_cast
      push_cast at hdm
      ring_nf
      omega

theorem natDec_digits (n : Nat) : ∀ b ∈ natDec n, 48 ≤ b ∧ b ≤ 57 :=
  natDecAux_digits (n + 1) n (Nat.lt_succ_self n)

theorem natDec_head (n : Nat) :
    ∃ b t, natDec n = b :: t ∧ 48 ≤ b ∧ b ≤ 57 ∧ (1 ≤ n → b ≠ 48) :=
  natDecAux_head (n + 1) n (Nat.lt_succ_self n)

theorem natDec_foldPos (n : Nat) : foldPos 0 (natDec n) = n := by
  have := natDecAux_foldPos (n + 1) n (Nat.lt_succ_self n) 0
  simpa [natDec] using this

theorem natDec_foldNeg (n : Nat) : foldNeg 0 (natDec n) = -(n : Int) := by
  have := natDecAux_foldNeg (n + 1) n (Nat.lt_succ_self n) 0
  simpa [natDec] using this

/-- The input does not begin with a decimal digit (so it cannot extend a
digit run). -/
def nonDigitStart : List Nat → Bool
  | [] => true
  | b :: _ => !isDigit b

theorem sepOk_nonDigitStart {bs : List Nat} (h : sepOk bs = true) : nonDigitStart bs = true := by
  cases bs with
  | nil => rfl
  | cons b t =>
    simp [sepOk, isNumByte] at h
    simp [nonDigitStart, h]

theorem foldPos_ge : ∀ (ds : List Nat) (acc : Int), 0 ≤ acc →
    (∀ b ∈ ds, isDigit b = true) → acc ≤ foldPos acc ds := by
  intro ds
  induction ds with
  | nil => intro acc h _; simpa [foldPos] using le_refl acc
  | cons d ds ih =>
    intro acc hacc hds
    have hd : isDigit d = true := hds d (by simp)
    have hd48 : 48 ≤ d := by simp [isDigit] at hd; omega
    have step : acc ≤ acc * 10 + ((d : Int) - 48) := by
      have : (0 : Int) ≤ (d : Int) - 48 := by
        have : (48 : Int) ≤ (d : Int) := by exact_mod_cast hd48
        omega
      nlinarith
    calc acc ≤ acc * 10 + ((d : Int) - 48) := step
      _ ≤ foldPos (acc * 10 + ((d : Int) - 48)) ds := by
          refine ih _ (by omega) (fun b hb => hds b (by simp [hb]))
      _ = foldPos acc (d :: ds) := (foldPos_cons acc d ds).symm

theorem foldNeg_le : ∀ (ds : List Nat) (acc : Int), acc ≤ 0 →
    (∀ b ∈ ds, isDigit b = true) → foldNeg acc ds ≤ acc := by
  intro ds
  induction ds with
  | nil => intro acc h _; simpa [foldNeg] using le_refl acc
  | cons d ds ih =>
    intro acc hacc hds
    have hd : isDigit d = true := hds d (by simp)
    have hd48 : 48 ≤ d := by simp [isDigit] at hd; omega
    have step : acc * 10 - ((d : Int) - 48) ≤ acc := by
      have : (0 : Int) ≤ (d : Int) - 48 := by
        have : (48 : Int) ≤ (d : Int) := by exact_mod_cast hd48
        omega
      nlinarith
    calc foldNeg acc (d :: ds) = foldNeg (acc * 10 - ((d : Int) - 48)) ds := foldNeg_cons acc d ds
      _ ≤ acc * 10 - ((d : Int) - 48) := by
          refine ih _ (by omega) (fun b hb => hds b (by simp [hb]))
      _ ≤ acc := step

theorem parsePosDigits_run (maxV : Int) : ∀ (ds : List Nat) (acc : Int), 0 ≤ acc →
    (∀ b ∈ ds, isDigit b = true) → ∀ rest : List Nat, nonDigitStart rest = true →
    (foldPos acc ds ≤ maxV →
      parsePosDigits maxV acc (ds ++ rest) = .ok (foldPos acc ds, rest)) ∧
    (acc ≤ maxV → maxV < foldPos acc ds →
      parsePosDigits maxV acc (ds ++ rest) = .error .IntegerOverflow) := by
  intro ds
  induction ds with
  | nil =>
    intro acc hacc _ rest hrest
    constructor
    · intro _
      cases rest with
      | nil => simp [parsePosDigits, foldPos]
      | cons b t =>
        simp [nonDigitStart] at hrest
        simp [parsePosDigits, foldPos, hrest]
    · intro h1 h2
      simp [foldPos] at h2
      omega
  | cons d ds ih =>
    intro acc hacc hds rest hrest
    have hd : isDigit d = true := hds d (by simp)
    have hd48 : 48 ≤ d := by simp [isDigit] at hd; omega
    have hdint : (0 : Int) ≤ (d : Int) - 48 := by
      have : (48 : Int) ≤ (d : Int) := by exact_mod_cast hd48
      omega
    have hacc2 : 0 ≤ acc * 10 + ((d : Int) - 48) := by nlinarith
    have ihs := ih (acc * 10 + ((d : Int) - 48)) hacc2
      (fun b hb => hds b (by simp [hb])) rest hrest
    constructor
    · intro hle
      rw [foldPos_cons] at hle
      have hstep : acc * 10 + ((d : Int) - 48) ≤ maxV :=
        le_trans (foldPos_ge ds _ hacc2 (fun b hb => hds b (by simp [hb]))) hle
      simp only [List.cons_append, parsePosDigits, hd, if_true, if_pos hstep]
      rw [foldPos_cons]
      exact ihs.1 hle
    · intro h1 h2
      rw [foldPos_cons] at h2
      by_cases hstep : acc * 10 + ((d : Int) - 48) ≤ maxV
      · simp only [List.cons_append, parsePosDigits, hd, if_true, if_pos hstep]
        exact ihs.2 hstep h2
      · simp only [List.cons_append, parsePosDigits, hd, if_true, if_neg hstep]

theorem parseNegDigits_run (minV : Int) : ∀ (ds : List Nat) (acc : Int), acc ≤ 0 →
    (∀ b ∈ ds, isDigit b = true) → ∀ rest : List Nat, nonDigitStart rest = true →
    (minV ≤ foldNeg acc ds →
      parseNegDigits minV acc (ds ++ rest) = .ok (foldNeg acc ds, rest)) ∧
    (minV ≤ acc → foldNeg acc ds < minV →
      parseNegDigits minV acc (ds ++ rest) = .error .IntegerOverflow) := by
  intro ds
  induction ds with
  | nil =>
    intro acc hacc _ rest hrest
    constructor
    · intro _
      cases rest with
      | nil => simp [parseNegDigits, foldNeg]
      | cons b t =>
        simp [nonDigitStart] at hrest
        simp [parseNegDigits, foldNeg, hrest]
    · intro h1 h2
      simp [foldNeg] at h2
      omega
  | cons d ds ih =>
    intro acc hacc hds rest hrest
    have hd : isDigit d = true := hds d (by simp)
    have hd48 : 48 ≤ d := by simp [isDigit] at hd; omega
    have hdint : (0 : Int) ≤ (d : Int) - 48 := by
      have : (48 : Int) ≤ (d : Int) := by exact_mod_cast hd48
      omega
    have hacc2 : acc * 10 - ((d : Int) - 48) ≤ 0 := by nlinarith
    have ihs := ih (acc * 10 - ((d : Int) - 48)) hacc2
      (fun b hb => hds b (by simp [hb])) rest hrest
    constructor
    · intro hle
      rw [foldNeg_cons] at hle
      have hstep : minV ≤ acc * 10 - ((d : Int) - 48) :=
        le_trans hle (foldNeg_le ds _ hacc2 (fun b hb => hds b (by simp [hb])))
      simp only [List.cons_append, parseNegDigits, hd, if_true, if_pos hstep]
      rw [foldNeg_cons]
      exact ihs.1 hle
    · intro h1 h2
      rw [foldNeg_cons] at h2
      by_cases hstep : minV ≤ acc * 10 - ((d : Int) - 48)
      · simp only [List.cons_append, parseNegDigits, hd, if_true, if_pos hstep]
        exact ihs.2 hstep h2
      · simp only [List.cons_append, parseNegDigits, hd, if_true, if_neg hstep]

theorem intMax_nonneg (sg : Bool) (bits : Nat) : 0 ≤ intMax sg bits := by
  have h1 : (0 : Int) < 2 ^ (bits - 1) := pow_pos (by norm_num) _
  have h2 : (0 : Int) < 2 ^ bits := pow_pos (by norm_num) _
  cases sg <;> simp [intMax] <;> omega

theorem intMin_nonpos (sg : Bool) (bits : Nat) : intMin sg bits ≤ 0 := by
  have h1 : (0 : Int) < 2 ^ (bits - 1) := pow_pos (by norm_num) _
  cases sg <;> simp [intMin] <;> omega

theorem parseInt_intDec (sg : Bool) (bits : Nat) (n : Int)
    (hlo : intMin sg bits ≤ n) (hhi : n ≤ intMax sg bits)
    (rest : List Nat) (hrest : nonDigitStart rest = true) :
    parseInt sg bits (intDec n ++ rest) = .ok (n, rest) := by
  rcases lt_trichotomy n 0 with hn | hn | hn
  · obtain ⟨b, t, hbt, hb1, hb2, hb3⟩ := natDec_head n.natAbs
    have hb0 : ¬ (b = 48) := hb3 (by omega)
    have hbd : isDigit b = true := by simp [isDigit]; omega
    have hfold : foldNeg 0 (natDec n.natAbs) = n := by
      rw [natDec_foldNeg]
      omega
    have hdec : intDec n = 45 :: natDec n.natAbs := by simp [intDec, hn]
    rw [hdec, List.cons_append]
    simp only [parseInt, if_pos rfl]
    rw [hbt, List.cons_append]
    simp only [parseIntDigits, hbd, if_true, if_neg hb0]
    rw [← List.cons_append, ← hbt]
    have := (parseNegDigits_run (intMin sg bits) (natDec n.natAbs) 0 le_rfl
      (fun b hb => by have := natDec_digits n.natAbs b hb; simp [isDigit]; omega)
      rest hrest).1 (by rw [hfold]; exact hlo)
    rw [this, hfold]
  · have hdec : intDec n = [48] := by rw [hn]; rfl
    rw [hdec, hn]
    cases rest with
    | nil => rfl
    | cons c t =>
      simp [nonDigitStart, isDigit] at hrest
      simp [parseInt, parseIntDigits, isDigit]
      omega
  · have hpos : (1 : Nat) ≤ n.toNat := by omega
    obtain ⟨b, t, hbt, hb1, hb2, hb3⟩ := natDec_head n.toNat
    have hb0 : ¬ (b = 48) := hb3 hpos
    have hbd : isDigit b = true := by simp [isDigit]; omega
    have hb45 : ¬ (b = 45) := by omega
    have hfold : foldPos 0 (natDec n.toNat) = n := by
      rw [natDec_foldPos]
      omega
    have hdec : intDec n = natDec n.toNat := by simp [intDec]; omega
    rw [hdec, hbt, List.cons_append]
    simp only [parseInt, if_neg hb45]
    simp only [parseIntDigits, hbd, if_true, if_neg hb0, Bool.false_eq_true, if_false]
    rw [← List.cons_append, ← hbt]
    have := (parsePosDigits_run (intMax sg bits) (natDec n.toNat) 0 le_rfl
      (fun b hb => by have := natDec_digits n.toNat b hb; simp [isDigit]; omega)
      rest hrest).1 (by rw [hfold]; exact hhi)
    rw [this, hfold]

theorem parseInt_overflow_hi (sg : Bool) (bits : Nat) (n : Int)
    (hover : intMax sg bits < n)
    (rest : List Nat) (hrest : nonDigitStart rest = true) :
    parseInt sg bits (intDec n ++ rest) = .error .IntegerOverflow := by
  have hmax := intMax_nonneg sg bits
  have hpos : (1 : Nat) ≤ n.toNat := by omega
  obtain ⟨b, t, hbt, hb1, hb2, hb3⟩ := natDec_head n.toNat
  have hb0 : ¬ (b = 48) := hb3 hpos
  have hbd : isDigit b = true := by simp [isDigit]; omega
  have hb45 : ¬ (b = 45) := by omega
  have hfold : foldPos 0 (natDec n.toNat) = n := by
    rw [natDec_foldPos]
    omega
  have hdec : intDec n = natDec n.toNat := by simp [intDec]; omega
  rw [hdec, hbt, List.cons_append]
  simp only [parseInt, if_neg hb45]
  simp only [parseIntDigits, hbd, if_true, if_neg hb0, Bool.false_eq_true, if_false]
  rw [← List.cons_append, ← hbt]
  exact (parsePosDigits_run (intMax sg bits) (natDec n.toNat) 0 le_rfl
    (fun b hb => by have := natDec_digits n.toNat b hb; simp [isDigit]; omega)
    rest hrest).2 hmax (by rw [hfold]; exact hover)

theorem parseInt_overflow_lo (sg : Bool) (bits : Nat) (n : Int)
    (hover : n < intMin sg bits)
    (rest : List Nat) (hrest : nonDigitStart rest = true) :
    parseInt sg bits (intDec n ++ rest) = .error .IntegerOverflow := by
  have hmin := intMin_nonpos sg bits
  have hneg : n < 0 := by omega
  obtain ⟨b, t, hbt, hb1, hb2, hb3⟩ := natDec_head n.natAbs
  have hb0 : ¬ (b = 48) := hb3 (by omega)
  have hbd : isDigit b = true := by simp [isDigit]; omega
  have hfold : foldNeg 0 (natDec n.natAbs) = n := by
    rw [natDec_foldNeg]
    omega
  have hdec : intDec n = 45 :: natDec n.natAbs := by simp [intDec, hneg]
  rw [hdec, List.cons_append]
  simp only [parseInt, if_pos rfl]
  rw [hbt, List.cons_append]
  simp only [parseIntDigits, hbd, if_true, if_neg hb0]
  rw [← List.cons_append, ← hbt]
  exact (parseNegDigits_run (intMin sg bits) (natDec n.natAbs) 0 le_rfl
    (fun b hb => by have := natDec_digits n.natAbs b hb; simp [isDigit]; omega)
    rest hrest).2 hmin (by rw [hfold]; exact hover)

/-! ### Floats: exact base-2 logarithms, rounding, and the float literal -/

theorem sepOk_head {b : Nat} {r : List Nat} (h : sepOk (b :: r) = true) :
    isDigit b = false ∧ b ≠ 45 ∧ b ≠ 43 ∧ b ≠ 46 ∧ b ≠ 101 ∧ b ≠ 69 := by
  simp [sepOk, isNumByte] at h
  tauto

theorem log2F_spec : ∀ (fuel n : Nat), 1 ≤ n → n ≤ fuel →
    2 ^ log2F fuel n ≤ n ∧ n < 2 ^ (log2F fuel n + 1) := by
  intro fuel
  induction fuel with
  | zero => intro n h1 h2; omega
  | succ f ih =>
    intro n h1 h2
    by_cases hn : n ≤ 1
    · have hone : n = 1 := by omega
      subst hone
      simp [log2F]
    · have hrec := ih (n / 2) (by omega) (by omega)
      have hdef : log2F (f + 1) n = log2F f (n / 2) + 1 := by
        simp [log2F, hn]
      rw [hdef]
      constructor
      · have hpw : 2 ^ (log2F f (n / 2) + 1) = 2 * 2 ^ log2F f (n / 2) := by ring
        rw [hpw]
        omega
      · have hpw : 2 ^ (log2F f (n / 2) + 1 + 1) = 2 * 2 ^ (log2F f (n / 2) + 1) := by ring
        rw [hpw]
        omega

theorem ilog2N_spec (n : Nat) (h : 1 ≤ n) :
    2 ^ ilog2N n ≤ n ∧ n < 2 ^ (ilog2N n + 1) :=
  log2F_spec n n h le_rfl

theorem ilog2N_eq (n l : Nat) (h1 : 2 ^ l ≤ n) (h2 : n < 2 ^ (l + 1)) : ilog2N n = l := by
  have hp : 0 < 2 ^ l := Nat.two_pow_pos l
  obtain ⟨hs1, hs2⟩ := ilog2N_spec n (by omega)
  rcases Nat.lt_trichotomy (ilog2N n) l with h | h | h
  · exfalso
    have hle : 2 ^ (ilog2N n + 1) ≤ 2 ^ l := Nat.pow_le_pow_right (by omega) (by omega)
    omega
  · exact h
  · exfalso
    have hle : 2 ^ (l + 1) ≤ 2 ^ ilog2N n := Nat.pow_le_pow_right (by omega) (by omega)
    omega

theorem ilog2N_pow_mul (M t : Nat) (hM : 1 ≤ M) : ilog2N (M * 2 ^ t) = ilog2N M + t := by
  obtain ⟨h1, h2⟩ := ilog2N_spec M hM
  refine ilog2N_eq _ _ ?_ ?_
  · rw [pow_add]
    exact Nat.mul_le_mul h1 (le_refl _)
  · have hpw : 2 ^ (ilog2N M + t + 1) = 2 ^ (ilog2N M + 1) * 2 ^ t := by ring
    rw [hpw]
    exact (Nat.mul_lt_mul_right (Nat.two_pow_pos t)).mpr h2

theorem ilog2N_lt_pow (M p : Nat) (h1 : 1 ≤ M) (h2 : M < 2 ^ p) (hp : 1 ≤ p) :
    ilog2N M ≤ p - 1 := by
  obtain ⟨hs1, _⟩ := ilog2N_spec M h1
  by_contra hcon
  push_neg at hcon
  have hle : 2 ^ p ≤ 2 ^ ilog2N M := Nat.pow_le_pow_right (by omega) (by omega)
  omega

theorem ilog2N_norm (M p : Nat) (h1 : 1 ≤ M) (h2 : M < 2 ^ p) (h3 : 2 ^ (p - 1) ≤ M)
    (hp : 1 ≤ p) : ilog2N M = p - 1 := by
  obtain ⟨_, hs2⟩ := ilog2N_spec M h1
  have hup := ilog2N_lt_pow M p h1 h2 hp
  by_contra hcon
  have hlt : ilog2N M < p - 1 := by omega
  have hle : 2 ^ (ilog2N M + 1) ≤ 2 ^ (p - 1) := Nat.pow_le_pow_right (by omega) (by omega)
  omega

theorem roundDiv_mul (M B : Nat) (hB : 1 ≤ B) : roundDiv (M * B) B = M := by
  have h1 : M * B % B = 0 := Nat.mul_mod_left M B
  have h2 : M * B / B = M := Nat.mul_div_cancel M (by omega)
  simp only [roundDiv, h1, h2, Nat.mul_zero]
  rw [if_pos (by omega)]

theorem ilog2Q_zero (N : Nat) : ilog2Q N 0 = (ilog2N N : Int) := by
  simp [ilog2Q]

theorem ilog2Q_exact_neg (M t : Nat) (hM : 1 ≤ M) (ht : 1 ≤ t) :
    ilog2Q (M * 5 ^ t) (-(t : Int)) = (ilog2N M : Int) - t := by
  have hk : ¬ (0 ≤ -(t : Int)) := by omega
  simp only [ilog2Q]
  rw [if_neg hk]
  simp only [neg_neg, Int.toNat_natCast]
  have h8 : (8 : Nat) ^ t ≤ 10 ^ t := Nat.pow_le_pow_left (by omega) t
  have h8b : (8 : Nat) ^ t = 2 ^ (3 * t) := by
    rw [show (8 : Nat) = 2 ^ 3 by norm_num, ← pow_mul]
  obtain ⟨hd1, hd2⟩ := ilog2N_spec (10 ^ t) (Nat.one_le_pow t 10 (by omega))
  set L := ilog2N (10 ^ t) with hL
  have h3t : 3 * t ≤ L := by
    by_contra hcon
    push_neg at hcon
    have hle : (2 : Nat) ^ (L + 1) ≤ 2 ^ (3 * t) :=
      Nat.pow_le_pow_right (by omega) (by omega)
    omega
  have hBt : t ≤ L + 1 := by omega
  have hsplit : (10 : Nat) ^ t = 2 ^ t * 5 ^ t := by
    rw [show (10 : Nat) = 2 * 5 by norm_num, mul_pow]
  have hexp : 2 ^ (L + 1 - t) * 2 ^ t = 2 ^ (L + 1) := by
    rw [← pow_add]
    congr 1
    omega
  have hq : M * 5 ^ t * 2 ^ (L + 1) / 10 ^ t = M * 2 ^ (L + 1 - t) := by
    have heq2 : M * 2 ^ (L + 1 - t) * 10 ^ t = M * 5 ^ t * 2 ^ (L + 1) := by
      calc M * 2 ^ (L + 1 - t) * 10 ^ t
          = M * 2 ^ (L + 1 - t) * (2 ^ t * 5 ^ t) := by rw [hsplit]
        _ = M * 5 ^ t * (2 ^ (L + 1 - t) * 2 ^ t) := by ring
        _ = M * 5 ^ t * 2 ^ (L + 1) := by rw [hexp]
    rw [← heq2, Nat.mul_div_cancel _ (by positivity)]
  rw [hq, ilog2N_pow_mul M (L + 1 - t) hM]
  omega

theorem toFloatPos_exact_nonneg (p : Nat) (emin : Int) (hp : 1 ≤ p) (hmin : emin ≤ 0)
    (M : Nat) (e : Int) (h1 : 1 ≤ M) (h2 : M < 2 ^ p)
    (h3 : 2 ^ (p - 1) ≤ M ∨ e = emin) (h4 : emin ≤ e) (he : 0 ≤ e) :
    toFloatPos p emin (M * 2 ^ e.toNat) 0 = (M, e) := by
  have hE : (e.toNat : Int) = e := Int.toNat_of_nonneg he
  have hloM := ilog2N_lt_pow M p h1 h2 hp
  have hmax : max emin (ilog2Q (M * 2 ^ e.toNat) 0 - ((p : Int) - 1)) = e := by
    rw [ilog2Q_zero, ilog2N_pow_mul M e.toNat h1]
    rcases h3 with h3 | h3
    · have hn := ilog2N_norm M p h1 h2 h3 hp
      omega
    · omega
  have hneg : (-e).toNat = 0 := Int.toNat_of_nonpos (by omega)
  simp only [toFloatPos, hmax, hneg, Int.toNat_zero, neg_zero, pow_zero, mul_one, one_mul]
  rw [roundDiv_mul M (2 ^ e.toNat) (Nat.two_pow_pos _), if_pos h2]

theorem toFloatPos_exact_neg (p : Nat) (emin : Int) (hp : 1 ≤ p)
    (M : Nat) (e : Int) (h1 : 1 ≤ M) (h2 : M < 2 ^ p)
    (h3 : 2 ^ (p - 1) ≤ M ∨ e = emin) (h4 : emin ≤ e) (he : e < 0) :
    toFloatPos p emin (M * 5 ^ (-e).toNat) e = (M, e) := by
  have ht1 : 1 ≤ (-e).toNat := by omega
  have hte : ((-e).toNat : Int) = -e := Int.toNat_of_nonneg (by omega)
  have hke : e = -(((-e).toNat : Nat) : Int) := by omega
  have hlog : ilog2Q (M * 5 ^ (-e).toNat) e = (ilog2N M : Int) - (-e).toNat := by
    have h := ilog2Q_exact_neg M (-e).toNat h1 ht1
    rwa [← hke] at h
  have hmax : max emin (ilog2Q (M * 5 ^ (-e).toNat) e - ((p : Int) - 1)) = e := by
    rw [hlog]
    rcases h3 with h3 | h3
    · have hn := ilog2N_norm M p h1 h2 h3 hp
      omega
    · have hl := ilog2N_lt_pow M p h1 h2 hp
      omega
  have hzero : e.toNat = 0 := Int.toNat_of_nonpos (by omega)
  simp only [toFloatPos, hmax, hzero, pow_zero, mul_one, one_mul]
  have hsplit : M * 5 ^ (-e).toNat * 2 ^ (-e).toNat = M * 10 ^ (-e).toNat := by
    rw [show (10 : Nat) = 2 * 5 by norm_num, mul_pow]
    ring
  rw [hsplit, roundDiv_mul M _ (Nat.one_le_pow _ 10 (by omega)), if_pos h2]

theorem digitsVal_digits : ∀ (t : List Nat), (∀ b ∈ t, isDigit b = true) →
    ∀ (acc : Nat) (rest : List Nat), nonDigitStart rest = true →
    digitsVal acc (t ++ rest) = digitsVal acc t := by
  intro t
  induction t with
  | nil =>
    intro _ acc rest hrest
    cases rest with
    | nil => rfl
    | cons b r =>
      simp [nonDigitStart] at hrest
      simp only [List.nil_append, digitsVal]
      rw [if_neg (by simp [hrest])]
  | cons d ds ih =>
    intro ht acc rest hrest
    have hd := ht d (by simp)
    rw [List.cons_append]
    simp only [digitsVal]
    rw [if_pos hd, if_pos hd]
    exact ih (fun b hb => ht b (by simp [hb])) _ rest hrest

theorem digitsRest_digits : ∀ (t : List Nat), (∀ b ∈ t, isDigit b = true) →
    ∀ (rest : List Nat), nonDigitStart rest = true →
    digitsRest (t ++ rest) = rest := by
  intro t
  induction t with
  | nil =>
    intro _ rest hrest
    cases rest with
    | nil => rfl
    | cons b r =>
      simp [nonDigitStart] at hrest
      simp only [List.nil_append, digitsRest]
      rw [if_neg (by simp [hrest])]
  | cons d ds ih =>
    intro ht rest hrest
    have hd := ht d (by simp)
    rw [List.cons_append]
    simp only [digitsRest]
    rw [if_pos hd]
    exact ih (fun b hb => ht b (by simp [hb])) rest hrest

theorem digitsVal_foldPos : ∀ (t : List Nat) (acc : Nat), (∀ b ∈ t, isDigit b = true) →
    (digitsVal acc t : Int) = foldPos (acc : Int) t := by
  intro t
  induction t with
  | nil => intro acc _; rfl
  | cons d ds ih =>
    intro acc ht
    have hd := ht d (by simp)
    have hd48 : 48 ≤ d := by simp [isDigit] at hd; omega
    simp only [digitsVal, foldPos_cons]
    rw [if_pos hd]
    rw [ih _ (fun b hb => ht b (by simp [hb]))]
    congr 1
    omega

theorem digitsVal_natDec (n : Nat) : digitsVal 0 (natDec n) = n := by
  have h1 := digitsVal_foldPos (natDec n) 0 (fun b hb => by
    have := natDec_digits n b hb
    simp [isDigit]
    omega)
  rw [Nat.cast_zero, natDec_foldPos] at h1
  exact_mod_cast h1

theorem floatOf_exact (p : Nat) (emin : Int) (hp : 1 ≤ p) (hmin : emin ≤ 0)
    (sign : Bool) (m e : Int) (hm0 : m ≠ 0)
    (hsign : (if sign then -(m.natAbs : Int) else (m.natAbs : Int)) = m)
    (h2 : m.natAbs < 2 ^ p) (h4 : emin ≤ e) (h3 : 2 ^ (p - 1) ≤ m.natAbs ∨ e = emin) :
    (0 ≤ e → floatOf p emin sign (m.natAbs * 2 ^ e.toNat) 0 = .vFloat m e)
  ∧ (e < 0 → floatOf p emin sign (m.natAbs * 5 ^ (-e).toNat) e = .vFloat m e) := by
  have h1 : 1 ≤ m.natAbs := by omega
  constructor
  · intro he
    have hN : m.natAbs * 2 ^ e.toNat ≠ 0 := Nat.mul_ne_zero (by omega) (by positivity)
    simp only [floatOf]
    rw [if_neg hN, toFloatPos_exact_nonneg p emin hp hmin m.natAbs e h1 h2 h3 h4 he]
    dsimp only
    rw [hsign]
  · intro he
    have hN : m.natAbs * 5 ^ (-e).toNat ≠ 0 := Nat.mul_ne_zero (by omega) (by positivity)
    simp only [floatOf]
    rw [if_neg hN, toFloatPos_exact_neg p emin hp m.natAbs e h1 h2 h3 h4 he]
    dsimp only
    rw [hsign]

theorem parseFloatTail_stop (p : Nat) (emin : Int) (sign : Bool) (N : Nat)
    (rest : List Nat) (hrest : sepOk rest = true) :
    parseFloatTail p emin sign N rest = .ok (floatOf p emin sign N 0, rest) := by
  cases rest with
  | nil => rfl
  | cons b r =>
    obtain ⟨hd, h45, h43, h46, h101, h69⟩ := sepOk_head hrest
    simp only [parseFloatTail]
    rw [if_neg h46]
    simp only [parseFloatExp]
    rw [if_neg (by simp [h101, h69])]

theorem parseFloatNum (p : Nat) (emin : Int) (sign : Bool) (N : Nat) (h1 : 1 ≤ N)
    (tail : List Nat) (htail : nonDigitStart tail = true) :
    parseFloatDigits p emin sign (natDec N ++ tail) = parseFloatTail p emin sign N tail := by
  obtain ⟨d, td, hdt, hdd1, hdd2, hd48⟩ := natDec_head N
  have hdig : ∀ b ∈ natDec N, isDigit b = true := fun b hb => by
    have := natDec_digits N b hb
    simp [isDigit]
    omega
  rw [hdt, List.cons_append]
  simp only [parseFloatDigits]
  rw [if_pos (by simp [isDigit]; omega), if_neg (hd48 h1)]
  rw [← List.cons_append, ← hdt]
  rw [digitsVal_digits (natDec N) hdig 0 tail htail,
    digitsRest_digits (natDec N) hdig tail htail,
    digitsVal_natDec]

theorem parseFloatExp_sci (p : Nat) (emin : Int) (sign : Bool) (N : Nat) (E : Nat)
    (hE : 1 ≤ E) (rest : List Nat) (hrest : sepOk rest = true) :
    parseFloatExp p emin sign N 0 (101 :: 45 :: (natDec E ++ rest))
      = .ok (floatOf p emin sign N (-(E : Int)), rest) := by
  obtain ⟨d, td, hdt, hdd1, hdd2, _⟩ := natDec_head E
  have hdig : ∀ b ∈ natDec E, isDigit b = true := fun b hb => by
    have := natDec_digits E b hb
    simp [isDigit]
    omega
  rw [hdt, List.cons_append]
  simp only [parseFloatExp]
  rw [if_pos (by decide)]
  rw [if_pos (by simp)]
  rw [if_pos (by simp [isDigit]; omega)]
  rw [← List.cons_append, ← hdt]
  rw [digitsVal_digits (natDec E) hdig 0 rest (sepOk_nonDigitStart hrest),
    digitsRest_digits (natDec E) hdig rest (sepOk_nonDigitStart hrest),
    digitsVal_natDec]
  simp

theorem parseFloat_floatDec (p : Nat) (emin : Int) (hp : 1 ≤ p) (hmin : emin ≤ 0)
    (m e : Int) (hcanon : floatCanon p emin m e = true) (rest : List Nat)
    (hrest : sepOk rest = true) :
    parseFloat p emin (floatDec m e ++ rest) = .ok (.vFloat m e, rest) := by
  by_cases hm0 : m = 0
  · have he0 : e = 0 := by
      simp [floatCanon, hm0] at hcanon
      exact hcanon
    subst hm0
    subst he0
    have hfd : floatDec 0 0 = [48] := by decide
    rw [hfd]
    cases rest with
    | nil => rfl
    | cons b r =>
      obtain ⟨hd, h45, h43, h46, h101, h69⟩ := sepOk_head hrest
      simp only [List.cons_append, List.nil_append, parseFloat]
      rw [if_neg (by omega : ¬ (48 : Nat) = 45)]
      simp only [parseFloatDigits]
      rw [if_pos (by decide : isDigit 48 = true), if_pos (by simp), if_neg (by simp [hd])]
      rw [parseFloatTail_stop p emin false 0 (b :: r) hrest]
      simp [floatOf]
  · have hcf : m.natAbs < 2 ^ p ∧ emin ≤ e ∧ (2 ^ (p - 1) ≤ m.natAbs ∨ e = emin) := by
      simp [floatCanon, hm0] at hcanon
      tauto
    have hMpos : 1 ≤ m.natAbs := by omega
    by_cases he : 0 ≤ e
    · -- integer form
      have hED : floatDec m e = intDec (m * 2 ^ e.toNat) := by simp [floatDec, he]
      have hp2 : (0 : Int) < 2 ^ e.toNat := by positivity
      rcases lt_or_gt_of_ne hm0 with hm | hm
      · -- negative mantissa
        have hneg : m * 2 ^ e.toNat < 0 := by
          have := mul_neg_of_neg_of_pos hm hp2
          omega
        have habs : (m * 2 ^ e.toNat).natAbs = m.natAbs * 2 ^ e.toNat := by
          rw [Int.natAbs_mul]
          congr 1
          simp [Int.natAbs_pow]
        have hID : intDec (m * 2 ^ e.toNat) = 45 :: natDec (m.natAbs * 2 ^ e.toNat) := by
          simp [intDec, hneg, habs]
        rw [hED, hID, List.cons_append]
        simp only [parseFloat]
        rw [if_pos (by simp)]
        rw [parseFloatNum p emin true (m.natAbs * 2 ^ e.toNat)
          (Nat.mul_pos (by omega) (by positivity))
          rest (sepOk_nonDigitStart hrest)]
        rw [parseFloatTail_stop p emin true _ rest hrest]
        rw [(floatOf_exact p emin hp hmin true m e hm0 (by rw [if_pos rfl]; omega)
          hcf.1 hcf.2.1 hcf.2.2).1 he]
      · -- positive mantissa
        have hpos : 0 < m * 2 ^ e.toNat := mul_pos hm hp2
        have htn : (m * 2 ^ e.toNat).toNat = m.natAbs * 2 ^ e.toNat := by
          have hcast : m * 2 ^ e.toNat = ((m.natAbs * 2 ^ e.toNat : Nat) : Int) := by
            push_cast
            rw [abs_of_pos hm]
          rw [hcast, Int.toNat_natCast]
        have hID : intDec (m * 2 ^ e.toNat) = natDec (m.natAbs * 2 ^ e.toNat) := by
          simp [intDec, not_lt.mpr (le_of_lt hpos), htn]
        rw [hED, hID]
        obtain ⟨d, td, hdt, hdd1, hdd2, _⟩ := natDec_head (m.natAbs * 2 ^ e.toNat)
        rw [hdt, List.cons_append]
        simp only [parseFloat]
        rw [if_neg (by omega : ¬ d = 45), ← List.cons_append, ← hdt]
        rw [parseFloatNum p emin false (m.natAbs * 2 ^ e.toNat)
          (Nat.mul_pos (by omega) (by positivity))
          rest (sepOk_nonDigitStart hrest)]
        rw [parseFloatTail_stop p emin false _ rest hrest]
        rw [(floatOf_exact p emin hp hmin false m e hm0 (by simp; omega)
          hcf.1 hcf.2.1 hcf.2.2).1 he]
    · -- scientific form, e < 0
      push_neg at he
      have hE1 : 1 ≤ e.natAbs := by omega
      have hED : floatDec m e = intDec (m * 5 ^ (-e).toNat) ++ 101 :: intDec e := by
        simp [floatDec, not_le.mpr he]
      have hexpdec : intDec e = 45 :: natDec e.natAbs := by
        simp [intDec, he]
      have hshape : floatDec m e ++ rest
          = intDec (m * 5 ^ (-e).toNat) ++ (101 :: 45 :: (natDec e.natAbs ++ rest)) := by
        rw [hED, hexpdec]
        simp
      rw [hshape]
      have hp5 : (0 : Int) < 5 ^ (-e).toNat := by positivity
      have hEabs : -(e.natAbs : Int) = e := by omega
      have hnd : nonDigitStart (101 :: 45 :: (natDec e.natAbs ++ rest)) = true := rfl
      rcases lt_or_gt_of_ne hm0 with hm | hm
      · have hneg : m * 5 ^ (-e).toNat < 0 := by
          have := mul_neg_of_neg_of_pos hm hp5
          omega
        have habs : (m * 5 ^ (-e).toNat).natAbs = m.natAbs * 5 ^ (-e).toNat := by
          rw [Int.natAbs_mul]
          congr 1
          simp [Int.natAbs_pow]
        have hID : intDec (m * 5 ^ (-e).toNat) = 45 :: natDec (m.natAbs * 5 ^ (-e).toNat) := by
          simp [intDec, hneg, habs]
        rw [hID, List.cons_append]
        simp only [parseFloat]
        rw [if_pos (by simp)]
        rw [parseFloatNum p emin true (m.natAbs * 5 ^ (-e).toNat)
          (Nat.mul_pos (by omega) (by positivity)) _ hnd]
        simp only [parseFloatTail]
        rw [if_neg (by omega : ¬ (101 : Nat) = 46)]
        rw [parseFloatExp_sci p emin true _ e.natAbs hE1 rest hrest]
        rw [hEabs]
        rw [(floatOf_exact p emin hp hmin true m e hm0 (by rw [if_pos rfl]; omega)
          hcf.1 hcf.2.1 hcf.2.2).2 he]
      · have hpos : 0 < m * 5 ^ (-e).toNat := mul_pos hm hp5
        have htn : (m * 5 ^ (-e).toNat).toNat = m.natAbs * 5 ^ (-e).toNat := by
          have hcast : m * 5 ^ (-e).toNat = ((m.natAbs * 5 ^ (-e).toNat : Nat) : Int) := by
            push_cast
            rw [abs_of_pos hm]
          rw [hcast, Int.toNat_natCast]
        have hID : intDec (m * 5 ^ (-e).toNat) = natDec (m.natAbs * 5 ^ (-e).toNat) := by
          simp [intDec, not_lt.mpr (le_of_lt hpos), htn]
        rw [hID]
        obtain ⟨d, td, hdt, hdd1, hdd2, _⟩ := natDec_head (m.natAbs * 5 ^ (-e).toNat)
        rw [hdt, List.cons_append]
        simp only [parseFloat]
        rw [if_neg (by omega : ¬ d = 45), ← List.cons_append, ← hdt]
        rw [parseFloatNum p emin false (m.natAbs * 5 ^ (-e).toNat)
          (Nat.mul_pos (by omega) (by positivity)) _ hnd]
        simp only [parseFloatTail]
        rw [if_neg (by omega : ¬ (101 : Nat) = 46)]
        rw [parseFloatExp_sci p emin false _ e.natAbs hE1 rest hrest]
        rw [hEabs]
        rw [(floatOf_exact p emin hp hmin false m e hm0 (by simp; omega)
          hcf.1 hcf.2.1 hcf.2.2).2 he]

theorem intDec_head (n : Int) : ∃ b t, intDec n = b :: t ∧ (b = 45 ∨ (48 ≤ b ∧ b ≤ 57)) := by
  by_cases hn : n < 0
  · exact ⟨45, natDec n.natAbs, by simp [intDec, hn], Or.inl rfl⟩
  · obtain ⟨b, t, hbt, hb1, hb2, _⟩ := natDec_head n.toNat
    exact ⟨b, t, by simp [intDec, hn, hbt], Or.inr ⟨hb1, hb2⟩⟩

theorem floatDec_head (m e : Int) :
    ∃ b t, floatDec m e = b :: t ∧ (b = 45 ∨ (48 ≤ b ∧ b ≤ 57)) := by
  simp only [floatDec]
  by_cases he : 0 ≤ e
  · rw [if_pos he]
    exact intDec_head _
  · rw [if_neg he]
    obtain ⟨b, t, hbt, hb⟩ := intDec_head (m * 5 ^ (-e).toNat)
    exact ⟨b, t ++ 101 :: intDec e, by simp [hbt], hb⟩

theorem intDec_numBytes (n : Int) : ∀ b ∈ intDec n, isNumByte b = true := by
  intro b hb
  simp only [intDec] at hb
  by_cases hn : n < 0
  · rw [if_pos hn] at hb
    rcases List.mem_cons.mp hb with hb | hb
    · simp [hb, isNumByte]
    · have := natDec_digits n.natAbs b hb
      simp [isNumByte, isDigit]
      omega
  · rw [if_neg hn] at hb
    have := natDec_digits n.toNat b hb
    simp [isNumByte, isDigit]
    omega

theorem floatDec_numBytes (m e : Int) : ∀ b ∈ floatDec m e, isNumByte b = true := by
  intro b hb
  simp only [floatDec] at hb
  by_cases he : 0 ≤ e
  · rw [if_pos he] at hb
    exact intDec_numBytes _ b hb
  · rw [if_neg he] at hb
    rcases List.mem_append.mp hb with hb | hb
    · exact intDec_numBytes _ b hb
    · rcases List.mem_cons.mp hb with hb | hb
      · simp [hb, isNumByte]
      · exact intDec_numBytes _ b hb

/-! ### Serialized values: head bytes and whitespace -/

theorem enc_head : ∀ (v : Value), ∃ b t, encodeValue v = b :: t ∧ isWs b = false ∧
    b ≠ 93 ∧ b ≠ 125 ∧ (nullLike v = false → b ≠ 110)
  | .vBool true => ⟨116, _, rfl, by decide, by decide, by decide, fun _ => by decide⟩
  | .vBool false => ⟨102, _, rfl, by decide, by decide, by decide, fun _ => by decide⟩
  | .vInt n => by
    by_cases hn : n < 0
    · refine ⟨45, natDec n.natAbs, ?_, by decide, by decide, by decide, fun _ => by decide⟩
      simp [encodeValue, intDec, hn]
    · obtain ⟨b, t, hbt, hb1, hb2, _⟩ := natDec_head n.toNat
      refine ⟨b, t, ?_, ?_, ?_, ?_, fun _ => ?_⟩
      · simp [encodeValue, intDec, hn, hbt]
      · simp [isWs]; omega
      · omega
      · omega
      · omega
  | .vFloat m e => by
    obtain ⟨b, t, hbt, hb⟩ := floatDec_head m e
    have hrange : 45 ≤ b ∧ b ≤ 57 := by rcases hb with hb | hb <;> omega
    exact ⟨b, t, hbt, by simp [isWs]; omega, by omega, by omega, fun _ => by omega⟩
  | .vStr s => ⟨34, _, rfl, by decide, by decide, by decide, fun _ => by decide⟩
  | .vNone => ⟨110, _, rfl, by decide, by decide, by decide, fun h => by simp [nullLike] at h⟩
  | .vSome w => by
    obtain ⟨b, t, hbt, h1, h2, h3, h4⟩ := enc_head w
    exact ⟨b, t, by simpa [encodeValue] using hbt, h1, h2, h3,
      fun hnl => h4 (by simpa [nullLike] using hnl)⟩
  | .vSeq l => ⟨91, _, rfl, by decide, by decide, by decide, fun _ => by decide⟩
  | .vRec fs => ⟨123, _, rfl, by decide, by decide, by decide, fun _ => by decide⟩
  | .vEnumUnit t => ⟨34, _, rfl, by decide, by decide, by decide, fun _ => by decide⟩
  | .vEnumPayload t p => ⟨123, _, rfl, by decide, by decide, by decide, fun _ => by decide⟩

theorem skipWs_enc (v : Value) (rest : List Nat) :
    skipWs (encodeValue v ++ rest) = encodeValue v ++ rest := by
  obtain ⟨b, t, hbt, h1, _, _, _⟩ := enc_head v
  rw [hbt, List.cons_append, skipWs_cons _ h1]

theorem enc_ne_nil (v : Value) : encodeValue v ≠ [] := by
  obtain ⟨b, t, hbt, _, _, _, _⟩ := enc_head v
  simp [hbt]

/-! ### String tokens -/

theorem scanStr_token_aux : ∀ (k : Nat) (c : List Nat), c.length ≤ k → strTokenOk c = true →
    ∀ rest : List Nat, scanStr (c ++ 34 :: rest) = .ok (c, rest) := by
  intro k
  induction k with
  | zero =>
    intro c hc h rest
    have hnil : c = [] := List.eq_nil_of_length_eq_zero (by omega)
    subst hnil
    simp [scanStr]
  | succ k ih =>
    intro c hc h rest
    cases c with
    | nil => simp [scanStr]
    | cons b cs =>
      by_cases h34 : b = 34
      · subst h34
        simp [strTokenOk] at h
      · by_cases h92 : b = 92
        · subst h92
          cases cs with
          | nil => simp [strTokenOk, strTokenAfterEsc] at h
          | cons c2 cs2 =>
            have h2 : strTokenOk cs2 = true := by simpa [strTokenOk, strTokenAfterEsc] using h
            have hr := ih cs2 (by simp at hc ⊢; omega) h2 rest
            simp [scanStr, scanEsc, hr]
        · have h2 : strTokenOk cs = true := by simpa [strTokenOk, h34, h92] using h
          have hr := ih cs (by simp at hc ⊢; omega) h2 rest
          simp [scanStr, h34, h92, hr]

theorem scanStr_token (c : List Nat) (h : strTokenOk c = true) (rest : List Nat) :
    scanStr (c ++ 34 :: rest) = .ok (c, rest) :=
  scanStr_token_aux c.length c le_rfl h rest

theorem strTokenOk_append : ∀ (k : Nat) (a : List Nat), a.length ≤ k → strTokenOk a = true →
    ∀ b : List Nat, strTokenOk (a ++ b) = strTokenOk b := by
  intro k
  induction k with
  | zero =>
    intro a ha h b
    have hnil : a = [] := List.eq_nil_of_length_eq_zero (by omega)
    subst hnil
    simp
  | succ k ih =>
    intro a ha h b
    cases a with
    | nil => simp
    | cons x xs =>
      by_cases h34 : x = 34
      · subst h34
        simp [strTokenOk] at h
      · by_cases h92 : x = 92
        · subst h92
          cases xs with
          | nil => simp [strTokenOk, strTokenAfterEsc] at h
          | cons c2 cs2 =>
            have h2 : strTokenOk cs2 = true := by simpa [strTokenOk, strTokenAfterEsc] using h
            have hr := ih cs2 (by simp at ha ⊢; omega) h2 b
            simp [strTokenOk, strTokenAfterEsc, hr]
        · have h2 : strTokenOk xs = true := by simpa [strTokenOk, h34, h92] using h
          have hr := ih xs (by simp at ha ⊢; omega) h2 b
          simp [strTokenOk, h34, h92, hr]

theorem hexDigit_ne (n : Nat) : hexDigit n ≠ 34 ∧ hexDigit n ≠ 92 := by
  by_cases h : n < 10 <;> simp [hexDigit, h] <;> omega

theorem escByte_strTokenOk (b : Nat) : strTokenOk (escByte b) = true := by
  obtain ⟨hh1, hh2⟩ := hexDigit_ne (b / 16)
  obtain ⟨hg1, hg2⟩ := hexDigit_ne (b % 16)
  by_cases h34 : b = 34
  · simp [escByte, h34, strTokenOk, strTokenAfterEsc]
  · by_cases h92 : b = 92
    · simp [escByte, h34, h92, strTokenOk, strTokenAfterEsc]
    · by_cases h8 : b = 8
      · simp [escByte, h34, h92, h8, strTokenOk, strTokenAfterEsc]
      · by_cases h9 : b = 9
        · simp [escByte, h34, h92, h8, h9, strTokenOk, strTokenAfterEsc]
        · by_cases h10 : b = 10
          · simp [escByte, h34, h92, h8, h9, h10, strTokenOk, strTokenAfterEsc]
          · by_cases h12 : b = 12
            · simp [escByte, h34, h92, h8, h9, h10, h12, strTokenOk, strTokenAfterEsc]
            · by_cases h13 : b = 13
              · simp [escByte, h34, h92, h8, h9, h10, h12, h13, strTokenOk, strTokenAfterEsc]
              · by_cases h32 : b < 32
                · simp [escByte, h34, h92, h8, h9, h10, h12, h13, h32, strTokenOk, strTokenAfterEsc, hh1, hh2, hg1, hg2]
                · simp [escByte, h34, h92, h8, h9, h10, h12, h13, h32, strTokenOk, strTokenAfterEsc]

theorem escBytes_strTokenOk : ∀ (s : List Nat), strTokenOk (escBytes s) = true := by
  intro s
  induction s with
  | nil => rfl
  | cons b bs ih =>
    have h1 := escByte_strTokenOk b
    have h2 := strTokenOk_append (escByte b).length (escByte b) le_rfl h1 (escBytes bs)
    simp [escBytes, h2, ih]

theorem scanStr_escBytes (s : List Nat) (rest : List Nat) :
    scanStr (escBytes s ++ 34 :: rest) = .ok (escBytes s, rest) :=
  scanStr_token (escBytes s) (escBytes_strTokenOk s) rest

theorem parseStr_encodeStr (s : List Nat) (rest : List Nat) :
    parseStr (encodeStr s ++ rest) = .ok (escBytes s, rest) := by
  have : encodeStr s ++ rest = 34 :: (escBytes s ++ 34 :: rest) := by
    simp [encodeStr]
  rw [this]
  simp only [parseStr]
  exact scanStr_escBytes s rest

theorem escvList_escBytes : ∀ (s : List Nat), escvList s = true → escBytes s = s := by
  intro s
  induction s with
  | nil => intro _; rfl
  | cons b bs ih =>
    intro h
    simp [escvList] at h
    obtain ⟨⟨hb1, hb2, hb3⟩, hrest⟩ := h
    have hbyte : escByte b = [b] := by
      simp only [escByte]
      rw [if_neg hb1, if_neg hb2, if_neg (by omega : ¬ b = 8), if_neg (by omega : ¬ b = 9),
        if_neg (by omega : ¬ b = 10), if_neg (by omega : ¬ b = 12), if_neg (by omega : ¬ b = 13),
        if_neg (by omega : ¬ b < 32)]
    simp [escBytes, hbyte, ih hrest]

theorem escvList_strTokenOk : ∀ (s : List Nat), escvList s = true → strTokenOk s = true := by
  intro s
  induction s with
  | nil => intro _; rfl
  | cons b bs ih =>
    intro h
    simp [escvList] at h
    obtain ⟨⟨hb1, hb2, hb3⟩, hrest⟩ := h
    simp [strTokenOk, strTokenAfterEsc, hb1, hb2, ih hrest]

theorem parseStr_encodeStr_escv (s : List Nat) (h : escvList s = true) (rest : List Nat) :
    parseStr (encodeStr s ++ rest) = .ok (s, rest) := by
  rw [parseStr_encodeStr, escvList_escBytes s h]

/-! ### Structural skip of serialized values -/

theorem sepOk44 (r : List Nat) : sepOk (44 :: r) = true := by simp [sepOk, isNumByte, isDigit]

theorem sepOk93 (r : List Nat) : sepOk (93 :: r) = true := by simp [sepOk, isNumByte, isDigit]

theorem sepOk125 (r : List Nat) : sepOk (125 :: r) = true := by simp [sepOk, isNumByte, isDigit]

theorem dropNum_digits : ∀ (t : List Nat), (∀ b ∈ t, isDigit b = true) →
    ∀ rest : List Nat, sepOk rest = true → dropNum (t ++ rest) = rest := by
  intro t
  induction t with
  | nil =>
    intro _ rest hrest
    cases rest with
    | nil => rfl
    | cons b r =>
      simp [sepOk] at hrest
      simp [dropNum, hrest]
  | cons d t ih =>
    intro hds rest hrest
    have hd : isDigit d = true := hds d (by simp)
    have : isNumByte d = true := by simp [isNumByte, hd]
    simp [dropNum, this, ih (fun b hb => hds b (by simp [hb])) rest hrest]

theorem encodeElems_cons (v : Value) (w : Value) (vs : List Value) :
    encodeElems (v :: w :: vs) = encodeValue v ++ 44 :: encodeElems (w :: vs) := by
  simp [encodeElems]

theorem encodePairs_cons (n : List Nat) (v : Value) (p : List Nat × Value)
    (fs : List (List Nat × Value)) :
    encodePairs ((n, v) :: p :: fs)
      = encodeStr n ++ 58 :: (encodeValue v ++ 44 :: encodePairs (p :: fs)) := by
  cases p with
  | mk pn pv => simp [encodePairs]

theorem ssizes_mem : ∀ (l : List Value) (e : Value), e ∈ l → 1 + ssize e ≤ ssizes l := by
  intro l
  induction l with
  | nil => intro e he; simp at he
  | cons x xs ih =>
    intro e he
    rcases List.mem_cons.mp he with he | he
    · subst he; simp [ssizes] <;> omega
    · have := ih e he
      simp [ssizes] <;> omega

theorem ssizesF_mem : ∀ (fs : List (List Nat × Value)) (k : List Nat) (v : Value),
    (k, v) ∈ fs → 1 + ssize v ≤ ssizesF fs := by
  intro fs
  induction fs with
  | nil => intro k v hv; simp at hv
  | cons x xs ih =>
    intro k v hv
    rcases List.mem_cons.mp hv with hv | hv
    · subst hv; simp [ssizesF] <;> omega
    · have := ih k v hv
      cases x with
      | mk xn xv =>
        simp [ssizesF] <;> omega

theorem ssizes_len : ∀ (l : List Value), l.length ≤ ssizes l := by
  intro l
  induction l with
  | nil => simp [ssizes]
  | cons x xs ih => simp [ssizes]; omega

theorem ssizesF_len : ∀ (fs : List (List Nat × Value)), fs.length ≤ ssizesF fs := by
  intro fs
  induction fs with
  | nil => simp [ssizesF]
  | cons x xs ih =>
    cases x with
    | mk xn xv => simp [ssizesF]; omega

theorem ssize_pos : ∀ (v : Value), 1 ≤ ssize v
  | .vBool b => by simp [ssize]
  | .vInt n => by simp [ssize]
  | .vFloat m e => by simp [ssize]
  | .vStr s => by simp [ssize]
  | .vNone => by simp [ssize]
  | .vSome w => by simpa [ssize] using ssize_pos w
  | .vSeq l => by simp [ssize]
  | .vRec fs => by simp [ssize]
  | .vEnumUnit t => by simp [ssize]
  | .vEnumPayload t p => by simp [ssize]; omega

theorem skipWs34 (r : List Nat) : skipWs (34 :: r) = 34 :: r := skipWs_cons r (by decide)

theorem skipWs44 (r : List Nat) : skipWs (44 :: r) = 44 :: r := skipWs_cons r (by decide)

theorem skipWs58 (r : List Nat) : skipWs (58 :: r) = 58 :: r := skipWs_cons r (by decide)

theorem skipWs93 (r : List Nat) : skipWs (93 :: r) = 93 :: r := skipWs_cons r (by decide)

theorem skipWs125 (r : List Nat) : skipWs (125 :: r) = 125 :: r := skipWs_cons r (by decide)

theorem skipWs_encodeStr (n : List Nat) (X : List Nat) :
    skipWs (encodeStr n ++ X) = encodeStr n ++ X := by
  simp only [encodeStr, List.cons_append]
  exact skipWs34 _

theorem skipWs_encodeElems (l : List Value) (X : List Nat) (h : l ≠ []) :
    skipWs (encodeElems l ++ X) = encodeElems l ++ X := by
  cases l with
  | nil => exact absurd rfl h
  | cons x xs =>
    cases xs with
    | nil =>
      simp only [encodeElems]
      exact skipWs_enc x X
    | cons y ys =>
      rw [encodeElems_cons, List.append_assoc, List.cons_append]
      exact skipWs_enc x _

theorem skipWs_encodePairs (fs : List (List Nat × Value)) (X : List Nat) (h : fs ≠ []) :
    skipWs (encodePairs fs ++ X) = encodePairs fs ++ X := by
  cases fs with
  | nil => exact absurd rfl h
  | cons x xs =>
    obtain ⟨xn, xv⟩ := x
    cases xs with
    | nil =>
      simp only [encodePairs, List.append_assoc, List.cons_append]
      exact skipWs_encodeStr xn _
    | cons y ys =>
      rw [encodePairs_cons, List.append_assoc, List.cons_append]
      exact skipWs_encodeStr xn _

theorem skipElems_run (sk : List Nat → Except Error (List Nat)) :
    ∀ (l : List Value), l ≠ [] →
    (∀ v ∈ l, ∀ r2 : List Nat, sepOk r2 = true → sk (encodeValue v ++ r2) = .ok r2) →
    ∀ fuel : Nat, l.length ≤ fuel → ∀ rest : List Nat,
    skipElems sk fuel (encodeElems l ++ 93 :: rest) = .ok rest := by
  intro l
  induction l with
  | nil => intro h; exact absurd rfl h
  | cons x xs ih =>
    intro _ hsk fuel hfuel rest
    cases fuel with
    | zero => simp at hfuel
    | succ f =>
      cases xs with
      | nil =>
        have hx := hsk x (by simp) (93 :: rest) (sepOk93 rest)
        simp only [encodeElems, skipElems, hx, skipWs93]
      | cons y ys =>
        have hx := hsk x (by simp) (44 :: (encodeElems (y :: ys) ++ 93 :: rest)) (sepOk44 _)
        rw [encodeElems_cons, List.append_assoc, List.cons_append]
        simp only [skipElems, hx, skipWs44]
        rw [skipWs_encodeElems _ _ (by simp)]
        exact ih (by simp) (fun v hv r2 h2 => hsk v (by simp [hv]) r2 h2) f
          (by simp at hfuel ⊢; omega) rest

theorem skipPairs_run (sk : List Nat → Except Error (List Nat)) :
    ∀ (fs : List (List Nat × Value)), fs ≠ [] →
    (∀ p ∈ fs, ∀ r2 : List Nat, sepOk r2 = true → sk (encodeValue p.2 ++ r2) = .ok r2) →
    ∀ fuel : Nat, fs.length ≤ fuel → ∀ rest : List Nat,
    skipPairs sk fuel (encodePairs fs ++ 125 :: rest) = .ok rest := by
  intro fs
  induction fs with
  | nil => intro h; exact absurd rfl h
  | cons x xs ih =>
    intro _ hsk fuel hfuel rest
    cases fuel with
    | zero => simp at hfuel
    | succ f =>
      obtain ⟨xn, xv⟩ := x
      cases xs with
      | nil =>
        have hx := hsk (xn, xv) (by simp) (125 :: rest) (sepOk125 rest)
        have hkey : encodePairs [(xn, xv)] ++ 125 :: rest
            = encodeStr xn ++ (58 :: (encodeValue xv ++ 125 :: rest)) := by
          simp [encodePairs]
        rw [hkey]
        simp only [skipPairs, skipWs_encodeStr, parseStr_encodeStr, skipWs58, skipWs_enc, hx,
          skipWs125]
      | cons y ys =>
        have hx := hsk (xn, xv) (by simp) (44 :: (encodePairs (y :: ys) ++ 125 :: rest)) (sepOk44 _)
        have hkey : encodePairs ((xn, xv) :: y :: ys) ++ 125 :: rest
            = encodeStr xn ++ (58 :: (encodeValue xv ++ 44 :: (encodePairs (y :: ys) ++ 125 :: rest))) := by
          rw [encodePairs_cons]
          simp
        rw [hkey]
        simp only [skipPairs, skipWs_encodeStr, parseStr_encodeStr, skipWs58, skipWs_enc, hx,
          skipWs44]
        rw [skipWs_encodePairs _ _ (by simp)]
        exact ih (by simp) (fun p hp r2 h2 => hsk p (by simp [hp]) r2 h2) f
          (by simp at hfuel ⊢; omega) rest

theorem skipAny_succ (fuel : Nat) (bs : List Nat) :
    skipAny (fuel + 1) bs = skipTok (skipAny fuel) fuel (skipWs bs) := rfl

theorem skipAny_num (f : Nat) (d : Nat) (hd : isDigit d = true ∨ d = 45) (t rest : List Nat)
    (ht : ∀ b ∈ t, isDigit b = true) (hrest : sepOk rest = true) :
    skipAny (f + 1) ((d :: t) ++ rest) = .ok rest := by
  have hdb : 48 ≤ d ∧ d ≤ 57 ∨ d = 45 := by
    rcases hd with hd | hd
    · left; simp [isDigit] at hd; omega
    · right; exact hd
  have hws : isWs d = false := by simp [isWs]; omega
  rw [List.cons_append, skipAny_succ, skipWs_cons _ hws]
  simp only [skipTok]
  rw [if_neg (by omega : ¬ d = 116), if_neg (by omega : ¬ d = 102),
    if_neg (by omega : ¬ d = 110), if_neg (by omega : ¬ d = 34),
    if_neg (by omega : ¬ d = 91), if_neg (by omega : ¬ d = 123),
    if_pos (by simp [isNumByte, isDigit]; omega)]
  rw [dropNum_digits t ht rest hrest]

theorem dropNum_nb : ∀ (t : List Nat), (∀ b ∈ t, isNumByte b = true) →
    ∀ rest : List Nat, sepOk rest = true → dropNum (t ++ rest) = rest := by
  intro t
  induction t with
  | nil =>
    intro _ rest hrest
    cases rest with
    | nil => rfl
    | cons b r =>
      simp [sepOk] at hrest
      simp [dropNum, hrest]
  | cons d t ih =>
    intro hds rest hrest
    have hd : isNumByte d = true := hds d (by simp)
    simp [dropNum, hd, ih (fun b hb => hds b (by simp [hb])) rest hrest]

theorem skipAny_numBytes (f : Nat) (d : Nat) (hd : isDigit d = true ∨ d = 45)
    (t rest : List Nat) (ht : ∀ b ∈ t, isNumByte b = true) (hrest : sepOk rest = true) :
    skipAny (f + 1) ((d :: t) ++ rest) = .ok rest := by
  have hdb : 48 ≤ d ∧ d ≤ 57 ∨ d = 45 := by
    rcases hd with hd | hd
    · left; simp [isDigit] at hd; omega
    · right; exact hd
  have hws : isWs d = false := by simp [isWs]; omega
  rw [List.cons_append, skipAny_succ, skipWs_cons _ hws]
  simp only [skipTok]
  rw [if_neg (by omega : ¬ d = 116), if_neg (by omega : ¬ d = 102),
    if_neg (by omega : ¬ d = 110), if_neg (by omega : ¬ d = 34),
    if_neg (by omega : ¬ d = 91), if_neg (by omega : ¬ d = 123),
    if_pos (by simp [isNumByte, isDigit]; omega)]
  rw [dropNum_nb t ht rest hrest]

theorem skipAny_enc : ∀ (n : Nat) (v : Value), sizeOf v ≤ n → ∀ fuel : Nat, ssize v ≤ fuel →
    ∀ rest : List Nat, sepOk rest = true → skipAny fuel (encodeValue v ++ rest) = .ok rest := by
  intro n
  induction n with
  | zero =>
    intro v hv
    cases v <;> simp at hv
  | succ n ih =>
    intro v hv fuel hfuel rest hrest
    cases fuel with
    | zero => have := ssize_pos v; omega
    | succ f =>
      cases v with
      | vBool b => cases b <;> simp [skipAny, skipTok, skipWs, isWs, encodeValue]
      | vInt m =>
        by_cases hm : m < 0
        · have hdec : encodeValue (.vInt m) = 45 :: natDec m.natAbs := by
            simp [encodeValue, intDec, hm]
          rw [hdec]
          exact skipAny_num f 45 (Or.inr rfl) (natDec m.natAbs) rest
            (fun b hb => by have := natDec_digits m.natAbs b hb; simp [isDigit]; omega) hrest
        · obtain ⟨b, t, hbt, hb1, hb2, _⟩ := natDec_head m.toNat
          have hdec : encodeValue (.vInt m) = b :: t := by
            simp [encodeValue, intDec, hm, hbt]
          rw [hdec]
          exact skipAny_num f b (Or.inl (by simp [isDigit]; omega)) t rest
            (fun x hx => by
              have hmem : x ∈ natDec m.toNat := by rw [hbt]; simp [hx]
              have := natDec_digits m.toNat x hmem
              simp [isDigit]; omega) hrest
      | vFloat m e =>
        obtain ⟨b, t, hbt, hb⟩ := floatDec_head m e
        have hdec : encodeValue (.vFloat m e) = b :: t := hbt
        rw [hdec]
        refine skipAny_numBytes f b ?_ t rest ?_ hrest
        · rcases hb with hb | hb
          · exact Or.inr hb
          · exact Or.inl (by simp [isDigit]; omega)
        · intro x hx
          exact floatDec_numBytes m e x (by rw [hbt]; exact List.mem_cons_of_mem b hx)
      | vStr s =>
        have harr : encodeValue (.vStr s) ++ rest = 34 :: (escBytes s ++ 34 :: rest) := by
          simp [encodeValue, encodeStr]
        rw [harr]
        simp [skipAny, skipTok, skipWs, isWs, scanStr_escBytes]
      | vNone => simp [skipAny, skipTok, skipWs, isWs, encodeValue]
      | vSome w =>
        have hw : sizeOf w ≤ n := by
          have hspec : sizeOf (Value.vSome w) = 1 + sizeOf w := by simp
          omega
        have hwf : ssize w ≤ f + 1 := by simpa [ssize] using hfuel
        have := ih w hw (f + 1) hwf rest hrest
        simpa [encodeValue] using this
      | vSeq l =>
        have harr : encodeValue (.vSeq l) ++ rest = 91 :: (encodeElems l ++ 93 :: rest) := by
          simp [encodeValue]
        rw [harr]
        cases l with
        | nil => simp [skipAny, skipTok, skipListBody, skipWs, isWs, encodeElems]
        | cons x xs =>
          rw [skipAny_succ, skipWs_cons _ (by decide : isWs 91 = false)]
          simp only [skipTok]
          rw [if_neg (by decide), if_neg (by decide), if_neg (by decide), if_neg (by decide)]
          rw [if_pos trivial]
          rw [skipWs_encodeElems _ _ (by simp)]
          obtain ⟨b, t, hbt, hb1, hb93, _, _⟩ := enc_head x
          have hshape : encodeElems (x :: xs) ++ 93 :: rest
              = b :: (t ++ (match xs with | [] => [] | _ :: _ => 44 :: encodeElems xs) ++ 93 :: rest) := by
            cases xs with
            | nil => simp [encodeElems, hbt]
            | cons y ys => simp [encodeElems_cons, hbt]
          rw [hshape]
          simp only [skipListBody]
          rw [if_neg hb93, ← hshape]
          have hsz : ssizes (x :: xs) ≤ f := by simp [ssize] at hfuel; omega
          refine skipElems_run (skipAny f) (x :: xs) (by simp) ?_ f ?_ rest
          · intro v hvmem r2 h2
            have h1 : 1 + ssize v ≤ ssizes (x :: xs) := ssizes_mem _ v hvmem
            have h2s : sizeOf v < sizeOf (x :: xs) := List.sizeOf_lt_of_mem hvmem
            have hspec : sizeOf (Value.vSeq (x :: xs)) = 1 + sizeOf (x :: xs) := by simp
            refine ih v ?_ f ?_ r2 h2
            · omega
            · omega
          · have := ssizes_len (x :: xs)
            omega
      | vRec fs =>
        have harr : encodeValue (.vRec fs) ++ rest = 123 :: (encodePairs fs ++ 125 :: rest) := by
          simp [encodeValue]
        rw [harr]
        cases fs with
        | nil => simp [skipAny, skipTok, skipObjBody, skipWs, isWs, encodePairs]
        | cons x xs =>
          obtain ⟨xn, xv⟩ := x
          rw [skipAny_succ, skipWs_cons _ (by decide : isWs 123 = false)]
          simp only [skipTok]
          rw [if_neg (by decide), if_neg (by decide), if_neg (by decide), if_neg (by decide),
            if_neg (by decide)]
          rw [if_pos trivial]
          rw [skipWs_encodePairs _ _ (by simp)]
          have hshape : encodePairs ((xn, xv) :: xs) ++ 125 :: rest
              = 34 :: ((escBytes xn ++ [34]) ++ (58 :: (encodeValue xv
                  ++ (match xs with | [] => [] | _ :: _ => 44 :: encodePairs xs) ++ 125 :: rest))) := by
            cases xs with
            | nil => simp [encodePairs, encodeStr]
            | cons y ys =>
              rw [encodePairs_cons]
              simp [encodeStr]
          rw [hshape]
          simp only [skipObjBody]
          rw [if_neg (by decide : ¬ (34 : Nat) = 125), ← hshape]
          have hsz : ssizesF ((xn, xv) :: xs) ≤ f := by simp [ssize] at hfuel; omega
          refine skipPairs_run (skipAny f) ((xn, xv) :: xs) (by simp) ?_ f ?_ rest
          · intro p hpmem r2 h2
            obtain ⟨pn, pv⟩ := p
            have h1 : 1 + ssize pv ≤ ssizesF ((xn, xv) :: xs) := ssizesF_mem _ pn pv hpmem
            have h2s : sizeOf (pn, pv) < sizeOf ((xn, xv) :: xs) := List.sizeOf_lt_of_mem hpmem
            have h3s : sizeOf pv < sizeOf (pn, pv) := by
              have : sizeOf (pn, pv) = 1 + sizeOf pn + sizeOf pv := by simp
              omega
            have hspec : sizeOf (Value.vRec ((xn, xv) :: xs)) = 1 + sizeOf ((xn, xv) :: xs) := by simp
            refine ih pv ?_ f ?_ r2 h2
            · omega
            · omega
          · have := ssizesF_len ((xn, xv) :: xs)
            omega
      | vEnumUnit t =>
        have harr : encodeValue (.vEnumUnit t) ++ rest = 34 :: (escBytes t ++ 34 :: rest) := by
          simp [encodeValue, encodeStr]
        rw [harr]
        simp [skipAny, skipTok, skipWs, isWs, scanStr_escBytes]
      | vEnumPayload t p =>
        have hp1 : sizeOf p ≤ n := by
          have hspec : sizeOf (Value.vEnumPayload t p) = 1 + sizeOf t + sizeOf p := by simp
          omega
        have hf1 : 1 ≤ f := by
          have := ssize_pos p
          simp [ssize] at hfuel
          omega
        obtain ⟨f2, rfl⟩ : ∃ f2, f = f2 + 1 := ⟨f - 1, by omega⟩
        have harr : encodeValue (.vEnumPayload t p) ++ rest
            = 123 :: (encodeStr t ++ (58 :: (encodeValue p ++ 125 :: rest))) := by
          simp [encodeValue]
        rw [harr]
        rw [skipAny_succ, skipWs_cons _ (by decide : isWs 123 = false)]
        simp only [skipTok]
        rw [if_neg (by decide), if_neg (by decide), if_neg (by decide), if_neg (by decide),
          if_neg (by decide)]
        rw [if_pos trivial]
        rw [skipWs_encodeStr]
        have hshape : encodeStr t ++ (58 :: (encodeValue p ++ 125 :: rest))
            = 34 :: ((escBytes t ++ [34]) ++ (58 :: (encodeValue p ++ 125 :: rest))) := by
          simp [encodeStr]
        rw [hshape]
        simp only [skipObjBody]
        rw [if_neg (by decide : ¬ (34 : Nat) = 125), ← hshape]
        have hskp : skipAny (f2 + 1) (encodeValue p ++ 125 :: rest) = .ok (125 :: rest) := by
          refine ih p hp1 (f2 + 1) ?_ (125 :: rest) (sepOk125 rest)
          simp [ssize] at hfuel
          omega
        simp only [skipPairs, skipWs_encodeStr, parseStr_encodeStr, skipWs58, skipWs_enc, hskp,
          skipWs125]

/-! ### Parse loop lemmas -/

theorem vsizes_mem : ∀ (l : List Value) (e : Value), e ∈ l → 1 + vsize e ≤ vsizes l := by
  intro l
  induction l with
  | nil => intro e he; simp at he
  | cons x xs ih =>
    intro e he
    rcases List.mem_cons.mp he with he | he
    · subst he; simp [vsizes] <;> omega
    · have := ih e he
      simp [vsizes] <;> omega

theorem vsizesF_mem : ∀ (fs : List (List Nat × Value)) (k : List Nat) (v : Value),
    (k, v) ∈ fs → 1 + vsize v ≤ vsizesF fs := by
  intro fs
  induction fs with
  | nil => intro k v hv; simp at hv
  | cons x xs ih =>
    intro k v hv
    rcases List.mem_cons.mp hv with hv | hv
    · subst hv; simp [vsizesF] <;> omega
    · have := ih k v hv
      cases x with
      | mk xn xv => simp [vsizesF] <;> omega

theorem vsizes_len : ∀ (l : List Value), l.length ≤ vsizes l := by
  intro l
  induction l with
  | nil => simp [vsizes]
  | cons x xs ih => simp [vsizes]; omega

theorem vsizesF_len : ∀ (fs : List (List Nat × Value)), fs.length ≤ vsizesF fs := by
  intro fs
  induction fs with
  | nil => simp [vsizesF]
  | cons x xs ih =>
    cases x with
    | mk xn xv => simp [vsizesF]; omega

theorem vsize_pos : ∀ (v : Value), 1 ≤ vsize v := by
  intro v
  cases v <;> simp [vsize] <;> omega

theorem elemsLoop_run (pv : List Nat → Except Error (Value × List Nat)) :
    ∀ (l : List Value), l ≠ [] →
    (∀ v ∈ l, ∀ r2 : List Nat, sepOk r2 = true → pv (encodeValue v ++ r2) = .ok (v, r2)) →
    ∀ fuel : Nat, l.length ≤ fuel → ∀ rest : List Nat,
    elemsLoop pv fuel (encodeElems l ++ 93 :: rest) = .ok (l, rest) := by
  intro l
  induction l with
  | nil => intro h; exact absurd rfl h
  | cons x xs ih =>
    intro _ hpv fuel hfuel rest
    cases fuel with
    | zero => simp at hfuel
    | succ f =>
      cases xs with
      | nil =>
        have hx := hpv x (by simp) (93 :: rest) (sepOk93 rest)
        simp only [encodeElems, elemsLoop, hx, skipWs93]
      | cons y ys =>
        have hx := hpv x (by simp) (44 :: (encodeElems (y :: ys) ++ 93 :: rest)) (sepOk44 _)
        rw [encodeElems_cons, List.append_assoc, List.cons_append]
        simp only [elemsLoop, hx, skipWs44]
        rw [skipWs_encodeElems _ _ (by simp)]
        rw [ih (by simp) (fun v hv r2 h2 => hpv v (by simp [hv]) r2 h2) f
          (by simp at hfuel ⊢; omega) rest]
        rfl

theorem tupLoop_run (pv : Schema → List Nat → Except Error (Value × List Nat)) :
    ∀ (ss : List Schema) (l : List Value),
    List.Forall₂ (fun s v => ∀ r2 : List Nat, sepOk r2 = true →
      pv s (encodeValue v ++ r2) = .ok (v, r2)) ss l →
    ∀ rest : List Nat,
    tupLoop pv ss (encodeElems l ++ 93 :: rest) = .ok (l, rest) := by
  intro ss l h
  induction h with
  | nil =>
    intro rest
    simp [encodeElems, tupLoop, skipWs93]
  | cons h1 h2 ih =>
    intro rest
    rename_i s v ss2 l2
    cases h2 with
    | nil =>
      have hx := h1 (93 :: rest) (sepOk93 rest)
      simp only [encodeElems, tupLoop]
      rw [skipWs_enc, hx]
      simp only [skipWs93]
    | cons hh1 hh2 =>
      rename_i s2 v2 ss3 l3
      have hx := h1 (44 :: (encodeElems (v2 :: l3) ++ 93 :: rest)) (sepOk44 _)
      rw [encodeElems_cons, List.append_assoc, List.cons_append]
      simp only [tupLoop]
      rw [skipWs_enc, hx]
      simp only [skipWs44]
      rw [ih rest]
      rfl

/-- The key/value pairs of the input object whose key is a declared field. -/
def matchedPairs (fields : List (List Nat × Schema)) (provided : List (List Nat × Value)) :
    List (List Nat × Value) :=
  provided.filter (fun p => (lookupN fields p.1).isSome)

theorem pairsLoop_run (pv : Schema → List Nat → Except Error (Value × List Nat))
    (sk : List Nat → Except Error (List Nat)) (fields : List (List Nat × Schema)) :
    ∀ (provided : List (List Nat × Value)), provided ≠ [] →
    (∀ p ∈ provided, escvList p.1 = true) →
    (∀ p ∈ provided, ∀ sch : Schema, lookupN fields p.1 = some sch →
        ∀ r2 : List Nat, sepOk r2 = true → pv sch (encodeValue p.2 ++ r2) = .ok (p.2, r2)) →
    (∀ p ∈ provided, lookupN fields p.1 = none →
        ∀ r2 : List Nat, sepOk r2 = true → sk (encodeValue p.2 ++ r2) = .ok r2) →
    ∀ fuel : Nat, provided.length ≤ fuel → ∀ rest : List Nat, ∀ seen : List (List Nat × Value),
    pairsLoop pv sk fields fuel (encodePairs provided ++ 125 :: rest) seen
      = .ok (seen ++ matchedPairs fields provided, rest) := by
  intro provided
  induction provided with
  | nil => intro h; exact absurd rfl h
  | cons x xs ih =>
    intro _ hkeys hmatch hskip fuel hfuel rest seen
    cases fuel with
    | zero => simp at hfuel
    | succ f =>
      obtain ⟨xn, xv⟩ := x
      have hkey : escvList xn = true := hkeys (xn, xv) (by simp)
      cases xs with
      | nil =>
        have hone : encodePairs [(xn, xv)] ++ 125 :: rest
            = encodeStr xn ++ (58 :: (encodeValue xv ++ 125 :: rest)) := by
          simp [encodePairs]
        rw [hone]
        simp only [pairsLoop, skipWs_encodeStr, parseStr_encodeStr_escv xn hkey, skipWs58]
        cases hlk : lookupN fields xn with
        | some sch =>
          have hx := hmatch (xn, xv) (by simp) sch hlk (125 :: rest) (sepOk125 rest)
          simp only [skipWs_enc, hx, skipWs125, matchedPairs, List.filter_cons, hlk]
          simp
        | none =>
          have hx := hskip (xn, xv) (by simp) hlk (125 :: rest) (sepOk125 rest)
          simp only [skipWs_enc, hx, skipWs125, matchedPairs, List.filter_cons, hlk]
          simp
      | cons y ys =>
        have hcons : encodePairs ((xn, xv) :: y :: ys) ++ 125 :: rest
            = encodeStr xn ++ (58 :: (encodeValue xv ++ 44 :: (encodePairs (y :: ys) ++ 125 :: rest))) := by
          rw [encodePairs_cons]
          simp
        rw [hcons]
        simp only [pairsLoop, skipWs_encodeStr, parseStr_encodeStr_escv xn hkey, skipWs58]
        have ihx := fun seen2 => ih (by simp) (fun p hp => hkeys p (by simp [hp]))
          (fun p hp sch hl r2 h2 => hmatch p (by simp [hp]) sch hl r2 h2)
          (fun p hp hl r2 h2 => hskip p (by simp [hp]) hl r2 h2) f
          (by simp at hfuel ⊢; omega) rest seen2
        cases hlk : lookupN fields xn with
        | some sch =>
          have hx := hmatch (xn, xv) (by simp) sch hlk
            (44 :: (encodePairs (y :: ys) ++ 125 :: rest)) (sepOk44 _)
          simp only [skipWs_enc, hx, skipWs44]
          rw [skipWs_encodePairs _ _ (by simp)]
          rw [ihx (seen ++ [(xn, xv)])]
          simp [matchedPairs, List.filter_cons, hlk]
        | none =>
          have hx := hskip (xn, xv) (by simp) hlk
            (44 :: (encodePairs (y :: ys) ++ 125 :: rest)) (sepOk44 _)
          simp only [skipWs_enc, hx, skipWs44]
          rw [skipWs_encodePairs _ _ (by simp)]
          rw [ihx seen]
          simp [matchedPairs, List.filter_cons, hlk]

/-! ### Field assembly and alignment lemmas -/

theorem assemble_ok : ∀ (fs : List (List Nat × Schema)) (seen : List (List Nat × Value)),
    (∀ p ∈ fs, (lookupN seen p.1).isSome = true ∨ isOptS p.2 = true) →
    assemble seen fs = .ok (fs.map (fun p => (p.1, (lookupN seen p.1).getD Value.vNone))) := by
  intro fs
  induction fs with
  | nil => intro seen _; rfl
  | cons x xs ih =>
    intro seen h
    obtain ⟨n, sch⟩ := x
    cases hlk : lookupN seen n with
    | some v => simp [assemble, hlk, ih seen (fun p hp => h p (by simp [hp])), Except.map]
    | none =>
      rcases h (n, sch) (by simp) with hs | ho
      · simp [hlk] at hs
      · simp [assemble, hlk, ho, ih seen (fun p hp => h p (by simp [hp])), Except.map]

theorem assemble_missing : ∀ (fs : List (List Nat × Schema)) (seen : List (List Nat × Value)),
    (∃ p ∈ fs, lookupN seen p.1 = none ∧ isOptS p.2 = false) →
    assemble seen fs = .error .MissingField := by
  intro fs
  induction fs with
  | nil => intro seen h; simp at h
  | cons x xs ih =>
    intro seen h
    obtain ⟨n, sch⟩ := x
    obtain ⟨p, hp, hnone, hopt⟩ := h
    rcases List.mem_cons.mp hp with hp | hp
    · subst hp
      simp [assemble, hnone, hopt]
    · cases hlk : lookupN seen n with
      | some v => simp [assemble, hlk, ih seen ⟨p, hp, hnone, hopt⟩, Except.map]
      | none =>
        by_cases ho : isOptS sch = true
        · simp [assemble, hlk, ho, ih seen ⟨p, hp, hnone, hopt⟩, Except.map]
        · simp [assemble, hlk, Bool.of_not_eq_true ho]

theorem assemble_exact : ∀ (fs : List (List Nat × Schema)) (vfs : List (List Nat × Value))
    (seen : List (List Nat × Value)),
    List.Forall₂ (fun f v => f.1 = v.1 ∧ lookupN seen f.1 = some v.2) fs vfs →
    assemble seen fs = .ok vfs := by
  intro fs vfs seen h
  induction h with
  | nil => rfl
  | cons h1 h2 ih =>
    rename_i f v fs2 vfs2
    obtain ⟨fn, fsch⟩ := f
    obtain ⟨vn, vv⟩ := v
    obtain ⟨he, hlk⟩ := h1
    simp only at he hlk
    subst he
    simp [assemble, hlk, ih, Except.map]

theorem lookupN_cons_ne {α : Type} (n : List Nat) (a : α) (l : List (List Nat × α))
    (k : List Nat) (h : ¬ n = k) : lookupN ((n, a) :: l) k = lookupN l k := by
  simp [lookupN, h]

theorem lookupN_append_right {α : Type} : ∀ (pre l : List (List Nat × α)) (k : List Nat),
    ¬ k ∈ pre.map Prod.fst → lookupN (pre ++ l) k = lookupN l k := by
  intro pre
  induction pre with
  | nil => intro l k _; rfl
  | cons x xs ih =>
    intro l k hk
    obtain ⟨n, a⟩ := x
    simp only [List.map_cons, List.mem_cons] at hk
    push_neg at hk
    rw [List.cons_append, lookupN_cons_ne n a _ k (fun he => hk.1 he.symm)]
    exact ih l k hk.2

theorem conf_align : ∀ (fs : List (List Nat × Schema)) (vfs pre : List (List Nat × Value)),
    conformsFields fs vfs = true →
    (∀ p ∈ fs, ¬ p.1 ∈ pre.map Prod.fst) →
    nodupKeys (fs.map Prod.fst) = true →
    List.Forall₂ (fun f v => f.1 = v.1 ∧ lookupN (pre ++ vfs) f.1 = some v.2) fs vfs := by
  intro fs
  induction fs with
  | nil =>
    intro vfs pre hconf _ _
    cases vfs with
    | nil => exact List.Forall₂.nil
    | cons y ys => simp [conformsFields] at hconf
  | cons x xs ih =>
    intro vfs pre hconf hpre hnd
    obtain ⟨n, sch⟩ := x
    cases vfs with
    | nil => simp [conformsFields] at hconf
    | cons y ys =>
      obtain ⟨m, v⟩ := y
      have hc := hconf
      simp [conformsFields] at hc
      obtain ⟨⟨hnm, hcv⟩, hcrest⟩ := hc
      subst hnm
      have hnd2 : nodupKeys (xs.map Prod.fst) = true ∧ ¬ n ∈ xs.map Prod.fst := by
        simp only [List.map_cons, nodupKeys, Bool.and_eq_true, decide_eq_true_eq] at hnd
        exact ⟨hnd.2, hnd.1⟩
      refine List.Forall₂.cons ⟨rfl, ?_⟩ ?_
      · rw [lookupN_append_right pre _ n (hpre (n, sch) (by simp))]
        simp [lookupN]
      · have := ih ys (pre ++ [(n, v)]) hcrest ?_ hnd2.1
        · simpa using this
        · intro p hp
          simp only [List.map_append, List.mem_append]
          push_neg
          constructor
          · exact hpre p (by simp [hp])
          · have hpn : p.1 ∈ xs.map Prod.fst := by
              exact List.mem_map_of_mem Prod.fst hp
            simp
            intro he
            rw [he] at hpn
            exact hnd2.2 hpn

theorem confF_names : ∀ (fs : List (List Nat × Schema)) (vfs : List (List Nat × Value)),
    conformsFields fs vfs = true → fs.map Prod.fst = vfs.map Prod.fst := by
  intro fs
  induction fs with
  | nil =>
    intro vfs h
    cases vfs with
    | nil => rfl
    | cons y ys => simp [conformsFields] at h
  | cons x xs ih =>
    intro vfs h
    obtain ⟨n, sch⟩ := x
    cases vfs with
    | nil => simp [conformsFields] at h
    | cons y ys =>
      obtain ⟨m, v⟩ := y
      simp [conformsFields] at h
      obtain ⟨⟨hnm, _⟩, hrest⟩ := h
      simp [hnm, ih ys hrest]

theorem confF_lookup : ∀ (fs : List (List Nat × Schema)) (vfs : List (List Nat × Value)),
    conformsFields fs vfs = true → nodupKeys (fs.map Prod.fst) = true →
    schemaWFsF fs = true →
    ∀ p ∈ vfs, ∃ sch, lookupN fs p.1 = some sch ∧ conforms sch p.2 = true ∧ schemaWF sch = true := by
  intro fs
  induction fs with
  | nil =>
    intro vfs hconf _ _ p hp
    cases vfs with
    | nil => simp at hp
    | cons y ys => simp [conformsFields] at hconf
  | cons x xs ih =>
    intro vfs hconf hnd hwf p hp
    obtain ⟨n, sch⟩ := x
    cases vfs with
    | nil => simp [conformsFields] at hconf
    | cons y ys =>
      obtain ⟨m, v⟩ := y
      simp [conformsFields] at hconf
      obtain ⟨⟨hnm, hcv⟩, hcrest⟩ := hconf
      subst hnm
      simp [schemaWFsF] at hwf
      have hnd2 : nodupKeys (xs.map Prod.fst) = true ∧ ¬ n ∈ xs.map Prod.fst := by
        simp only [List.map_cons, nodupKeys, Bool.and_eq_true, decide_eq_true_eq] at hnd
        exact ⟨hnd.2, hnd.1⟩
      rcases List.mem_cons.mp hp with hp | hp
      · subst hp
        exact ⟨sch, by simp [lookupN], hcv, hwf.1⟩
      · have hpn : p.1 ∈ ys.map Prod.fst := List.mem_map_of_mem Prod.fst hp
        rw [← confF_names xs ys hcrest] at hpn
        have hne : ¬ n = p.1 := by
          intro he
          rw [← he] at hpn
          exact hnd2.2 hpn
        obtain ⟨sch2, hlk, hc2, hw2⟩ := ih ys hcrest hnd2.1 hwf.2 p hp
        exact ⟨sch2, by rw [lookupN_cons_ne n sch xs p.1 hne]; exact hlk, hc2, hw2⟩

theorem lookupN_some_name_mem {α : Type} : ∀ (l : List (List Nat × α)) (k : List Nat) (a : α),
    lookupN l k = some a → k ∈ l.map Prod.fst := by
  intro l
  induction l with
  | nil => intro k a h; simp [lookupN] at h
  | cons x xs ih =>
    intro k a h
    obtain ⟨n, b⟩ := x
    by_cases hn : n = k
    · subst hn; simp
    · rw [lookupN_cons_ne n b xs k hn] at h
      simp [ih k a h]

theorem escvKeys_mem : ∀ (names : List (List Nat)) (k : List Nat),
    escvKeys names = true → k ∈ names → escvList k = true := by
  intro names
  induction names with
  | nil => intro k _ hk; simp at hk
  | cons x xs ih =>
    intro k h hk
    simp [escvKeys] at h
    rcases List.mem_cons.mp hk with hk | hk
    · subst hk; exact h.1
    · exact ih k h.2 hk

theorem lookupN_wfV : ∀ (vars : List (List Nat × Option Schema)) (t : List Nat) (s : Schema),
    schemaWFsV vars = true → lookupN vars t = some (some s) → schemaWF s = true := by
  intro vars
  induction vars with
  | nil => intro t s _ h; simp [lookupN] at h
  | cons x xs ih =>
    intro t s hwf h
    obtain ⟨n, o⟩ := x
    by_cases hn : n = t
    · subst hn
      simp [lookupN] at h
      subst h
      simp [schemaWFsV] at hwf
      exact hwf.1
    · rw [lookupN_cons_ne n o xs t hn] at h
      refine ih t s ?_ h
      cases o with
      | none => simpa [schemaWFsV] using hwf
      | some s2 => simp [schemaWFsV] at hwf; exact hwf.2

theorem matchedPairs_all (fields : List (List Nat × Schema)) :
    ∀ provided : List (List Nat × Value),
    (∀ p ∈ provided, (lookupN fields p.1).isSome = true) →
    matchedPairs fields provided = provided := by
  intro provided h
  simp only [matchedPairs]
  exact List.filter_eq_self.mpr h

theorem conformsElems_mem : ∀ (s : Schema) (l : List Value) (v : Value),
    conformsElems s l = true → v ∈ l → conforms s v = true := by
  intro s l
  induction l with
  | nil => intro v _ hv; simp at hv
  | cons x xs ih =>
    intro v h hv
    simp [conformsElems] at h
    rcases List.mem_cons.mp hv with hv | hv
    · subst hv; exact h.1
    · exact ih v h.2 hv

theorem escvElems_mem : ∀ (l : List Value) (v : Value),
    escvElems l = true → v ∈ l → escv v = true := by
  intro l
  induction l with
  | nil => intro v _ hv; simp at hv
  | cons x xs ih =>
    intro v h hv
    simp [escvElems] at h
    rcases List.mem_cons.mp hv with hv | hv
    · subst hv; exact h.1
    · exact ih v h.2 hv

theorem goodOptElems_mem : ∀ (l : List Value) (v : Value),
    goodOptElems l = true → v ∈ l → goodOpt v = true := by
  intro l
  induction l with
  | nil => intro v _ hv; simp at hv
  | cons x xs ih =>
    intro v h hv
    simp [goodOptElems] at h
    rcases List.mem_cons.mp hv with hv | hv
    · subst hv; exact h.1
    · exact ih v h.2 hv

theorem escvFields_mem : ∀ (fs : List (List Nat × Value)) (p : List Nat × Value),
    escvFields fs = true → p ∈ fs → escv p.2 = true := by
  intro fs
  induction fs with
  | nil => intro p _ hp; simp at hp
  | cons x xs ih =>
    intro p h hp
    obtain ⟨n, v⟩ := x
    simp [escvFields] at h
    rcases List.mem_cons.mp hp with hp | hp
    · subst hp; exact h.1
    · exact ih p h.2 hp

theorem goodOptFields_mem : ∀ (fs : List (List Nat × Value)) (p : List Nat × Value),
    goodOptFields fs = true → p ∈ fs → goodOpt p.2 = true := by
  intro fs
  induction fs with
  | nil => intro p _ hp; simp at hp
  | cons x xs ih =>
    intro p h hp
    obtain ⟨n, v⟩ := x
    simp [goodOptFields] at h
    rcases List.mem_cons.mp hp with hp | hp
    · subst hp; exact h.1
    · exact ih p h.2 hp

/-! ### The round-trip theorem: parsing a serialized conforming value -/

theorem parseValue_sBool (fuel : Nat) (bs0 : List Nat) :
    parseValue (fuel + 1) .sBool bs0 = parseBool (skipWs bs0) := rfl

theorem parseValue_sInt (fuel : Nat) (sg : Bool) (bits : Nat) (bs0 : List Nat) :
    parseValue (fuel + 1) (.sInt sg bits) bs0
      = (parseInt sg bits (skipWs bs0)).map (fun p => (.vInt p.1, p.2)) := rfl

theorem parseValue_sStr (fuel : Nat) (bs0 : List Nat) :
    parseValue (fuel + 1) .sStr bs0
      = (parseStr (skipWs bs0)).map (fun p => (.vStr p.1, p.2)) := rfl

theorem parseValue_sOpt (fuel : Nat) (s : Schema) (bs0 : List Nat) :
    parseValue (fuel + 1) (.sOpt s) bs0 = optBody (parseValue fuel s) (skipWs bs0) := rfl

theorem parseValue_sList (fuel : Nat) (s : Schema) (bs0 : List Nat) :
    parseValue (fuel + 1) (.sList s) bs0
      = listHead (elemsLoop (parseValue fuel s)) fuel (skipWs bs0) := rfl

theorem parseValue_sTup (fuel : Nat) (ss : List Schema) (bs0 : List Nat) :
    parseValue (fuel + 1) (.sTup ss) bs0
      = tupHead (tupLoop (parseValue fuel) ss) (skipWs bs0) := rfl

theorem parseValue_sFloat (fuel : Nat) (pr : Nat) (em : Int) (bs0 : List Nat) :
    parseValue (fuel + 1) (.sFloat pr em) bs0 = parseFloat pr em (skipWs bs0) := rfl

theorem parseValue_sRec (fuel : Nat) (fields : List (List Nat × Schema)) (bs0 : List Nat) :
    parseValue (fuel + 1) (.sRec fields) bs0
      = recHead (fun f r seen => pairsLoop (parseValue fuel) (skipAny fuel) fields f r seen)
          fields fuel (skipWs bs0) := rfl

theorem parseValue_sEnum (fuel : Nat) (variants : List (List Nat × Option Schema)) (bs0 : List Nat) :
    parseValue (fuel + 1) (.sEnum variants) bs0
      = enumHead (parseValue fuel) variants (skipWs bs0) := rfl

theorem schemaWFs_mem : ∀ (ss : List Schema) (s : Schema),
    schemaWFs ss = true → s ∈ ss → schemaWF s = true := by
  intro ss
  induction ss with
  | nil => intro s _ hs; simp at hs
  | cons x xs ih =>
    intro s h hs
    simp [schemaWFs] at h
    rcases List.mem_cons.mp hs with hs | hs
    · subst hs; exact h.1
    · exact ih s h.2 hs

theorem conformsTup_forall2 {P : Schema → Value → Prop} :
    ∀ (ss : List Schema) (l : List Value), conformsTup ss l = true →
    (∀ s v, s ∈ ss → v ∈ l → conforms s v = true → P s v) →
    List.Forall₂ P ss l := by
  intro ss
  induction ss with
  | nil =>
    intro l hc _
    cases l with
    | nil => exact List.Forall₂.nil
    | cons y ys => simp [conformsTup] at hc
  | cons s2 ss2 ih =>
    intro l hc hP
    cases l with
    | nil => simp [conformsTup] at hc
    | cons y ys =>
      have hcy : conforms s2 y = true ∧ conformsTup ss2 ys = true := by
        simpa [conformsTup] using hc
      exact List.Forall₂.cons (hP s2 y (by simp) (by simp) hcy.1)
        (ih ys hcy.2 (fun s v hs hv hcv => hP s v (by simp [hs]) (by simp [hv]) hcv))

theorem parse_enc : ∀ (n : Nat) (v : Value) (sch : Schema),
    conforms sch v = true → schemaWF sch = true → escv v = true → goodOpt v = true →
    vsize v ≤ n → ∀ fuel : Nat, vsize v ≤ fuel → ∀ rest : List Nat, sepOk rest = true →
    parseValue fuel sch (encodeValue v ++ rest) = .ok (v, rest) := by
  intro n
  induction n with
  | zero =>
    intro v sch _ _ _ _ hv
    have := vsize_pos v
    omega
  | succ n ih =>
    intro v sch hconf hwf hesc hgo hv fuel hfuel rest hrest
    cases fuel with
    | zero => have := vsize_pos v; omega
    | succ f =>
      cases v with
      | vBool b =>
        cases sch with
        | sBool => cases b <;> simp [parseValue_sBool, parseBool, skipWs, isWs, encodeValue]
        | sInt sg bits => simp [conforms] at hconf
        | sStr => simp [conforms] at hconf
        | sOpt s => simp [conforms] at hconf
        | sList s => simp [conforms] at hconf
        | sTup ss => simp [conforms] at hconf
        | sRec fields => simp [conforms] at hconf
        | sEnum vars => simp [conforms] at hconf
        | sFloat pr em => simp [conforms] at hconf
      | vInt m =>
        cases sch with
        | sInt sg bits =>
          have hrange : intMin sg bits ≤ m ∧ m ≤ intMax sg bits := by
            simpa [conforms] using hconf
          rw [parseValue_sInt, skipWs_enc]
          have hED : encodeValue (.vInt m) = intDec m := rfl
          rw [hED, parseInt_intDec sg bits m hrange.1 hrange.2 rest (sepOk_nonDigitStart hrest)]
          rfl
        | sBool => simp [conforms] at hconf
        | sStr => simp [conforms] at hconf
        | sOpt s => simp [conforms] at hconf
        | sList s => simp [conforms] at hconf
        | sTup ss => simp [conforms] at hconf
        | sRec fields => simp [conforms] at hconf
        | sEnum vars => simp [conforms] at hconf
        | sFloat pr em => simp [conforms] at hconf
      | vFloat m e =>
        cases sch with
        | sFloat pr em =>
          have hcanon : floatCanon pr em m e = true := by simpa [conforms] using hconf
          have hwf2 : 1 ≤ pr ∧ em ≤ 0 := by simpa [schemaWF] using hwf
          rw [parseValue_sFloat, skipWs_enc]
          have hED : encodeValue (.vFloat m e) = floatDec m e := rfl
          rw [hED, parseFloat_floatDec pr em hwf2.1 hwf2.2 m e hcanon rest hrest]
        | sBool => simp [conforms] at hconf
        | sInt sg bits => simp [conforms] at hconf
        | sStr => simp [conforms] at hconf
        | sOpt s => simp [conforms] at hconf
        | sList s => simp [conforms] at hconf
        | sTup ss => simp [conforms] at hconf
        | sRec fields => simp [conforms] at hconf
        | sEnum vars => simp [conforms] at hconf
      | vStr str =>
        cases sch with
        | sStr =>
          have hesc2 : escvList str = true := by simpa [escv] using hesc
          rw [parseValue_sStr, skipWs_enc]
          have hED : encodeValue (.vStr str) = encodeStr str := rfl
          rw [hED, parseStr_encodeStr_escv str hesc2 rest]
          rfl
        | sBool => simp [conforms] at hconf
        | sInt sg bits => simp [conforms] at hconf
        | sOpt s => simp [conforms] at hconf
        | sList s => simp [conforms] at hconf
        | sTup ss => simp [conforms] at hconf
        | sRec fields => simp [conforms] at hconf
        | sEnum vars => simp [conforms] at hconf
        | sFloat pr em => simp [conforms] at hconf
      | vNone =>
        cases sch with
        | sOpt s => simp [parseValue_sOpt, optBody, skipWs, isWs, encodeValue]
        | sBool => simp [conforms] at hconf
        | sInt sg bits => simp [conforms] at hconf
        | sStr => simp [conforms] at hconf
        | sList s => simp [conforms] at hconf
        | sTup ss => simp [conforms] at hconf
        | sRec fields => simp [conforms] at hconf
        | sEnum vars => simp [conforms] at hconf
        | sFloat pr em => simp [conforms] at hconf
      | vSome w =>
        cases sch with
        | sOpt s =>
          have hc : conforms s w = true := by simpa [conforms] using hconf
          have hwf2 : schemaWF s = true := by simpa [schemaWF] using hwf
          have hesc2 : escv w = true := by simpa [escv] using hesc
          have hgo2 : nullLike w = false ∧ goodOpt w = true := by
            simp [goodOpt] at hgo
            exact ⟨by simpa using hgo.1, hgo.2⟩
          rw [parseValue_sOpt, skipWs_enc]
          have hED : encodeValue (.vSome w) = encodeValue w := rfl
          rw [hED]
          obtain ⟨b, t, hbt, hb1, _, _, h110⟩ := enc_head w
          have hb110 : ¬ b = 110 := h110 hgo2.1
          rw [hbt, List.cons_append]
          simp only [optBody]
          rw [if_neg hb110, ← List.cons_append, ← hbt]
          rw [ih w s hc hwf2 hesc2 hgo2.2 (by simp [vsize] at hv; omega) f
            (by simp [vsize] at hfuel; omega) rest hrest]
          rfl
        | sBool => simp [conforms] at hconf
        | sInt sg bits => simp [conforms] at hconf
        | sStr => simp [conforms] at hconf
        | sList s => simp [conforms] at hconf
        | sTup ss => simp [conforms] at hconf
        | sRec fields => simp [conforms] at hconf
        | sEnum vars => simp [conforms] at hconf
        | sFloat pr em => simp [conforms] at hconf
      | vSeq l =>
        cases sch with
        | sList s =>
          have hc : conformsElems s l = true := by simpa [conforms] using hconf
          have hwf2 : schemaWF s = true := by simpa [schemaWF] using hwf
          have hesc2 : escvElems l = true := by simpa [escv] using hesc
          have hgo2 : goodOptElems l = true := by simpa [goodOpt] using hgo
          have hED : encodeValue (.vSeq l) ++ rest = 91 :: (encodeElems l ++ 93 :: rest) := by
            simp [encodeValue]
          rw [hED, parseValue_sList, skipWs_cons _ (by decide : isWs 91 = false)]
          simp only [listHead]
          cases l with
          | nil => simp [encodeElems, skipWs125, listBody, skipWs, isWs]
          | cons x xs =>
            rw [skipWs_encodeElems _ _ (by simp)]
            obtain ⟨b, t, hbt, hb1, hb93, _, _⟩ := enc_head x
            have hshape : encodeElems (x :: xs) ++ 93 :: rest
                = b :: (t ++ (match xs with | [] => [] | _ :: _ => 44 :: encodeElems xs) ++ 93 :: rest) := by
              cases xs with
              | nil => simp [encodeElems, hbt]
              | cons y ys => simp [encodeElems_cons, hbt]
            rw [hshape]
            simp only [listBody]
            rw [if_neg hb93, ← hshape]
            rw [elemsLoop_run (parseValue f s) (x :: xs) (by simp) ?_ f ?_ rest]
            · rfl
            · intro v hvm r2 h2
              have hm1 : 1 + vsize v ≤ vsizes (x :: xs) := vsizes_mem _ v hvm
              refine ih v s (conformsElems_mem s _ v hc hvm) hwf2
                (escvElems_mem _ v hesc2 hvm) (goodOptElems_mem _ v hgo2 hvm)
                ?_ f ?_ r2 h2
              · simp [vsize] at hv; omega
              · simp [vsize] at hfuel; omega
            · have := vsizes_len (x :: xs)
              simp [vsize] at hfuel
              omega
        | sTup ss =>
          have hc : conformsTup ss l = true := by simpa [conforms] using hconf
          have hwfs : schemaWFs ss = true := by simpa [schemaWF] using hwf
          have hesc2 : escvElems l = true := by simpa [escv] using hesc
          have hgo2 : goodOptElems l = true := by simpa [goodOpt] using hgo
          have hvs1 : vsizes l ≤ n := by simp [vsize] at hv; omega
          have hvs2 : vsizes l ≤ f := by simp [vsize] at hfuel; omega
          have hED : encodeValue (.vSeq l) ++ rest = 91 :: (encodeElems l ++ 93 :: rest) := by
            simp [encodeValue]
          rw [hED, parseValue_sTup, skipWs_cons _ (by decide : isWs 91 = false)]
          simp only [tupHead]
          have halign : List.Forall₂ (fun s2 v => ∀ r2 : List Nat, sepOk r2 = true →
              parseValue f s2 (encodeValue v ++ r2) = .ok (v, r2)) ss l := by
            refine conformsTup_forall2 ss l hc ?_
            intro s2 y hs hy hcy r2 h2
            have hm1 : 1 + vsize y ≤ vsizes l := vsizes_mem _ y hy
            refine ih y s2 hcy (schemaWFs_mem ss s2 hwfs hs) (escvElems_mem _ y hesc2 hy)
              (goodOptElems_mem _ y hgo2 hy) ?_ f ?_ r2 h2
            · omega
            · omega
          rw [tupLoop_run (parseValue f) ss l halign rest]
          rfl
        | sBool => simp [conforms] at hconf
        | sInt sg bits => simp [conforms] at hconf
        | sStr => simp [conforms] at hconf
        | sOpt s => simp [conforms] at hconf
        | sRec fields => simp [conforms] at hconf
        | sEnum vars => simp [conforms] at hconf
        | sFloat pr em => simp [conforms] at hconf
      | vRec vfs =>
        cases sch with
        | sRec fields =>
          have hc : conformsFields fields vfs = true := by simpa [conforms] using hconf
          have hwf3 : nodupKeys (fields.map Prod.fst) = true ∧ escvKeys (fields.map Prod.fst) = true
              ∧ schemaWFsF fields = true := by
            have := hwf
            simp [schemaWF] at this
            tauto
          have hED : encodeValue (.vRec vfs) ++ rest = 123 :: (encodePairs vfs ++ 125 :: rest) := by
            simp [encodeValue]
          rw [hED, parseValue_sRec, skipWs_cons _ (by decide : isWs 123 = false)]
          simp only [recHead]
          cases vfs with
          | nil =>
            cases fields with
            | cons g gs => simp [conformsFields] at hc
            | nil => simp [encodePairs, recBody, skipWs, isWs, assemble, Except.map]
          | cons x xs =>
            rw [skipWs_encodePairs _ _ (by simp)]
            obtain ⟨xn, xv⟩ := x
            have hshape : encodePairs ((xn, xv) :: xs) ++ 125 :: rest
                = 34 :: ((escBytes xn ++ [34]) ++ (58 :: (encodeValue xv
                    ++ (match xs with | [] => [] | _ :: _ => 44 :: encodePairs xs) ++ 125 :: rest))) := by
              cases xs with
              | nil => simp [encodePairs, encodeStr]
              | cons y ys =>
                rw [encodePairs_cons]
                simp [encodeStr]
            rw [hshape]
            simp only [recBody]
            rw [if_neg (by decide : ¬ (34 : Nat) = 125), ← hshape]
            have hlkup := confF_lookup fields ((xn, xv) :: xs) hc hwf3.1 hwf3.2.2
            have hnames := confF_names fields ((xn, xv) :: xs) hc
            have hesc2 : escvFields ((xn, xv) :: xs) = true := by simpa [escv] using hesc
            have hgo2 : goodOptFields ((xn, xv) :: xs) = true := by simpa [goodOpt] using hgo
            rw [pairsLoop_run (parseValue f) (skipAny f) fields ((xn, xv) :: xs) (by simp)
              ?_ ?_ ?_ f ?_ rest []]
            rotate_left
            · intro p hp
              refine escvKeys_mem (fields.map Prod.fst) p.1 hwf3.2.1 ?_
              rw [hnames]
              exact List.mem_map_of_mem Prod.fst hp
            · intro p hp sch2 hlk2 r2 h2
              obtain ⟨sch0, hlk0, hc0, hw0⟩ := hlkup p hp
              have hse : sch0 = sch2 := by
                rw [hlk0] at hlk2
                injection hlk2
              subst hse
              have hm1 : 1 + vsize p.2 ≤ vsizesF ((xn, xv) :: xs) := by
                obtain ⟨p1, p2⟩ := p
                exact vsizesF_mem _ p1 p2 hp
              refine ih p.2 sch0 hc0 hw0 (escvFields_mem _ p hesc2 hp)
                (goodOptFields_mem _ p hgo2 hp) ?_ f ?_ r2 h2
              · simp [vsize] at hv; omega
              · simp [vsize] at hfuel; omega
            · intro p hp hnone
              obtain ⟨sch0, hlk0, _, _⟩ := hlkup p hp
              rw [hlk0] at hnone
              exact absurd hnone (by simp)
            · have := vsizesF_len ((xn, xv) :: xs)
              simp [vsize] at hfuel
              omega
            · have hA := assemble_exact fields ((xn, xv) :: xs) ((xn, xv) :: xs)
                (by simpa using conf_align fields ((xn, xv) :: xs) [] hc (by simp) hwf3.1)
              simp only [matchedPairs_all fields ((xn, xv) :: xs)
                (fun p hp => by obtain ⟨sch0, hlk0, _, _⟩ := hlkup p hp; simp [hlk0]),
                List.nil_append, hA, Except.map]
        | sBool => simp [conforms] at hconf
        | sInt sg bits => simp [conforms] at hconf
        | sStr => simp [conforms] at hconf
        | sOpt s => simp [conforms] at hconf
        | sList s => simp [conforms] at hconf
        | sTup ss => simp [conforms] at hconf
        | sEnum vars => simp [conforms] at hconf
        | sFloat pr em => simp [conforms] at hconf
      | vEnumUnit t =>
        cases sch with
        | sEnum vars =>
          have hlk : lookupN vars t = some none := by
            have := hconf
            simp only [conforms] at this
            cases hl : lookupN vars t with
            | none => rw [hl] at this; simp at this
            | some o =>
              cases o with
              | none => rfl
              | some s2 => rw [hl] at this; simp at this
          have hwf3 : escvKeys (vars.map Prod.fst) = true := by
            have := hwf
            simp [schemaWF] at this
            tauto
          have hescT : escvList t = true :=
            escvKeys_mem _ t hwf3 (lookupN_some_name_mem vars t none hlk)
          have hED : encodeValue (.vEnumUnit t) ++ rest = 34 :: (escBytes t ++ 34 :: rest) := by
            simp [encodeValue, encodeStr]
          rw [hED, parseValue_sEnum, skipWs_cons _ (by decide : isWs 34 = false)]
          simp only [enumHead, escvList_escBytes t hescT,
            scanStr_token t (escvList_strTokenOk t hescT), hlk]
        | sBool => simp [conforms] at hconf
        | sInt sg bits => simp [conforms] at hconf
        | sStr => simp [conforms] at hconf
        | sOpt s => simp [conforms] at hconf
        | sList s => simp [conforms] at hconf
        | sTup ss => simp [conforms] at hconf
        | sRec fields => simp [conforms] at hconf
        | sFloat pr em => simp [conforms] at hconf
      | vEnumPayload t p =>
        cases sch with
        | sEnum vars =>
          have hlk : ∃ s2, lookupN vars t = some (some s2) ∧ conforms s2 p = true := by
            have := hconf
            simp only [conforms] at this
            cases hl : lookupN vars t with
            | none => rw [hl] at this; simp at this
            | some o =>
              cases o with
              | none => rw [hl] at this; simp at this
              | some s2 => exact ⟨s2, rfl, by rw [hl] at this; simpa using this⟩
          obtain ⟨s2, hlk2, hc2⟩ := hlk
          have hwf3 : escvKeys (vars.map Prod.fst) = true ∧ schemaWFsV vars = true := by
            have := hwf
            simp [schemaWF] at this
            tauto
          have hescT : escvList t = true :=
            escvKeys_mem _ t hwf3.1 (lookupN_some_name_mem vars t (some s2) hlk2)
          have hwfs2 : schemaWF s2 = true := lookupN_wfV vars t s2 hwf3.2 hlk2
          have hED : encodeValue (.vEnumPayload t p) ++ rest
              = 123 :: (encodeStr t ++ (58 :: (encodeValue p ++ 125 :: rest))) := by
            simp [encodeValue]
          rw [hED, parseValue_sEnum, skipWs_cons _ (by decide : isWs 123 = false)]
          simp only [enumHead, skipWs_encodeStr, parseStr_encodeStr_escv t hescT, skipWs58, hlk2]
          rw [skipWs_enc]
          rw [ih p s2 hc2 hwfs2 (by simpa [escv] using hesc) (by simpa [goodOpt] using hgo)
            (by simp [vsize] at hv; omega) f (by simp [vsize] at hfuel; omega)
            (125 :: rest) (sepOk125 rest)]
          simp only [skipWs125]
        | sBool => simp [conforms] at hconf
        | sInt sg bits => simp [conforms] at hconf
        | sStr => simp [conforms] at hconf
        | sOpt s => simp [conforms] at hconf
        | sList s => simp [conforms] at hconf
        | sTup ss => simp [conforms] at hconf
        | sRec fields => simp [conforms] at hconf
        | sFloat pr em => simp [conforms] at hconf

/-! ### Fuel bounds in terms of serialized length -/

theorem enc_len_pos (v : Value) : 1 ≤ (encodeValue v).length := by
  obtain ⟨b, t, hbt, _, _, _, _⟩ := enc_head v
  simp [hbt]

theorem encodeStr_len_ge (s : List Nat) : 2 ≤ (encodeStr s).length := by
  simp [encodeStr]
  try omega

theorem encodeElems_len : ∀ (l : List Value), l.length ≤ (encodeElems l).length + 1 := by
  intro l
  induction l with
  | nil => simp [encodeElems]
  | cons x xs ih =>
    cases xs with
    | nil =>
      have := enc_len_pos x
      simp [encodeElems]
      try omega
    | cons y ys =>
      have := enc_len_pos x
      rw [encodeElems_cons]
      simp at ih ⊢
      omega

theorem encodePairs_len : ∀ (fs : List (List Nat × Value)), fs.length ≤ (encodePairs fs).length := by
  intro fs
  induction fs with
  | nil => simp [encodePairs]
  | cons x xs ih =>
    obtain ⟨n, v⟩ := x
    cases xs with
    | nil =>
      have h1 := enc_len_pos v
      have h2 := encodeStr_len_ge n
      simp [encodePairs]
      try omega
    | cons y ys =>
      have h1 := enc_len_pos v
      have h2 := encodeStr_len_ge n
      rw [encodePairs_cons]
      simp at ih ⊢
      omega

theorem encodeElems_mem_len : ∀ (l : List Value) (e : Value), e ∈ l →
    (encodeValue e).length ≤ (encodeElems l).length := by
  intro l
  induction l with
  | nil => intro e he; simp at he
  | cons x xs ih =>
    intro e he
    rcases List.mem_cons.mp he with he | he
    · subst he
      cases xs with
      | nil => simp [encodeElems]
      | cons y ys => rw [encodeElems_cons]; simp
    · have := ih e he
      cases xs with
      | nil => simp at he
      | cons y ys => rw [encodeElems_cons]; simp; omega

theorem encodePairs_mem_len : ∀ (fs : List (List Nat × Value)) (p : List Nat × Value), p ∈ fs →
    (encodeValue p.2).length ≤ (encodePairs fs).length := by
  intro fs
  induction fs with
  | nil => intro p hp; simp at hp
  | cons x xs ih =>
    intro p hp
    obtain ⟨n, v⟩ := x
    rcases List.mem_cons.mp hp with hp | hp
    · subst hp
      cases xs with
      | nil => simp [encodePairs]; omega
      | cons y ys => rw [encodePairs_cons]; simp; omega
    · have := ih p hp
      cases xs with
      | nil => simp at hp
      | cons y ys => rw [encodePairs_cons]; simp; omega

theorem ssizes_bound : ∀ (l : List Value),
    (∀ e ∈ l, ssize e ≤ 2 * (encodeValue e).length) →
    ssizes l + l.length ≤ 2 * (encodeElems l).length + 2 := by
  intro l
  induction l with
  | nil => simp [ssizes, encodeElems]
  | cons x xs ih =>
    intro h
    have hx := h x (by simp)
    cases xs with
    | nil =>
      simp [ssizes, encodeElems]
      omega
    | cons y ys =>
      have iht := ih (fun e he => h e (by simp [he]))
      rw [encodeElems_cons]
      simp [ssizes] at iht ⊢
      omega

theorem ssizesF_bound : ∀ (fs : List (List Nat × Value)),
    (∀ p ∈ fs, ssize p.2 ≤ 2 * (encodeValue p.2).length) →
    ssizesF fs + fs.length ≤ 2 * (encodePairs fs).length + 2 := by
  intro fs
  induction fs with
  | nil => simp [ssizesF, encodePairs]
  | cons x xs ih =>
    intro h
    obtain ⟨n, v⟩ := x
    have hx := h (n, v) (by simp)
    have h2 := encodeStr_len_ge n
    cases xs with
    | nil =>
      simp [ssizesF, encodePairs]
      simp at hx
      omega
    | cons y ys =>
      have iht := ih (fun p hp => h p (by simp [hp]))
      rw [encodePairs_cons]
      simp [ssizesF] at iht hx ⊢
      omega

theorem ssize_le : ∀ (n : Nat) (v : Value), sizeOf v ≤ n →
    ssize v ≤ 2 * (encodeValue v).length := by
  intro n
  induction n with
  | zero => intro v hv; cases v <;> simp at hv
  | succ n ih =>
    intro v hv
    cases v with
    | vBool b =>
      have := enc_len_pos (Value.vBool b)
      simp [ssize]
      omega
    | vInt m =>
      have := enc_len_pos (Value.vInt m)
      simp [ssize]
      omega
    | vFloat m e =>
      have := enc_len_pos (Value.vFloat m e)
      simp [ssize]
      omega
    | vStr s =>
      have := enc_len_pos (Value.vStr s)
      simp [ssize]
      omega
    | vNone =>
      have := enc_len_pos Value.vNone
      simp [ssize]
      omega
    | vSome w =>
      have hspec : sizeOf (Value.vSome w) = 1 + sizeOf w := by simp
      have := ih w (by omega)
      simpa [ssize, encodeValue] using this
    | vSeq l =>
      have hspec : sizeOf (Value.vSeq l) = 1 + sizeOf l := by simp
      have hb := ssizes_bound l (fun e he => by
        have h1 : sizeOf e < sizeOf l := List.sizeOf_lt_of_mem he
        exact ih e (by omega))
      have hl := encodeElems_len l
      have hE : (encodeValue (Value.vSeq l)).length = 2 + (encodeElems l).length := by
        simp [encodeValue]
        omega
      simp [ssize, hE]
      omega
    | vRec fs =>
      have hspec : sizeOf (Value.vRec fs) = 1 + sizeOf fs := by simp
      have hb := ssizesF_bound fs (fun p hp => by
        have h1 : sizeOf p < sizeOf fs := List.sizeOf_lt_of_mem hp
        have h2 : sizeOf p.2 < sizeOf p := by
          obtain ⟨p1, p2⟩ := p
          have : sizeOf (p1, p2) = 1 + sizeOf p1 + sizeOf p2 := by simp
          simp
          try omega
        exact ih p.2 (by omega))
      have hl := encodePairs_len fs
      have hE : (encodeValue (Value.vRec fs)).length = 2 + (encodePairs fs).length := by
        simp [encodeValue]
        omega
      simp [ssize, hE]
      omega
    | vEnumUnit t =>
      have := enc_len_pos (Value.vEnumUnit t)
      simp [ssize]
      omega
    | vEnumPayload t p =>
      have hspec : sizeOf (Value.vEnumPayload t p) = 1 + sizeOf t + sizeOf p := by simp
      have hp := ih p (by omega)
      have h2 := encodeStr_len_ge t
      have hE : (encodeValue (Value.vEnumPayload t p)).length
          = 3 + (encodeStr t).length + (encodeValue p).length := by
        simp [encodeValue]
        omega
      simp [ssize, hE]
      omega

theorem schemaSizes_mem : ∀ (ss : List Schema) (s : Schema), s ∈ ss →
    schemaSize s ≤ schemaSizes ss := by
  intro ss
  induction ss with
  | nil => intro s hs; simp at hs
  | cons x xs ih =>
    intro s hs
    rcases List.mem_cons.mp hs with hs | hs
    · subst hs; simp [schemaSizes]
    · have := ih s hs
      simp [schemaSizes]
      omega

theorem schemaSizesF_mem : ∀ (fs : List (List Nat × Schema)) (n : List Nat) (s : Schema),
    (n, s) ∈ fs → schemaSize s ≤ schemaSizesF fs := by
  intro fs
  induction fs with
  | nil => intro n s hs; simp at hs
  | cons x xs ih =>
    intro n s hs
    obtain ⟨xn, xsch⟩ := x
    rcases List.mem_cons.mp hs with hs | hs
    · injection hs with h1 h2
      subst h2
      simp [schemaSizesF]
    · have := ih n s hs
      simp [schemaSizesF]
      omega

theorem lookupN_sizeV : ∀ (vars : List (List Nat × Option Schema)) (t : List Nat) (s : Schema),
    lookupN vars t = some (some s) → schemaSize s ≤ schemaSizesV vars := by
  intro vars
  induction vars with
  | nil => intro t s h; simp [lookupN] at h
  | cons x xs ih =>
    intro t s h
    obtain ⟨n, o⟩ := x
    by_cases hn : n = t
    · subst hn
      simp [lookupN] at h
      subst h
      simp [schemaSizesV]
    · rw [lookupN_cons_ne n o xs t hn] at h
      have := ih t s h
      cases o with
      | none => simp [schemaSizesV]; omega
      | some s2 => simp [schemaSizesV]; omega

theorem confTup_pairs : ∀ (ss : List Schema) (l : List Value), conformsTup ss l = true →
    ∀ v ∈ l, ∃ s, s ∈ ss ∧ conforms s v = true := by
  intro ss
  induction ss with
  | nil =>
    intro l hc v hv
    cases l with
    | nil => simp at hv
    | cons y ys => simp [conformsTup] at hc
  | cons s2 ss2 ih =>
    intro l hc v hv
    cases l with
    | nil => simp at hv
    | cons y ys =>
      have hcy : conforms s2 y = true ∧ conformsTup ss2 ys = true := by
        simpa [conformsTup] using hc
      rcases List.mem_cons.mp hv with hv | hv
      · subst hv; exact ⟨s2, by simp, hcy.1⟩
      · obtain ⟨s3, hs3, hc3⟩ := ih ys hcy.2 v hv
        exact ⟨s3, by simp [hs3], hc3⟩

theorem confF_pairs : ∀ (fs : List (List Nat × Schema)) (vfs : List (List Nat × Value)),
    conformsFields fs vfs = true →
    ∀ p ∈ vfs, ∃ s, (p.1, s) ∈ fs ∧ conforms s p.2 = true := by
  intro fs
  induction fs with
  | nil =>
    intro vfs hc p hp
    cases vfs with
    | nil => simp at hp
    | cons y ys => simp [conformsFields] at hc
  | cons x xs ih =>
    intro vfs hc p hp
    obtain ⟨n, sch⟩ := x
    cases vfs with
    | nil => simp [conformsFields] at hc
    | cons y ys =>
      obtain ⟨m, v⟩ := y
      simp [conformsFields] at hc
      obtain ⟨⟨hnm, hcv⟩, hcrest⟩ := hc
      subst hnm
      rcases List.mem_cons.mp hp with hp | hp
      · subst hp; exact ⟨sch, by simp, hcv⟩
      · obtain ⟨s3, hs3, hc3⟩ := ih ys hcrest p hp
        exact ⟨s3, by simp [hs3], hc3⟩

theorem vsizes_boundK : ∀ (K : Nat) (l : List Value),
    (∀ e ∈ l, vsize e ≤ (encodeValue e).length * K) →
    vsizes l + K * l.length ≤ K * (encodeElems l).length + l.length + K := by
  intro K l
  induction l with
  | nil => simp [vsizes, encodeElems]
  | cons x xs ih =>
    intro h
    have hx := h x (by simp)
    cases xs with
    | nil =>
      simp [vsizes, encodeElems]
      nlinarith [hx]
    | cons y ys =>
      have iht := ih (fun e he => h e (by simp [he]))
      rw [encodeElems_cons]
      simp [vsizes] at iht hx ⊢
      nlinarith [iht, hx]

theorem vsizesF_boundK : ∀ (K : Nat) (fs : List (List Nat × Value)),
    (∀ p ∈ fs, vsize p.2 ≤ (encodeValue p.2).length * K) →
    vsizesF fs + K * fs.length ≤ K * (encodePairs fs).length + fs.length + K := by
  intro K fs
  induction fs with
  | nil => simp [vsizesF, encodePairs]
  | cons x xs ih =>
    intro h
    obtain ⟨n, v⟩ := x
    have hx := h (n, v) (by simp)
    have hstr := encodeStr_len_ge n
    cases xs with
    | nil =>
      simp [vsizesF, encodePairs]
      simp at hx
      nlinarith [hx, hstr]
    | cons y ys =>
      have iht := ih (fun p hp => h p (by simp [hp]))
      rw [encodePairs_cons]
      simp [vsizesF] at iht hx ⊢
      nlinarith [iht, hx, hstr]

theorem vsize_bound : ∀ (n : Nat) (v : Value) (sch : Schema), conforms sch v = true →
    sizeOf v ≤ n → vsize v ≤ (encodeValue v).length * (schemaSize sch + 1) := by
  intro n
  induction n with
  | zero => intro v sch _ hv; cases v <;> simp at hv
  | succ n ih =>
    intro v sch hconf hv
    cases v with
    | vBool b =>
      have h1 := enc_len_pos (Value.vBool b)
      have h2 : 1 ≤ schemaSize sch + 1 := by omega
      simp [vsize]
      nlinarith [h1, h2]
    | vInt m =>
      have h1 := enc_len_pos (Value.vInt m)
      simp [vsize]
      nlinarith [h1]
    | vFloat m e =>
      have h1 := enc_len_pos (Value.vFloat m e)
      simp [vsize]
      nlinarith [h1]
    | vStr s =>
      have h1 := enc_len_pos (Value.vStr s)
      simp [vsize]
      nlinarith [h1]
    | vNone =>
      have h1 := enc_len_pos Value.vNone
      simp [vsize]
      nlinarith [h1]
    | vEnumUnit t =>
      have h1 := enc_len_pos (Value.vEnumUnit t)
      simp [vsize]
      nlinarith [h1]
    | vSome w =>
      cases sch with
      | sOpt s =>
        have hc : conforms s w = true := by simpa [conforms] using hconf
        have hspec : sizeOf (Value.vSome w) = 1 + sizeOf w := by simp
        have hw := ih w s hc (by omega)
        have h1 := enc_len_pos w
        have hE : encodeValue (Value.vSome w) = encodeValue w := rfl
        have hS : schemaSize (Schema.sOpt s) = 1 + schemaSize s := by simp [schemaSize]
        rw [hE, hS]
        simp [vsize]
        nlinarith [hw, h1]
      | sBool => simp [conforms] at hconf
      | sInt sg bits => simp [conforms] at hconf
      | sStr => simp [conforms] at hconf
      | sList s => simp [conforms] at hconf
      | sTup ss => simp [conforms] at hconf
      | sRec fields => simp [conforms] at hconf
      | sEnum vars => simp [conforms] at hconf
      | sFloat pr em => simp [conforms] at hconf
    | vSeq l =>
      have hspec : sizeOf (Value.vSeq l) = 1 + sizeOf l := by simp
      have hlen := encodeElems_len l
      have hE : (encodeValue (Value.vSeq l)).length = 2 + (encodeElems l).length := by
        simp [encodeValue]
        omega
      cases sch with
      | sList s =>
        have hc : conformsElems s l = true := by simpa [conforms] using hconf
        have hb := vsizes_boundK (schemaSize s + 1) l (fun e he => by
          have h1 : sizeOf e < sizeOf l := List.sizeOf_lt_of_mem he
          exact ih e s (conformsElems_mem s l e hc he) (by omega))
        have hS : schemaSize (Schema.sList s) = 1 + schemaSize s := by simp [schemaSize]
        rw [hS]
        simp [vsize, hE] at hb ⊢
        nlinarith [hb, hlen]
      | sTup ss =>
        have hc : conformsTup ss l = true := by simpa [conforms] using hconf
        have hb := vsizes_boundK (schemaSizes ss + 1) l (fun e he => by
          have h1 : sizeOf e < sizeOf l := List.sizeOf_lt_of_mem he
          obtain ⟨s2, hs2, hc2⟩ := confTup_pairs ss l hc e he
          have := ih e s2 hc2 (by omega)
          have hsz := schemaSizes_mem ss s2 hs2
          nlinarith [this, hsz, enc_len_pos e])
        have hS : schemaSize (Schema.sTup ss) = 1 + schemaSizes ss := by simp [schemaSize]
        rw [hS]
        simp [vsize, hE] at hb ⊢
        nlinarith [hb, hlen]
      | sBool => simp [conforms] at hconf
      | sInt sg bits => simp [conforms] at hconf
      | sStr => simp [conforms] at hconf
      | sOpt s => simp [conforms] at hconf
      | sRec fields => simp [conforms] at hconf
      | sEnum vars => simp [conforms] at hconf
      | sFloat pr em => simp [conforms] at hconf
    | vRec vfs =>
      cases sch with
      | sRec fields =>
        have hc : conformsFields fields vfs = true := by simpa [conforms] using hconf
        have hspec : sizeOf (Value.vRec vfs) = 1 + sizeOf vfs := by simp
        have hlen := encodePairs_len vfs
        have hE : (encodeValue (Value.vRec vfs)).length = 2 + (encodePairs vfs).length := by
          simp [encodeValue]
          omega
        have hb := vsizesF_boundK (schemaSizesF fields + 1) vfs (fun p hp => by
          have h1 : sizeOf p < sizeOf vfs := List.sizeOf_lt_of_mem hp
          have h2 : sizeOf p.2 < sizeOf p := by
            obtain ⟨p1, p2⟩ := p
            have : sizeOf (p1, p2) = 1 + sizeOf p1 + sizeOf p2 := by simp
            simp
            try omega
          obtain ⟨s2, hs2, hc2⟩ := confF_pairs fields vfs hc p hp
          have := ih p.2 s2 hc2 (by omega)
          have hsz := schemaSizesF_mem fields p.1 s2 hs2
          nlinarith [this, hsz, enc_len_pos p.2])
        have hS : schemaSize (Schema.sRec fields) = 1 + schemaSizesF fields := by simp [schemaSize]
        rw [hS]
        simp [vsize, hE] at hb ⊢
        nlinarith [hb, hlen]
      | sBool => simp [conforms] at hconf
      | sInt sg bits => simp [conforms] at hconf
      | sStr => simp [conforms] at hconf
      | sOpt s => simp [conforms] at hconf
      | sList s => simp [conforms] at hconf
      | sTup ss => simp [conforms] at hconf
      | sEnum vars => simp [conforms] at hconf
      | sFloat pr em => simp [conforms] at hconf
    | vEnumPayload t p =>
      cases sch with
      | sEnum vars =>
        have hlk : ∃ s2, lookupN vars t = some (some s2) ∧ conforms s2 p = true := by
          have := hconf
          simp only [conforms] at this
          cases hl : lookupN vars t with
          | none => rw [hl] at this; simp at this
          | some o =>
            cases o with
            | none => rw [hl] at this; simp at this
            | some s2 => exact ⟨s2, rfl, by rw [hl] at this; simpa using this⟩
        obtain ⟨s2, hlk2, hc2⟩ := hlk
        have hspec : sizeOf (Value.vEnumPayload t p) = 1 + sizeOf t + sizeOf p := by simp
        have hp := ih p s2 hc2 (by omega)
        have hsz := lookupN_sizeV vars t s2 hlk2
        have hstr := encodeStr_len_ge t
        have hE : (encodeValue (Value.vEnumPayload t p)).length
            = 3 + (encodeStr t).length + (encodeValue p).length := by
          simp [encodeValue]
          omega
        have hS : schemaSize (Schema.sEnum vars) = 1 + schemaSizesV vars := by simp [schemaSize]
        rw [hS]
        simp [vsize, hE]
        nlinarith [hp, hsz, hstr, enc_len_pos p]
      | sBool => simp [conforms] at hconf
      | sInt sg bits => simp [conforms] at hconf
      | sStr => simp [conforms] at hconf
      | sOpt s => simp [conforms] at hconf
      | sList s => simp [conforms] at hconf
      | sTup ss => simp [conforms] at hconf
      | sRec fields => simp [conforms] at hconf
      | sFloat pr em => simp [conforms] at hconf

theorem lookupN_mem {α : Type} : ∀ (l : List (List Nat × α)) (k : List Nat) (a : α),
    lookupN l k = some a → (k, a) ∈ l := by
  intro l
  induction l with
  | nil => intro k a h; simp [lookupN] at h
  | cons x xs ih =>
    intro k a h
    obtain ⟨n, b⟩ := x
    by_cases hn : n = k
    · subst hn
      simp [lookupN] at h
      subst h
      simp
    · rw [lookupN_cons_ne n b xs k hn] at h
      exact List.mem_cons_of_mem _ (ih k a h)

theorem lookupN_wfF : ∀ (fs : List (List Nat × Schema)) (k : List Nat) (s : Schema),
    schemaWFsF fs = true → lookupN fs k = some s → schemaWF s = true := by
  intro fs
  induction fs with
  | nil => intro k s _ h; simp [lookupN] at h
  | cons x xs ih =>
    intro k s hwf h
    obtain ⟨n, sch⟩ := x
    have hwf2 : schemaWF sch = true ∧ schemaWFsF xs = true := by
      simpa [schemaWFsF] using hwf
    by_cases hn : n = k
    · subst hn
      simp [lookupN] at h
      subst h
      exact hwf2.1
    · rw [lookupN_cons_ne n sch xs k hn] at h
      exact ih k s hwf2.2 h

theorem fuel_arith (v s2 lp P SF f : Nat) (hvb : v ≤ lp * (s2 + 1)) (hlp : lp ≤ P)
    (hs2 : s2 ≤ SF) (hfeq : (1 + SF + 1) * (P + 2 + 1) = f + 1) : v ≤ f := by
  have hmul : lp * (s2 + 1) ≤ P * (SF + 1) := Nat.mul_le_mul hlp (by omega)
  have h1 : P * (SF + 1) = SF * P + P := by ring
  have h2 : (1 + SF + 1) * (P + 2 + 1) = SF * P + 3 * SF + 2 * P + 6 := by ring
  omega

/-- Serializing a conforming, escape-free, well-nested value and deserializing
the result against the same schema returns exactly the original value. -/
theorem from_slice_enc (v : Value) (sch : Schema)
    (hc : conforms sch v = true) (hwf : schemaWF sch = true)
    (hesc : escv v = true) (hgo : goodOpt v = true) :
    from_slice sch (encodeValue v) = .ok v := by
  have hvb := vsize_bound (sizeOf v) v sch hc (le_refl _)
  have hE := enc_len_pos v
  have hfuel : vsize v ≤ (schemaSize sch + 1) * ((encodeValue v).length + 1) := by
    nlinarith [hvb, hE]
  have hp := parse_enc (vsize v) v sch hc hwf hesc hgo (le_refl _)
      ((schemaSize sch + 1) * ((encodeValue v).length + 1)) hfuel [] rfl
  rw [List.append_nil] at hp
  simp only [from_slice, hp]
  simp [skipWs]

/-- Deserializing a serialized object against a record schema keeps exactly the
pairs whose keys are declared fields, silently dropping the others, and then
resolves the declared field list against those pairs. -/
theorem from_slice_record (fields : List (List Nat × Schema))
    (provided : List (List Nat × Value))
    (hwf : schemaWF (.sRec fields) = true)
    (hkeys : ∀ p ∈ provided, escvList p.1 = true)
    (hmatch : ∀ p ∈ provided, ∀ sch : Schema, lookupN fields p.1 = some sch →
        conforms sch p.2 = true ∧ escv p.2 = true ∧ goodOpt p.2 = true) :
    from_slice (.sRec fields) (encodeValue (.vRec provided))
      = (assemble (matchedPairs fields provided) fields).map Value.vRec := by
  have hwfF : schemaWFsF fields = true := by
    simp [schemaWF] at hwf
    tauto
  have hSr : schemaSize (Schema.sRec fields) = 1 + schemaSizesF fields := by simp [schemaSize]
  have hED : encodeValue (Value.vRec provided) = 123 :: (encodePairs provided ++ [125]) := by
    simp [encodeValue]
  have hlenE : (encodeValue (Value.vRec provided)).length = (encodePairs provided).length + 2 := by
    rw [hED]
    simp
  obtain ⟨f, hf⟩ : ∃ f2, (schemaSize (Schema.sRec fields) + 1)
      * ((encodeValue (Value.vRec provided)).length + 1) = f2 + 1 := by
    refine ⟨(schemaSize (Schema.sRec fields) + 1)
      * ((encodeValue (Value.vRec provided)).length + 1) - 1, ?_⟩
    have hpos : 0 < (schemaSize (Schema.sRec fields) + 1)
        * ((encodeValue (Value.vRec provided)).length + 1) :=
      Nat.mul_pos (by omega) (by omega)
    omega
  have hfeq := hf
  rw [hSr, hlenE] at hfeq
  simp only [from_slice]
  rw [hf, parseValue_sRec, hED, skipWs_cons _ (by decide : isWs 123 = false)]
  simp only [recHead]
  cases provided with
  | nil =>
    cases hA : assemble [] fields <;>
      simp [encodePairs, recBody, skipWs, isWs, hA, Except.map, matchedPairs]
  | cons x xs =>
    rw [skipWs_encodePairs _ _ (by simp)]
    obtain ⟨xn, xv⟩ := x
    have hshape : encodePairs ((xn, xv) :: xs) ++ [125]
        = 34 :: ((escBytes xn ++ [34]) ++ (58 :: (encodeValue xv
            ++ (match xs with | [] => [] | _ :: _ => 44 :: encodePairs xs) ++ [125]))) := by
      cases xs with
      | nil => simp [encodePairs, encodeStr]
      | cons y ys =>
        rw [encodePairs_cons]
        simp [encodeStr]
    rw [hshape]
    simp only [recBody]
    rw [if_neg (by decide : ¬ (34 : Nat) = 125), ← hshape]
    rw [pairsLoop_run (parseValue f) (skipAny f) fields ((xn, xv) :: xs) (by simp)
      ?_ ?_ ?_ f ?_ [] []]
    rotate_left
    · exact hkeys
    · intro p hp sch2 hlk2 r2 h2
      obtain ⟨hc2, hesc2, hgo2⟩ := hmatch p hp sch2 hlk2
      have hwfs2 : schemaWF sch2 = true := lookupN_wfF fields p.1 sch2 hwfF hlk2
      refine parse_enc (vsize p.2) p.2 sch2 hc2 hwfs2 hesc2 hgo2 (le_refl _) f ?_ r2 h2
      exact fuel_arith (vsize p.2) (schemaSize sch2) (encodeValue p.2).length
        (encodePairs ((xn, xv) :: xs)).length (schemaSizesF fields) f
        (vsize_bound (sizeOf p.2) p.2 sch2 hc2 (le_refl _))
        (encodePairs_mem_len ((xn, xv) :: xs) p hp)
        (schemaSizesF_mem fields p.1 sch2 (lookupN_mem fields p.1 sch2 hlk2))
        hfeq
    · intro p hp hnone r2 h2
      have hss := ssize_le (sizeOf p.2) p.2 (le_refl _)
      have hlp := encodePairs_mem_len ((xn, xv) :: xs) p hp
      refine skipAny_enc (sizeOf p.2) p.2 (le_refl _) f ?_ r2 h2
      have h1 : (1 + schemaSizesF fields + 1) * ((encodePairs ((xn, xv) :: xs)).length + 2 + 1)
          = schemaSizesF fields * (encodePairs ((xn, xv) :: xs)).length
            + 3 * schemaSizesF fields + 2 * (encodePairs ((xn, xv) :: xs)).length + 6 := by
        ring
      omega
    · have hlen := encodePairs_len ((xn, xv) :: xs)
      have h1 : (1 + schemaSizesF fields + 1) * ((encodePairs ((xn, xv) :: xs)).length + 2 + 1)
          = schemaSizesF fields * (encodePairs ((xn, xv) :: xs)).length
            + 3 * schemaSizesF fields + 2 * (encodePairs ((xn, xv) :: xs)).length + 6 := by
        ring
      omega
    · cases hA : assemble (matchedPairs fields ((xn, xv) :: xs)) fields <;>
        simp [hA, Except.map, skipWs]

theorem length_singleton (a : Nat) : ([a] : List Nat).length = 1 := rfl

theorem wBytes_run : ∀ (bs : List Nat) (cap : Nat) (out : List Nat), out.length ≤ cap →
    wBytes cap out bs = if out.length + bs.length ≤ cap then .ok (out ++ bs)
      else .error .BufferFull := by
  intro bs
  induction bs with
  | nil =>
    intro cap out hout
    simp [wBytes, hout]
  | cons b bs ih =>
    intro cap out hout
    simp only [wBytes]
    by_cases h1 : out.length < cap
    · rw [if_pos h1, ih cap (out ++ [b]) (by simp [Nat.succ_le_of_lt h1])]
      by_cases h3 : out.length + (b :: bs).length ≤ cap
      · rw [if_pos (by simp at h3 ⊢; omega), if_pos h3]
        simp
      · rw [if_neg (by simp at h3 ⊢; omega), if_neg h3]
    · rw [if_neg h1, if_neg (by simp only [List.length_cons]; omega)]

theorem ser_run : ∀ n : Nat,
    (∀ v : Value, sizeOf v ≤ n → ∀ cap : Nat, ∀ out : List Nat, out.length ≤ cap →
      serValue cap out v = if out.length + (encodeValue v).length ≤ cap
        then .ok (out ++ encodeValue v) else .error .BufferFull)
  ∧ (∀ l : List Value, sizeOf l ≤ n → ∀ cap : Nat, ∀ out : List Nat, out.length ≤ cap →
      serElems cap out l = if out.length + (encodeElems l).length ≤ cap
        then .ok (out ++ encodeElems l) else .error .BufferFull)
  ∧ (∀ fs : List (List Nat × Value), sizeOf fs ≤ n → ∀ cap : Nat, ∀ out : List Nat,
      out.length ≤ cap →
      serPairs cap out fs = if out.length + (encodePairs fs).length ≤ cap
        then .ok (out ++ encodePairs fs) else .error .BufferFull) := by
  intro n
  induction n with
  | zero =>
    refine ⟨?_, ?_, ?_⟩
    · intro v hv; cases v <;> simp at hv
    · intro l hl; cases l <;> simp at hl <;> try omega
    · intro fs hfs; cases fs <;> simp at hfs <;> try omega
  | succ n ih =>
    obtain ⟨ihv, ihl, ihf⟩ := ih
    refine ⟨?_, ?_, ?_⟩
    · intro v hv cap out hout
      cases v with
      | vBool b =>
        cases b <;> simp only [serValue, encodeValue] <;> rw [wBytes_run _ _ _ hout]
      | vInt m =>
        simp only [serValue, encodeValue]
        rw [wBytes_run _ _ _ hout]
      | vFloat m e =>
        simp only [serValue, encodeValue]
        rw [wBytes_run _ _ _ hout]
      | vStr s =>
        simp only [serValue, encodeValue]
        rw [wBytes_run _ _ _ hout]
      | vNone =>
        simp only [serValue, encodeValue]
        rw [wBytes_run _ _ _ hout]
      | vEnumUnit t =>
        simp only [serValue, encodeValue]
        rw [wBytes_run _ _ _ hout]
      | vSome w =>
        have hspec : sizeOf (Value.vSome w) = 1 + sizeOf w := by simp
        simp only [serValue, encodeValue]
        exact ihv w (by omega) cap out hout
      | vSeq l =>
        have hspec : sizeOf (Value.vSeq l) = 1 + sizeOf l := by simp
        have hEnc : encodeValue (Value.vSeq l) = 91 :: (encodeElems l ++ [93]) := by
          simp [encodeValue]
        simp only [serValue]
        rw [wBytes_run [91] cap out hout, length_singleton]
        by_cases h1 : out.length + 1 ≤ cap
        · rw [if_pos h1]
          have ihe2 := ihl l (by omega) cap (out ++ [91]) (by simp; omega)
          simp only [ihe2]
          by_cases h2 : out.length + 1 + (encodeElems l).length ≤ cap
          · rw [if_pos (by simp; omega)]
            have h3 := wBytes_run [93] cap ((out ++ [91]) ++ encodeElems l) (by simp; omega)
            simp only [h3, length_singleton]
            rw [hEnc]
            by_cases h4 : out.length + 1 + (encodeElems l).length + 1 ≤ cap
            · rw [if_pos (by simp; omega), if_pos (by simp; omega)]
              simp
            · rw [if_neg (by simp; omega), if_neg (by simp; omega)]
          · rw [if_neg (by simp; omega), hEnc, if_neg (by simp; omega)]
        · rw [if_neg h1, hEnc, if_neg (by simp; omega)]
      | vRec fs =>
        have hspec : sizeOf (Value.vRec fs) = 1 + sizeOf fs := by simp
        have hEnc : encodeValue (Value.vRec fs) = 123 :: (encodePairs fs ++ [125]) := by
          simp [encodeValue]
        simp only [serValue]
        rw [wBytes_run [123] cap out hout, length_singleton]
        by_cases h1 : out.length + 1 ≤ cap
        · rw [if_pos h1]
          have ihp2 := ihf fs (by omega) cap (out ++ [123]) (by simp; omega)
          simp only [ihp2]
          by_cases h2 : out.length + 1 + (encodePairs fs).length ≤ cap
          · rw [if_pos (by simp; omega)]
            have h3 := wBytes_run [125] cap ((out ++ [123]) ++ encodePairs fs) (by simp; omega)
            simp only [h3, length_singleton]
            rw [hEnc]
            by_cases h4 : out.length + 1 + (encodePairs fs).length + 1 ≤ cap
            · rw [if_pos (by simp; omega), if_pos (by simp; omega)]
              simp
            · rw [if_neg (by simp; omega), if_neg (by simp; omega)]
          · rw [if_neg (by simp; omega), hEnc, if_neg (by simp; omega)]
        · rw [if_neg h1, hEnc, if_neg (by simp; omega)]
      | vEnumPayload t p =>
        have hspec : sizeOf (Value.vEnumPayload t p) = 1 + sizeOf t + sizeOf p := by simp
        have hEnc : encodeValue (Value.vEnumPayload t p)
            = 123 :: (encodeStr t ++ 58 :: (encodeValue p ++ [125])) := by
          simp [encodeValue]
        have hpre : (123 :: (encodeStr t ++ [58])).length = (encodeStr t).length + 2 := by
          simp
        simp only [serValue]
        rw [wBytes_run (123 :: (encodeStr t ++ [58])) cap out hout, hpre]
        by_cases h1 : out.length + ((encodeStr t).length + 2) ≤ cap
        · rw [if_pos h1]
          have ihp2 := ihv p (by omega) cap (out ++ (123 :: (encodeStr t ++ [58])))
            (by simp; omega)
          simp only [ihp2]
          by_cases h2 : out.length + (encodeStr t).length + 2 + (encodeValue p).length ≤ cap
          · rw [if_pos (by simp; omega)]
            have h3 := wBytes_run [125] cap
              ((out ++ (123 :: (encodeStr t ++ [58]))) ++ encodeValue p) (by simp; omega)
            simp only [h3, length_singleton]
            rw [hEnc]
            by_cases h4 : out.length + (encodeStr t).length + 2 + (encodeValue p).length + 1 ≤ cap
            · rw [if_pos (by simp; omega), if_pos (by simp; omega)]
              simp
            · rw [if_neg (by simp; omega), if_neg (by simp; omega)]
          · rw [if_neg (by simp; omega), hEnc, if_neg (by simp; omega)]
        · rw [if_neg h1, hEnc, if_neg (by simp; omega)]
    · intro l hl cap out hout
      cases l with
      | nil => simp [serElems, encodeElems, hout]
      | cons v vs =>
        cases vs with
        | nil =>
          have hs : sizeOf ([v] : List Value) = 1 + sizeOf v + 1 := by simp
          have hE : encodeElems [v] = encodeValue v := by simp [encodeElems]
          simp only [serElems, hE]
          exact ihv v (by omega) cap out hout
        | cons w ws =>
          have hs : sizeOf (v :: w :: ws) = 1 + sizeOf v + sizeOf (w :: ws) := by simp
          have hwp : 1 ≤ sizeOf (w :: ws) := by
            have : sizeOf (w :: ws) = 1 + sizeOf w + sizeOf ws := by simp
            omega
          simp only [serElems]
          rw [ihv v (by omega) cap out hout]
          by_cases h1 : out.length + (encodeValue v).length ≤ cap
          · rw [if_pos h1]
            have h2 := wBytes_run [44] cap (out ++ encodeValue v) (by simp; omega)
            simp only [h2, length_singleton]
            by_cases h3 : out.length + (encodeValue v).length + 1 ≤ cap
            · rw [if_pos (by simp; omega)]
              have ihr := ihl (w :: ws) (by omega) cap ((out ++ encodeValue v) ++ [44])
                (by simp; omega)
              simp only [ihr]
              rw [encodeElems_cons]
              by_cases h4 : out.length + (encodeValue v).length + 1
                  + (encodeElems (w :: ws)).length ≤ cap
              · rw [if_pos (by simp; omega), if_pos (by simp; omega)]
                simp
              · rw [if_neg (by simp; omega), if_neg (by simp; omega)]
            · rw [if_neg (by simp; omega), encodeElems_cons, if_neg (by simp; omega)]
          · rw [if_neg h1, encodeElems_cons, if_neg (by simp; omega)]
    · intro fs hfs cap out hout
      cases fs with
      | nil => simp [serPairs, encodePairs, hout]
      | cons x xs =>
        obtain ⟨k, v⟩ := x
        have hpre : (encodeStr k ++ [58]).length = (encodeStr k).length + 1 := by simp
        have hsp : sizeOf ((k, v) : List Nat × Value) = 1 + sizeOf k + sizeOf v := by simp
        cases xs with
        | nil =>
          have hs : sizeOf [((k, v) : List Nat × Value)] = 1 + sizeOf (k, v) + 1 := by simp
          have hE : encodePairs [(k, v)] = encodeStr k ++ 58 :: encodeValue v := by
            simp [encodePairs]
          simp only [serPairs]
          rw [wBytes_run (encodeStr k ++ [58]) cap out hout, hpre]
          by_cases h1 : out.length + ((encodeStr k).length + 1) ≤ cap
          · rw [if_pos h1]
            have ihr := ihv v (by omega) cap (out ++ (encodeStr k ++ [58])) (by simp; omega)
            simp only [ihr]
            rw [hE]
            by_cases h2 : out.length + (encodeStr k).length + 1 + (encodeValue v).length ≤ cap
            · rw [if_pos (by simp; omega), if_pos (by simp; omega)]
              simp
            · rw [if_neg (by simp; omega), if_neg (by simp; omega)]
          · rw [if_neg h1, hE, if_neg (by simp; omega)]
        | cons y ys =>
          have hs : sizeOf ((k, v) :: y :: ys) = 1 + sizeOf (k, v) + sizeOf (y :: ys) := by simp
          have hyp : 1 ≤ sizeOf (y :: ys) := by
            have : sizeOf (y :: ys) = 1 + sizeOf y + sizeOf ys := by simp
            omega
          simp only [serPairs]
          rw [wBytes_run (encodeStr k ++ [58]) cap out hout, hpre]
          by_cases h1 : out.length + ((encodeStr k).length + 1) ≤ cap
          · rw [if_pos h1]
            have ihr := ihv v (by omega) cap (out ++ (encodeStr k ++ [58])) (by simp; omega)
            simp only [ihr]
            by_cases h2 : out.length + (encodeStr k).length + 1 + (encodeValue v).length ≤ cap
            · rw [if_pos (by simp; omega)]
              have h3 := wBytes_run [44] cap
                ((out ++ (encodeStr k ++ [58])) ++ encodeValue v) (by simp; omega)
              simp only [h3, length_singleton]
              by_cases h4 : out.length + (encodeStr k).length + 1 + (encodeValue v).length
                  + 1 ≤ cap
              · rw [if_pos (by simp; omega)]
                have ihr2 := ihf (y :: ys) (by omega) cap
                  (((out ++ (encodeStr k ++ [58])) ++ encodeValue v) ++ [44])
                  (by simp; omega)
                simp only [ihr2]
                rw [encodePairs_cons]
                by_cases h5 : out.length + (encodeStr k).length + 1 + (encodeValue v).length
                    + 1 + (encodePairs (y :: ys)).length ≤ cap
                · rw [if_pos (by simp; omega), if_pos (by simp; omega)]
                  simp
                · rw [if_neg (by simp; omega), if_neg (by simp; omega)]
              · rw [if_neg (by simp; omega), encodePairs_cons, if_neg (by simp; omega)]
            · rw [if_neg (by simp; omega), encodePairs_cons, if_neg (by simp; omega)]
          · rw [if_neg h1, encodePairs_cons, if_neg (by simp; omega)]

/-- The encode entry point writes the full compact serialization when the sink
has room for it and fails with `BufferFull` otherwise, never truncating. -/
theorem to_vec_run (v : Value) (cap : Nat) :
    to_vec v cap = if (encodeValue v).length ≤ cap then .ok (encodeValue v)
      else .error .BufferFull := by
  have h := (ser_run (sizeOf v)).1 v (le_refl _) cap [] (by simp)
  simpa [to_vec] using h

/-! ### Decidable side conditions for concrete instances -/

/-- Every key of the supplied object is escape-free. -/
def escvKeysP (provided : List (List Nat × Value)) : Bool :=
  provided.all (fun p => escvList p.1)

/-- Every supplied pair whose key is a declared field carries a conforming,
escape-free, well-nested value for that field. -/
def matchedConf (fields : List (List Nat × Schema)) (provided : List (List Nat × Value)) :
    Bool :=
  provided.all (fun p =>
    match lookupN fields p.1 with
    | some sch => conforms sch p.2 && escv p.2 && goodOpt p.2
    | none => true)

theorem escvKeysP_forall (provided : List (List Nat × Value)) (h : escvKeysP provided = true) :
    ∀ p ∈ provided, escvList p.1 = true := by
  intro p hp
  simp only [escvKeysP, List.all_eq_true] at h
  exact h p hp

theorem matchedConf_forall (fields : List (List Nat × Schema))
    (provided : List (List Nat × Value)) (h : matchedConf fields provided = true) :
    ∀ p ∈ provided, ∀ sch : Schema, lookupN fields p.1 = some sch →
      conforms sch p.2 = true ∧ escv p.2 = true ∧ goodOpt p.2 = true := by
  intro p hp sch hlk
  simp only [matchedConf, List.all_eq_true] at h
  have h2 := h p hp
  rw [hlk] at h2
  simp at h2
  tauto

theorem matchedPairs_mem (fields : List (List Nat × Schema))
    (provided : List (List Nat × Value)) :
    ∀ p ∈ matchedPairs fields provided, p ∈ provided ∧ (lookupN fields p.1).isSome = true := by
  intro p hp
  simp only [matchedPairs] at hp
  exact ⟨(List.mem_filter.mp hp).1, (List.mem_filter.mp hp).2⟩

/-- The integer deserializer on the exact decimal text of any integer returns
that integer when it is in the target range and `IntegerOverflow` otherwise. -/
theorem from_slice_int (sg : Bool) (bits : Nat) (n : Int) :
    from_slice (.sInt sg bits) (intDec n)
      = if intMin sg bits ≤ n ∧ n ≤ intMax sg bits then .ok (.vInt n)
        else .error .IntegerOverflow := by
  obtain ⟨f, hf⟩ : ∃ f2, (schemaSize (Schema.sInt sg bits) + 1) * ((intDec n).length + 1)
      = f2 + 1 := by
    refine ⟨(schemaSize (Schema.sInt sg bits) + 1) * ((intDec n).length + 1) - 1, ?_⟩
    have hpos : 0 < (schemaSize (Schema.sInt sg bits) + 1) * ((intDec n).length + 1) :=
      Nat.mul_pos (by omega) (by omega)
    omega
  have hsk : skipWs (intDec n) = intDec n := by
    have h := skipWs_enc (Value.vInt n) []
    simpa [encodeValue] using h
  simp only [from_slice]
  rw [hf, parseValue_sInt, hsk]
  by_cases hin : intMin sg bits ≤ n ∧ n ≤ intMax sg bits
  · rw [if_pos hin]
    have hp := parseInt_intDec sg bits n hin.1 hin.2 [] rfl
    rw [List.append_nil] at hp
    simp only [hp, Except.map]
    simp [skipWs]
  · rw [if_neg hin]
    rcases not_and_or.mp hin with h1 | h1
    · have hlo : n < intMin sg bits := by omega
      have hp := parseInt_overflow_lo sg bits n hlo [] rfl
      rw [List.append_nil] at hp
      simp only [hp, Except.map]
    · have hhi : intMax sg bits < n := by omega
      have hp := parseInt_overflow_hi sg bits n hhi [] rfl
      rw [List.append_nil] at hp
      simp only [hp, Except.map]

/-! ### The claims -/

/-- Claim C1: the spec promises decode(encode(v)) = v for every value built
from booleans, in-range integers, finite floats, escape-free strings,
options, sequences, tuples, records and enum variants.  As stated this is
false for options: a present optional wrapping the empty optional serializes
as `null`, which decodes back to the empty optional, so `Some(None)`-shaped
values do not round-trip.  The claim holds for the whole listed class, finite
floats included, once it is restricted to values in which no present optional
wraps a null-serializing payload (`goodOpt`): every conforming value — and a
value conforming to a float schema is exactly a canonical finite float —
round-trips.  First part: the concrete counterexample to the claim as
written; second part: the corrected round-trip theorem over the full class. -/
theorem claim_C1 :
    (from_slice (.sOpt (.sOpt .sBool)) (encodeValue (.vSome .vNone)) = .ok .vNone
      ∧ Value.vSome .vNone ≠ Value.vNone)
  ∧ (∀ (v : Value) (sch : Schema), conforms sch v = true → schemaWF sch = true →
      escv v = true → goodOpt v = true → from_slice sch (encodeValue v) = .ok v) := by
  refine ⟨⟨rfl, ?_⟩, ?_⟩
  · nofun
  · intro v sch hc hwf he hg
    exact from_slice_enc v sch hc hwf he hg

/-- A present optional wrapping the empty optional serializes as the `null`
literal, which decodes back to the empty optional, so this value does not
round-trip even though it is built only from the shapes the claim lists. -/
theorem claim_C1_counterexample :
    from_slice (.sOpt (.sOpt .sBool)) (encodeValue (.vSome .vNone)) = .ok .vNone
  ∧ Value.vSome .vNone ≠ Value.vNone := ⟨rfl, nofun⟩

theorem claim_C1_witness :
    (conforms (.sOpt .sBool) (.vSome (.vBool true)) = true
  ∧ from_slice (.sOpt .sBool) (encodeValue (.vSome (.vBool true)))
      = .ok (.vSome (.vBool true)))
  ∧ (conforms (.sFloat 2 (-4)) (.vFloat 3 (-1)) = true
  ∧ from_slice (.sFloat 2 (-4)) (encodeValue (.vFloat 3 (-1)))
      = .ok (.vFloat 3 (-1))) :=
  ⟨⟨by decide, claim_C1.2 (.vSome (.vBool true)) (.sOpt .sBool)
    (by decide) (by decide) (by decide) (by decide)⟩,
   ⟨by decide, claim_C1.2 (.vFloat 3 (-1)) (.sFloat 2 (-4))
    (by decide) (by decide) (by decide) (by decide)⟩⟩

/-- Claim C2: for every width and signedness, decoding the exact decimal text
of the type minimum and maximum succeeds with that exact value, and decoding
the text one past either boundary fails with `IntegerOverflow` (the model
accumulates digits range-checked against the target type itself, per the
spec's checked multiply-then-add discipline). -/
theorem claim_C2 (sg : Bool) (bits : Nat) :
    from_slice (.sInt sg bits) (intDec (intMin sg bits)) = .ok (.vInt (intMin sg bits))
  ∧ from_slice (.sInt sg bits) (intDec (intMax sg bits)) = .ok (.vInt (intMax sg bits))
  ∧ from_slice (.sInt sg bits) (intDec (intMax sg bits + 1)) = .error .IntegerOverflow
  ∧ from_slice (.sInt sg bits) (intDec (intMin sg bits - 1)) = .error .IntegerOverflow := by
  have hlo := intMin_nonpos sg bits
  have hhi := intMax_nonneg sg bits
  refine ⟨?_, ?_, ?_, ?_⟩
  · rw [from_slice_int, if_pos ⟨le_refl _, by omega⟩]
  · rw [from_slice_int, if_pos ⟨by omega, le_refl _⟩]
  · rw [from_slice_int, if_neg (by omega)]
  · rw [from_slice_int, if_neg (by omega)]

/-- Claim C3: deserializing a string token scans byte-by-byte from the
opening quote, a backslash makes the next byte skip interpretation, and the
result is the raw byte subslice between the quotes, escape sequences left
unmodified.  `strTokenOk body` says the token really ends at the closing
quote written after `body`: no unescaped quote inside and no dangling final
backslash. -/
theorem claim_C3 (body rest : List Nat) (h : strTokenOk body = true) :
    parseStr (34 :: (body ++ 34 :: rest)) = .ok (body, rest) := by
  simp only [parseStr]
  exact scanStr_token body h rest

theorem claim_C3_witness :
    strTokenOk [97, 92, 34, 98] = true
  ∧ parseStr (34 :: ([97, 92, 34, 98] ++ 34 :: [])) = .ok ([97, 92, 34, 98], []) :=
  ⟨by decide, claim_C3 [97, 92, 34, 98] [] (by decide)⟩

/-- Claim C4: decoding a serialized object against a record schema fails with
`MissingField` when some declared non-optional field has no matching key, and
succeeds when every declared field is either supplied or optional, with the
absent optionals (and those supplied as `null`, which decode to the empty
state) resolved to the empty optional state. -/
theorem claim_C4 (fields : List (List Nat × Schema)) (provided : List (List Nat × Value))
    (hwf : schemaWF (.sRec fields) = true)
    (hk : escvKeysP provided = true) (hm : matchedConf fields provided = true) :
    (fields.any (fun p => (lookupN (matchedPairs fields provided) p.1).isNone
        && !(isOptS p.2)) = true →
      from_slice (.sRec fields) (encodeValue (.vRec provided)) = .error .MissingField)
  ∧ (fields.all (fun p => (lookupN (matchedPairs fields provided) p.1).isSome
        || isOptS p.2) = true →
      from_slice (.sRec fields) (encodeValue (.vRec provided))
        = .ok (.vRec (fields.map (fun p =>
            (p.1, (lookupN (matchedPairs fields provided) p.1).getD Value.vNone))))) := by
  have hkeys := escvKeysP_forall provided hk
  have hmm := matchedConf_forall fields provided hm
  constructor
  · intro hex
    rw [from_slice_record fields provided hwf hkeys hmm,
        assemble_missing fields (matchedPairs fields provided) ?_]
    · rfl
    · obtain ⟨p, hp, hcond⟩ := List.any_eq_true.mp hex
      simp only [Bool.and_eq_true, Bool.not_eq_true'] at hcond
      exact ⟨p, hp, Option.isNone_iff_eq_none.mp hcond.1, hcond.2⟩
  · intro hall
    rw [from_slice_record fields provided hwf hkeys hmm,
        assemble_ok fields (matchedPairs fields provided) ?_]
    · rfl
    · intro p hp
      have h := List.all_eq_true.mp hall p hp
      simpa using h

theorem claim_C4_witness :
    from_slice (.sRec [([65], .sOpt .sBool), ([66], .sBool)])
        (encodeValue (.vRec [([66], .vBool true)]))
      = .ok (.vRec [([65], .vNone), ([66], .vBool true)])
  ∧ from_slice (.sRec [([65], .sOpt .sBool), ([66], .sBool)])
        (encodeValue (.vRec [([65], .vNone)]))
      = .error .MissingField := by
  constructor
  · have h := (claim_C4 [([65], .sOpt .sBool), ([66], .sBool)] [([66], .vBool true)]
      (by decide) (by decide) (by decide)).2 (by decide)
    simpa [matchedPairs, lookupN] using h
  · exact (claim_C4 [([65], .sOpt .sBool), ([66], .sBool)] [([65], .vNone)]
      (by decide) (by decide) (by decide)).1 (by decide)

/-- Claim C5: decoding an object that supplies keys not declared by the
record succeeds as if those pairs were not present: the extra pairs are
consumed structurally and the result equals decoding the object stripped to
its declared-field pairs. -/
theorem claim_C5 (fields : List (List Nat × Schema)) (provided : List (List Nat × Value))
    (hwf : schemaWF (.sRec fields) = true)
    (hk : escvKeysP provided = true) (hm : matchedConf fields provided = true) :
    from_slice (.sRec fields) (encodeValue (.vRec provided))
      = from_slice (.sRec fields) (encodeValue (.vRec (matchedPairs fields provided))) := by
  have hkeys := escvKeysP_forall provided hk
  have hmm := matchedConf_forall fields provided hm
  rw [from_slice_record fields provided hwf hkeys hmm,
      from_slice_record fields (matchedPairs fields provided) hwf
        (fun p hp => hkeys p (matchedPairs_mem fields provided p hp).1)
        (fun p hp sch hlk => hmm p (matchedPairs_mem fields provided p hp).1 sch hlk),
      matchedPairs_all fields (matchedPairs fields provided)
        (fun p hp => (matchedPairs_mem fields provided p hp).2)]

theorem claim_C5_witness :
    from_slice (.sRec [([65], .sBool)])
        (encodeValue (.vRec [([65], .vBool true), ([90], .vStr [97])]))
      = from_slice (.sRec [([65], .sBool)])
        (encodeValue (.vRec (matchedPairs [([65], .sBool)]
          [([65], .vBool true), ([90], .vStr [97])]))) :=
  claim_C5 [([65], .sBool)] [([65], .vBool true), ([90], .vStr [97])]
    (by decide) (by decide) (by decide)

/-- Claim C6: enum decoding dispatches on the tag by exact name: a declared
unit variant is accepted exactly from the bare string of its name, a declared
payload variant exactly from the single-key object of its name and payload,
and a tag not matching any declared variant fails with `UnknownVariant`,
whether it arrives as a bare string or as an object key. -/
theorem claim_C6 (vars : List (List Nat × Option Schema)) (t : List Nat)
    (hwf : schemaWF (.sEnum vars) = true) (ht : escvList t = true) :
    (lookupN vars t = some none →
      from_slice (.sEnum vars) (encodeValue (.vEnumUnit t)) = .ok (.vEnumUnit t))
  ∧ (∀ (s : Schema) (p : Value), lookupN vars t = some (some s) → conforms s p = true →
      escv p = true → goodOpt p = true →
      from_slice (.sEnum vars) (encodeValue (.vEnumPayload t p)) = .ok (.vEnumPayload t p))
  ∧ (lookupN vars t = none →
      from_slice (.sEnum vars) (encodeStr t) = .error .UnknownVariant)
  ∧ (∀ p : Value, lookupN vars t = none →
      from_slice (.sEnum vars) (encodeValue (.vEnumPayload t p))
        = .error .UnknownVariant) := by
  refine ⟨?_, ?_, ?_, ?_⟩
  · intro hlk
    exact from_slice_enc (.vEnumUnit t) (.sEnum vars)
      (by simp only [conforms, hlk]) hwf rfl rfl
  · intro s p hlk hcp hep hgp
    refine from_slice_enc (.vEnumPayload t p) (.sEnum vars) ?_ hwf ?_ ?_
    · simp only [conforms, hlk]
      exact hcp
    · simpa [escv] using hep
    · simpa [goodOpt] using hgp
  · intro hlk
    obtain ⟨f, hf⟩ : ∃ f2, (schemaSize (Schema.sEnum vars) + 1) * ((encodeStr t).length + 1)
        = f2 + 1 := by
      refine ⟨(schemaSize (Schema.sEnum vars) + 1) * ((encodeStr t).length + 1) - 1, ?_⟩
      have hpos : 0 < (schemaSize (Schema.sEnum vars) + 1) * ((encodeStr t).length + 1) :=
        Nat.mul_pos (by omega) (by omega)
      omega
    have hE : encodeStr t = 34 :: (escBytes t ++ 34 :: []) := by simp [encodeStr]
    simp only [from_slice]
    rw [hf, parseValue_sEnum, hE, skipWs34]
    simp only [enumHead, escvList_escBytes t ht,
      scanStr_token t (escvList_strTokenOk t ht), hlk]
  · intro p hlk
    obtain ⟨f, hf⟩ : ∃ f2, (schemaSize (Schema.sEnum vars) + 1)
        * ((encodeValue (Value.vEnumPayload t p)).length + 1) = f2 + 1 := by
      refine ⟨(schemaSize (Schema.sEnum vars) + 1)
        * ((encodeValue (Value.vEnumPayload t p)).length + 1) - 1, ?_⟩
      have hpos : 0 < (schemaSize (Schema.sEnum vars) + 1)
          * ((encodeValue (Value.vEnumPayload t p)).length + 1) :=
        Nat.mul_pos (by omega) (by omega)
      omega
    have hED : encodeValue (Value.vEnumPayload t p)
        = 123 :: (encodeStr t ++ 58 :: (encodeValue p ++ [125])) := by
      simp [encodeValue]
    simp only [from_slice]
    rw [hf, parseValue_sEnum, hED, skipWs_cons _ (by decide : isWs 123 = false)]
    simp only [enumHead, skipWs_encodeStr, parseStr_encodeStr_escv t ht, skipWs58, hlk]

theorem claim_C6_witness :
    from_slice (.sEnum [([65], none), ([66], some .sBool)]) (encodeValue (.vEnumUnit [65]))
      = .ok (.vEnumUnit [65])
  ∧ from_slice (.sEnum [([65], none), ([66], some .sBool)])
      (encodeValue (.vEnumPayload [66] (.vBool true))) = .ok (.vEnumPayload [66] (.vBool true))
  ∧ from_slice (.sEnum [([65], none), ([66], some .sBool)]) (encodeStr [90])
      = .error .UnknownVariant := by
  refine ⟨?_, ?_, ?_⟩
  · exact (claim_C6 [([65], none), ([66], some .sBool)] [65] (by decide) (by decide)).1 rfl
  · exact (claim_C6 [([65], none), ([66], some .sBool)] [66] (by decide) (by decide)).2.1
      .sBool (.vBool true) rfl (by decide) (by decide) (by decide)
  · exact (claim_C6 [([65], none), ([66], some .sBool)] [90] (by decide) (by decide)).2.2.1 rfl

/-- Claim C7: both decode entry points reject input whose single top-level
value is followed by anything but whitespace, failing with
`TrailingCharacters`; in particular the text `1 2` decoded into an integer
target fails with `TrailingCharacters`. -/
theorem claim_C7 :
    (∀ (sch : Schema) (bs : List Nat) (v : Value) (r : List Nat),
      parseValue ((schemaSize sch + 1) * (bs.length + 1)) sch bs = .ok (v, r) →
      skipWs r ≠ [] → from_slice sch bs = .error .TrailingCharacters)
  ∧ from_str (.sInt true 32) "1 2" = .error .TrailingCharacters := by
  constructor
  · intro sch bs v r hp hr
    simp only [from_slice, hp]
    rw [if_neg hr]
  · rfl

theorem claim_C7_witness :
    from_slice (.sInt true 32) [49, 32, 50] = .error .TrailingCharacters :=
  claim_C7.1 (.sInt true 32) [49, 32, 50] (.vInt 1) [32, 50] rfl (by decide)

/-- Claim C8: for every value and every sink capacity, encoding writes the
full compact serialization exactly when it fits and otherwise fails with
`BufferFull`: the sink is never grown and the output is never truncated. -/
theorem claim_C8 (v : Value) (cap : Nat) :
    to_vec v cap = if (encodeValue v).length ≤ cap then .ok (encodeValue v)
      else .error .BufferFull :=
  to_vec_run v cap

/-- Claim C9: decoding from text is decoding from the UTF-8 bytes of the
text; the two entry points agree on every input and schema. -/
theorem claim_C9 (sch : Schema) (s : String) :
    from_str sch s = from_slice sch (utf8Bytes s) := rfl

/-- Claim C10: the crate's own test asserts that values whose strings contain
double quotes (and other escaped bytes) round-trip through encode/decode.
Under the spec's deserializer, which skips but never decodes escape
sequences (spec section on escape asymmetry), this is false: a string
containing a double quote serializes with a backslash escape, and decoding
returns the raw escape bytes, not the original string. -/
theorem claim_C10 :
    to_vec (.vStr [34]) 4 = .ok [34, 92, 34, 34]
  ∧ from_slice .sStr [34, 92, 34, 34] = .ok (.vStr [92, 34])
  ∧ Value.vStr [92, 34] ≠ Value.vStr [34] := by
  refine ⟨rfl, rfl, ?_⟩
  intro h
  have h2 : ([92, 34] : List Nat) = [34] := by injection h
  exact absurd h2 (by decide)

end SerdeJsonWasm
